import Mathlib

/-!
# SRM ride file decoder (`SrmRideFile.cpp`)

A shallow embedding of `SrmFileReader::openRideFile` and its helpers.

Conventions of the embedding

* The input file is a list of bytes (`Fin 256`); `QDataStream` is that list
  together with a read position.
* In the embedding of `openRideFile`, `double` values are exact rationals (`ℚ`): rounding
  is not modelled there, and the one place where a non-finite `double` is kept apart is
  the torque, see `torque`.  What is proved on it concerns the control flow and the
  values that are passed on.
* The elapsed time and the distance of the samples are embedded a second time in IEEE 754
  `double` arithmetic (`Dbl`, `sampleStepD`, `openRideFileD`); what depends on the
  rounding of the sums or on a non-finite recording interval is stated there.
* `assert` and the range check of `QVector::operator[]` end the run; the
  outcome then carries the state of the sink at that moment.
* `htons`/`htonl` depend on the byte order of the host, which is a parameter
  (`le = true` for a little-endian host).
-/

namespace SrmRideFile

/-! ## Byte stream -/

/-- One byte of the file. -/
abbrev Byte := Fin 256

/-- The `QDataStream` over the opened file: the whole content and the read position. -/
structure QDataStream where
  data : List Byte
  pos : Nat
  deriving DecidableEq, Repr

/-- Device read of `n` bytes: delivers the bytes that are left, at most `n`, and moves the
position behind them (it never moves past the end of the file). -/
def QDataStream.read (s : QDataStream) (n : Nat) : List Byte × QDataStream :=
  ((s.data.drop s.pos).take n, { s with pos := min (s.pos + n) s.data.length })

/-- `in.readRawData(buf, n)`: the buffer receives the bytes delivered.  Past the end of the
file the C++ buffer keeps whatever it held; the model fixes those bytes to 0. -/
def readRawData (s : QDataStream) (n : Nat) : List Byte × QDataStream :=
  let r := s.read n
  (r.1 ++ List.replicate (n - r.1.length) 0, r.2)

/-- `QDataStream::operator>>(quint8&)`: the next byte, or 0 past the end. -/
def streamByte (s : QDataStream) : Nat × QDataStream :=
  let r := s.read 1
  match r.1 with
  | [b] => (b.val, r.2)
  | _ => (0, r.2)

/-- `QDataStream::operator>>(quint16&)`.  A `QDataStream` is big-endian unless
`setByteOrder` is called (it is not called in `SrmRideFile.cpp`), so the value delivered
is `b0 * 256 + b1` on every host; 0 when fewer than two bytes are left. -/
def streamShort (s : QDataStream) : Nat × QDataStream :=
  let r := s.read 2
  match r.1 with
  | [b0, b1] => (b0.val * 256 + b1.val, r.2)
  | _ => (0, r.2)

/-- `QDataStream::operator>>(quint32&)`, big-endian as `streamShort`. -/
def streamLong (s : QDataStream) : Nat × QDataStream :=
  let r := s.read 4
  match r.1 with
  | [b0, b1, b2, b3] =>
    (b0.val * 2 ^ 24 + b1.val * 2 ^ 16 + b2.val * 2 ^ 8 + b3.val, r.2)
  | _ => (0, r.2)

/-- `htons`: the identity on a big-endian host, a swap of the two bytes on a
little-endian host (`le = true`). -/
def htons (le : Bool) (v : Nat) : Nat :=
  if le then (v % 256) * 256 + (v / 256) % 256 else v % 2 ^ 16

/-- `htonl`: the identity on a big-endian host, a reversal of the four bytes on a
little-endian host (`le = true`). -/
def htonl (le : Bool) (v : Nat) : Nat :=
  if le then
    (v % 256) * 2 ^ 24 + ((v / 2 ^ 8) % 256) * 2 ^ 16 + ((v / 2 ^ 16) % 256) * 2 ^ 8
      + (v / 2 ^ 24) % 256
  else v % 2 ^ 32

/-- `readByte`. -/
def readByte (s : QDataStream) : Nat × QDataStream :=
  streamByte s

/-- `readShort`: `in >> value; return htons(value);`. -/
def readShort (le : Bool) (s : QDataStream) : Nat × QDataStream :=
  let r := streamShort s
  (htons le r.1, r.2)

/-- `readLong`: `in >> value; return htonl(value);`. -/
def readLong (le : Bool) (s : QDataStream) : Nat × QDataStream :=
  let r := streamLong s
  (htonl le r.1, r.2)

/-! ## Markers and block headers -/

/-- `struct marker { int start, end; }`. -/
structure marker where
  start : Int
  end_ : Int
  deriving DecidableEq, Repr

/-- `struct blockhdr`.  `dt` is the `QDateTime` as a count of milliseconds since
1880-01-01 00:00 (local time); `addMSecs` is addition on that count. -/
structure blockhdr where
  dt : Int
  chunkcnt : Nat
  deriving DecidableEq, Repr

/-- The data fixup of the marker loop (lines 126-138): clamp `end` and `start` below 1
up to 1, then store them swapped when `end < start`. -/
def fixup (start end_ : Int) : marker :=
  let end1 := if end_ < 1 then 1 else end_
  let start1 := if start < 1 then 1 else start
  if end1 < start1 then { start := end1, end_ := start1 }
  else { start := start1, end_ := end1 }

/-! ## The sink (`RideFile`) -/

/-- Modelled from the spec: `RideFilePoint`, declared in `RideFile.h`.  One sample as `appendPoint` receives it: elapsed seconds,
cadence, heart rate, cumulative km, kph, torque, watts, altitude and the interval index
(the three reserved channels, always 0, are left out).  The torque is `none` when the
`double` is not finite. -/
structure RideFilePoint where
  secs : ℚ
  cad : Int
  hr : Int
  km : ℚ
  kph : ℚ
  nm : Option ℚ
  watts : Int
  alt : ℚ
  interval : Int
  deriving DecidableEq, Repr

/-- Modelled from the spec: `RideFileInterval`, declared in `RideFile.h`: a named range
`(start_secs, end_secs, name)` as `addInterval` receives it. -/
structure RideFileInterval where
  start : ℚ
  stop : ℚ
  name : String
  deriving DecidableEq, Repr

/-- Modelled from the spec: the ride-data container `RideFile`, declared in `RideFile.h`.
It records the device type, the start time, the recording interval, and the samples and
intervals in the order in which they were appended. -/
structure RideFile where
  deviceType : String
  startTime : Option Int
  recIntSecs : ℚ
  dataPoints : List RideFilePoint
  intervals : List RideFileInterval
  deriving DecidableEq, Repr

/-- Modelled from the spec: `new RideFile`, an empty container. -/
def RideFile.new : RideFile :=
  { deviceType := "", startTime := none, recIntSecs := 0, dataPoints := [], intervals := [] }

/-- Modelled from the spec: `RideFile::appendPoint`, which appends one sample. -/
def RideFile.appendPoint (r : RideFile) (p : RideFilePoint) : RideFile :=
  { r with dataPoints := r.dataPoints ++ [p] }

/-- Modelled from the spec: `RideFile::addInterval`, which appends one interval. -/
def RideFile.addInterval (r : RideFile) (start stop : ℚ) (name : String) : RideFile :=
  { r with intervals := r.intervals ++ [{ start := start, stop := stop, name := name }] }

/-- What a run of `openRideFile` leaves behind: the sink, the diagnostics, and whether the
function returned (`false`: the run was ended by an `assert` or by the range check of
`QVector::operator[]`). -/
structure Outcome where
  result : RideFile
  errorStrings : List String
  returned : Bool
  deriving DecidableEq, Repr

/-! ## Header, marker table, block table -/

/-- The fields of the file header in the order in which they are read (lines 86-102).  The
comment is not used further, and the NUL that line 103 writes into it is left out. -/
structure Header where
  magic : List Byte
  dayssince1880 : Nat
  wheelcirc : Nat
  recint1 : Nat
  recint2 : Nat
  blockcnt : Nat
  markercnt : Nat
  commentlen : Nat
  comment : List Byte
  deriving DecidableEq, Repr

/-- The reads of lines 86-102. -/
def readHeader (le : Bool) (s : QDataStream) : Header × QDataStream :=
  let magic := readRawData s 4
  let dayssince1880 := readShort le magic.2
  let wheelcirc := readShort le dayssince1880.2
  let recint1 := readByte wheelcirc.2
  let recint2 := readByte recint1.2
  let blockcnt := readShort le recint2.2
  let markercnt := readShort le blockcnt.2
  let padding := readByte markercnt.2
  let commentlen := readByte padding.2
  let comment := readRawData commentlen.2 70
  ({ magic := magic.1, dayssince1880 := dayssince1880.1, wheelcirc := wheelcirc.1,
     recint1 := recint1.1, recint2 := recint2.1, blockcnt := blockcnt.1,
     markercnt := markercnt.1, commentlen := commentlen.1, comment := comment.1 },
   comment.2)

/-- `strncmp(magic, "SRM", 3) == 0`. -/
def Header.tagOk (h : Header) : Bool :=
  h.magic.take 3 == [83, 82, 77]

/-- `int version = magic[3] - '0';`.  The byte is taken as unsigned; whether `char` is
signed does not change which bytes give 6 or 7. -/
def Header.version (h : Header) : Int :=
  ((h.magic.getD 3 0).val : Int) - 48

/-- `((double) recint1) / recint2`.  The source does not test `recint2`; with `recint2 = 0`
the `double` is an infinity or a NaN, where the division of `ℚ` gives 0.  The `double`
itself is `Header.recIntSecsD`. -/
def Header.recIntSecs (h : Header) : ℚ :=
  (h.recint1 : ℚ) / (h.recint2 : ℚ)

/-- C `round` to the nearest integer, halves away from zero. -/
def cround (q : ℚ) : Int :=
  if 0 ≤ q then Rat.floor (q + 1 / 2) else -Rat.floor (-q + 1 / 2)

/-- `unsigned recintms = (unsigned) round(result->recIntSecs() * 1000.0);`. -/
def Header.recintms (h : Header) : Nat :=
  (cround (h.recIntSecs * 1000) % 2 ^ 32).toNat

/-- One pass of the marker loop (lines 113-138): the reads, then the fixup. -/
def readMarker (le : Bool) (s : QDataStream) : marker × QDataStream :=
  let mcomment := readRawData s 255
  let active := readByte mcomment.2
  let start := readShort le active.2
  let end_ := readShort le start.2
  let avgwatts := readShort le end_.2
  let avghr := readShort le avgwatts.2
  let avgcad := readShort le avghr.2
  let avgspeed := readShort le avgcad.2
  let pwc150 := readShort le avgspeed.2
  (fixup start.1 end_.1, pwc150.2)

/-- The marker loop run `n` times (`n = markercnt + 1` in `openRideFile`). -/
def readMarkers (le : Bool) : Nat → QDataStream → List marker × QDataStream
  | 0, s => ([], s)
  | n + 1, s =>
    let m := readMarker le s
    let r := readMarkers le n m.2
    (m.1 :: r.1, r.2)

/-- Conversion of a 32-bit pattern to `qint32`. -/
def toInt32 (n : Int) : Int :=
  (n + 2 ^ 31) % 2 ^ 32 - 2 ^ 31

/-- `QDate(1880, 1, 1).addDays(dayssince1880)` as milliseconds since 1880-01-01. -/
def dateMSecs (dayssince1880 : Nat) : Int :=
  (dayssince1880 : Int) * 86400000

/-- One pass of the block loop (lines 156-159).  `hsecsincemidn` is the value of `readLong`
as a `qint32`; the `int` product `hsecsincemidn * 10` wraps around. -/
def readBlock (le : Bool) (date : Int) (s : QDataStream) : blockhdr × QDataStream :=
  let hsecsincemidn := readLong le s
  let chunkcnt := readShort le hsecsincemidn.2
  ({ dt := date + toInt32 (toInt32 hsecsincemidn.1 * 10), chunkcnt := chunkcnt.1 },
   chunkcnt.2)

/-- The block loop run `n` times (`n = blockcnt` in `openRideFile`). -/
def readBlocks (le : Bool) (date : Int) : Nat → QDataStream → List blockhdr × QDataStream
  | 0, s => ([], s)
  | n + 1, s =>
    let b := readBlock le date s
    let r := readBlocks le date n b.2
    (b.1 :: r.1, r.2)

/-- The reads of lines 162-165; the value kept is `datacnt`. -/
def readTrailer (le : Bool) (s : QDataStream) : Nat × QDataStream :=
  let zero := readShort le s
  let slope := readShort le zero.2
  let datacnt := readShort le slope.2
  let padding := readByte datacnt.2
  (datacnt.1, padding.2)

/-- Everything `openRideFile` has read when the sample loop starts, with the stream
positioned at the first sample. -/
structure Prelude where
  hdr : Header
  markers : List marker
  blockhdrs : List blockhdr
  datacnt : Nat
  inp : QDataStream
  deriving DecidableEq, Repr

/-- The reads of lines 86-165 on the file `file`, in source order. -/
def readPrelude (le : Bool) (file : List Byte) : Prelude :=
  let hdr := readHeader le { data := file, pos := 0 }
  let markers := readMarkers le (hdr.1.markercnt + 1) hdr.2
  let blockhdrs := readBlocks le (dateMSecs hdr.1.dayssince1880) hdr.1.blockcnt markers.2
  let trailer := readTrailer le blockhdrs.2
  { hdr := hdr.1, markers := markers.1, blockhdrs := blockhdrs.1, datacnt := trailer.1,
    inp := trailer.2 }

/-! ## Sample stream -/

/-- `#define PI M_PI`: the `double` constant `M_PI`, which is the rational
`884279719003555 / 2 ^ 48`. -/
def PI : ℚ := 884279719003555 / 281474976710656

/-- `double nm = watts / 2.0 / PI / cad * 60.0;`.  With `cad = 0` the `double` is an
infinity or a NaN, which is `none` here; the source has no test of `cad`. -/
def torque (watts cad : Int) : Option ℚ :=
  if cad = 0 then none else some ((watts : ℚ) / 2 / PI / (cad : ℚ) * 60)

/-- The values one pass of the sample loop decodes from the stream (lines 179-200). -/
structure RawSample where
  cad : Int
  hr : Int
  watts : Int
  kph : ℚ
  alt : ℚ
  deriving DecidableEq, Repr

/-- Byte `i` of a raw buffer, as an unsigned value. -/
def byteAt (buf : List Byte) (i : Nat) : Nat :=
  (buf.getD i 0).val

/-- The version 6 branch (lines 182-189). -/
def readSample6 (s : QDataStream) : RawSample × QDataStream :=
  let ps := readRawData s 3
  let cad := readByte ps.2
  let hr := readByte cad.2
  let kph : ℚ :=
    ((((byteAt ps.1 1 &&& 0xf0) <<< 3) ||| (byteAt ps.1 0 &&& 0x7f) : Nat) : ℚ) * 3 / 26
  let watts : Nat := (byteAt ps.1 1 &&& 0x0f) ||| (byteAt ps.1 2 <<< 4)
  ({ cad := cad.1, hr := hr.1, watts := watts, kph := kph, alt := 0 }, hr.2)

/-- The version 7 branch (lines 192-199). -/
def readSample7 (le : Bool) (s : QDataStream) : RawSample × QDataStream :=
  let watts := readShort le s
  let cad := readByte watts.2
  let hr := readByte cad.2
  let speed := readLong le hr.2
  let alt := readLong le speed.2
  let temp := readShort le alt.2
  ({ cad := cad.1, hr := hr.1, watts := watts.1, kph := (speed.1 : ℚ) * (36 / 10) / 1000,
     alt := (alt.1 : ℚ) }, temp.2)

/-- Lines 181-200: the branch is chosen by `version == 6`. -/
def readSample (le : Bool) (version : Int) (s : QDataStream) : RawSample × QDataStream :=
  if version = 6 then readSample6 s else readSample7 le s

/-- `((qint64) dt.toTime_t()) * 1000 + dt.time().msec()`: the milliseconds of `dt` since
1970-01-01, which is 32872 days after 1880-01-01.  The time zone and the `uint` range of
`toTime_t` are not modelled. -/
def epochMSecs (dt : Int) : Int :=
  dt - 32872 * 86400000

/-- The local variables of `openRideFile` that the sample loop changes, with the sink and
the diagnostics. -/
structure LoopState where
  inp : QDataStream
  blknum : Nat
  blkidx : Nat
  mrknum : Nat
  interval : Int
  km : ℚ
  secs : ℚ
  result : RideFile
  errorStrings : List String
  deriving DecidableEq, Repr

/-- Text of `.arg(diff_secs)`; the `%g` rendering of a `double` is not modelled, the
rational is written as numerator and denominator. -/
def argDouble (q : ℚ) : String :=
  toString q.num ++ "/" ++ toString q.den

/-- One pass of the sample loop (lines 179-243) for the loop index `i`.  `blknum` stays
below `blockcnt` and `markers[mrknum]` is read behind the test `mrknum < markers.size()`,
so the defaults of `getD` are never used.  `recintms * chunkcnt` is an `unsigned`
product.  The sums `km` and `secs` are exact here; `sampleStepD` has them as `double`s. -/
def sampleStep (le : Bool) (p : Prelude) (i : Nat) (st : LoopState) : LoopState :=
  let smp := readSample le p.hdr.version st.inp
  let recIntSecs := st.result.recIntSecs
  let blk := p.blockhdrs.getD st.blknum { dt := 0, chunkcnt := 0 }
  let result1 := if i = 0 then { st.result with startTime := some blk.dt } else st.result
  let atEnd : Bool :=
    decide (st.mrknum < p.markers.length) &&
      decide ((i : Int) = (p.markers.getD st.mrknum ⟨0, 0⟩).end_)
  let interval1 := if atEnd then st.interval + 1 else st.interval
  let mrknum1 := if atEnd then st.mrknum + 1 else st.mrknum
  let atStart : Bool :=
    decide (0 < i) && decide (mrknum1 < p.markers.length) &&
      decide ((i : Int) = (p.markers.getD mrknum1 ⟨0, 0⟩).start - 1)
  let interval2 := if atStart then interval1 + 1 else interval1
  let km := st.km + recIntSecs * smp.1.kph / 3600
  let nm := torque smp.1.watts smp.1.cad
  let result2 := result1.appendPoint
    { secs := st.secs, cad := smp.1.cad, hr := smp.1.hr, km := km, kph := smp.1.kph,
      nm := nm, watts := smp.1.watts, alt := smp.1.alt, interval := interval2 }
  let blkidx := st.blkidx + 1
  if blkidx = blk.chunkcnt ∧ st.blknum + 1 < p.hdr.blockcnt then
    let end_ := blk.dt + ((p.hdr.recintms * blk.chunkcnt % 2 ^ 32 : Nat) : Int)
    let blknum := st.blknum + 1
    let start := (p.blockhdrs.getD blknum { dt := 0, chunkcnt := 0 }).dt
    let diff_secs : ℚ := ((epochMSecs start - epochMSecs end_ : Int) : ℚ) / 1000
    if diff_secs < recIntSecs then
      { inp := smp.2, blknum := blknum, blkidx := 0, mrknum := mrknum1,
        interval := interval2, km := km, secs := st.secs + recIntSecs, result := result2,
        errorStrings := st.errorStrings ++
          ["ERROR: time goes backwards by " ++ argDouble diff_secs ++
            " s on trans to block " ++ toString blknum] }
    else
      { inp := smp.2, blknum := blknum, blkidx := 0, mrknum := mrknum1,
        interval := interval2, km := km, secs := st.secs + diff_secs, result := result2,
        errorStrings := st.errorStrings }
  else
    { inp := smp.2, blknum := st.blknum, blkidx := blkidx, mrknum := mrknum1,
      interval := interval2, km := km, secs := st.secs + recIntSecs, result := result2,
      errorStrings := st.errorStrings }

/-- The sample loop `for (int i = 0; i < datacnt; ++i)`: `n` passes starting at index `i`. -/
def sampleLoop (le : Bool) (p : Prelude) : Nat → Nat → LoopState → LoopState
  | 0, _, st => st
  | n + 1, i, st => sampleLoop le p n (i + 1) (sampleStep le p i st)

/-- The state in which the sample loop is entered (lines 172-176). -/
def initState (p : Prelude) (result : RideFile) : LoopState :=
  { inp := p.inp, blknum := 0, blkidx := 0, mrknum := if 0 < p.hdr.markercnt then 1 else 0,
    interval := 0, km := 0, secs := 0, result := result, errorStrings := [] }

/-! ## Interval reconstruction -/

/-- The state of the marker loop of lines 246-256: `last`, the sink, and whether the loop is
still running (`false` after a failed range check of `dataPoints()[...]`). -/
structure IntervalState where
  last : ℚ
  result : RideFile
  ok : Bool
  deriving DecidableEq, Repr

/-- `result->dataPoints()[idx]->secs`, `none` when `idx` is outside `[0, size)`. -/
def secsAt (r : RideFile) (idx : Int) : Option ℚ :=
  if 0 ≤ idx then (r.dataPoints[idx.toNat]?).map (fun pt => pt.secs) else none

/-- One pass of the marker loop (lines 248-255) for marker number `i`. -/
def intervalStep (i : Nat) (m : marker) (st : IntervalState) : IntervalState :=
  let start := m.start - 1
  match secsAt st.result start with
  | none => { st with ok := false }
  | some start_secs =>
    let end_ := min (m.end_ - 1) ((st.result.dataPoints.length : Int) - 1)
    match secsAt st.result end_ with
    | none => { st with ok := false }
    | some end0 =>
      let end_secs := end0 + st.result.recIntSecs
      let result1 := st.result.addInterval st.last start_secs ""
      let result2 := result1.addInterval start_secs end_secs (toString i)
      { last := end_secs, result := result2, ok := true }

/-- The marker loop `for (int i = 1; i < markers.size(); ++i)` over the markers from
number `i` on; it stops at the first failed range check. -/
def intervalLoop : List marker → Nat → IntervalState → IntervalState
  | [], _, st => st
  | m :: ms, i, st =>
    let st1 := intervalStep i m st
    if st1.ok then intervalLoop ms (i + 1) st1 else st1

/-- Lines 246-260: the marker loop, then the trailing interval. -/
def addIntervals (markers : List marker) (result : RideFile) : IntervalState :=
  let st := intervalLoop markers.tail 1 { last := 0, result := result, ok := true }
  if st.ok then
    match markers.getLast? with
    | none => st
    | some m =>
      if m.end_ < (st.result.dataPoints.length : Int) then
        match st.result.dataPoints.getLast? with
        | none => { st with ok := false }
        | some pt =>
          { st with result := st.result.addInterval st.last (pt.secs + st.result.recIntSecs) "" }
      else st
  else st

/-! ## `openRideFile` -/

/-- `SrmFileReader::openRideFile` on a file that could be opened, on a host that is
little-endian when `le` is true.  The reads are total, so the three `assert`s, which the
source places between the reads, are tested on the values of `readPrelude`. -/
def openRideFile (le : Bool) (file : List Byte) : Outcome :=
  let p := readPrelude le file
  let result0 : RideFile := { RideFile.new with deviceType := "SRM" }
  if ¬ p.hdr.tagOk then
    { result := result0, errorStrings := [], returned := false }
  else if ¬ (p.hdr.version = 6 ∨ p.hdr.version = 7) then
    { result := result0, errorStrings := [], returned := false }
  else
    let result1 : RideFile := { result0 with recIntSecs := p.hdr.recIntSecs }
    if ¬ (0 < p.hdr.blockcnt) then
      { result := result1, errorStrings := [], returned := false }
    else
      let st := sampleLoop le p p.datacnt 0 (initState p result1)
      let iv := addIntervals p.markers st.result
      { result := iv.result, errorStrings := st.errorStrings, returned := iv.ok }

/-! ## Statement vocabulary -/

/-- The three checks of the header that `openRideFile` asserts: the tag `SRM`, the version
6 or 7, and a positive block count. -/
def headerChecks (p : Prelude) : Prop :=
  p.hdr.tagOk = true ∧ (p.hdr.version = 6 ∨ p.hdr.version = 7) ∧ 0 < p.hdr.blockcnt

instance (p : Prelude) : Decidable (headerChecks p) := by
  unfold headerChecks
  infer_instance

/-- The gap, in seconds, that the sample loop computes on the transition from block `k`
to block `k + 1` (lines 221-230): the start of block `k + 1` minus the end of block `k`,
which is its start plus `recintms * chunkcnt` milliseconds. -/
def blockGap (p : Prelude) (k : Nat) : ℚ :=
  let blk := p.blockhdrs.getD k { dt := 0, chunkcnt := 0 }
  let end_ := blk.dt + ((p.hdr.recintms * blk.chunkcnt % 2 ^ 32 : Nat) : Int)
  let start := (p.blockhdrs.getD (k + 1) { dt := 0, chunkcnt := 0 }).dt
  ((epochMSecs start - epochMSecs end_ : Int) : ℚ) / 1000

/-- One step of the elapsed time from `x` to `y` with the recording interval `r`: either
exactly one recording interval, or the computed gap of a block transition that is at
least one recording interval. -/
def SecsStep (p : Prelude) (r x y : ℚ) : Prop :=
  y = x + r ∨ ∃ k, k + 1 < p.hdr.blockcnt ∧ r ≤ blockGap p k ∧ y = x + blockGap p k

/-- The invariant of the sample loop on the elapsed-time axis: consecutive samples in the
sink are one `SecsStep` apart, the running `secs` is one `SecsStep` after the last sample,
and the first sample is at time 0. -/
def SecsInv (p : Prelude) (st : LoopState) : Prop :=
  List.Chain' (fun a b : RideFilePoint => SecsStep p st.result.recIntSecs a.secs b.secs)
    st.result.dataPoints ∧
  (∀ pt ∈ st.result.dataPoints.getLast?, SecsStep p st.result.recIntSecs pt.secs st.secs) ∧
  (∀ pt ∈ st.result.dataPoints.head?, pt.secs = 0) ∧
  (st.result.dataPoints = [] → st.secs = 0)

/-- The state of the sample loop of `openRideFile` when pass `i` begins, for a file that
passes the header checks. -/
def loopStateAt (le : Bool) (file : List Byte) (i : Nat) : LoopState :=
  sampleLoop le (readPrelude le file) i 0
    (initState (readPrelude le file)
      { RideFile.new with
        deviceType := "SRM",
        recIntSecs := (readPrelude le file).hdr.recIntSecs })

/-- The state in which `openRideFile` leaves the sample loop when the header checks pass. -/
def afterSamples (le : Bool) (file : List Byte) : LoopState :=
  loopStateAt le file (readPrelude le file).datacnt

/-- The number of bytes that the reads of one pass of the sample loop ask for: 3 + 1 + 1
in the version 6 branch (lines 183-185), 2 + 1 + 1 + 4 + 4 + 2 in the version 7 branch
(lines 193-198). -/
def sampleSize (version : Int) : Nat :=
  if version = 6 then 3 + 1 + 1 else 2 + 1 + 1 + 4 + 4 + 2

/-- The elapsed times of the samples that `openRideFile` appended, in order. -/
def elapsed (le : Bool) (file : List Byte) : List ℚ :=
  (openRideFile le file).result.dataPoints.map (fun pt => pt.secs)

/-- The intervals `ivs`, in the order of emission, tile `[a, b]`: the first starts at `a`,
each has `start ≤ stop`, each starts where the one before it ended, and the last ends at
`b` (so there is at least one). -/
def Tiles (a b : ℚ) (ivs : List RideFileInterval) : Prop :=
  ivs.head?.map (fun iv => iv.start) = some a ∧
  (∀ iv ∈ ivs, iv.start ≤ iv.stop) ∧
  List.Chain' (fun x y : RideFileInterval => y.start = x.stop) ivs ∧
  ivs.getLast?.map (fun iv => iv.stop) = some b

instance (a b : ℚ) (ivs : List RideFileInterval) : Decidable (Tiles a b ivs) := by
  unfold Tiles
  infer_instance

/-- The intervals emitted so far end at `c`: either none is emitted yet and `c = 0`, or
they tile `[0, c]`. -/
def TilesUpTo (c : ℚ) (ivs : List RideFileInterval) : Prop :=
  (ivs = [] ∧ c = 0) ∨ Tiles 0 c ivs

/-! ## Example files -/

/-- The two bytes that `readShort` turns into `n` on a host of byte order `le`. -/
def shortBytes (le : Bool) (n : Nat) : List Byte :=
  if le then [Fin.ofNat n, Fin.ofNat (n / 256)] else [Fin.ofNat (n / 256), Fin.ofNat n]

/-- The four bytes that `readLong` turns into `n` on a host of byte order `le`. -/
def longBytes (le : Bool) (n : Nat) : List Byte :=
  if le then
    [Fin.ofNat n, Fin.ofNat (n / 2 ^ 8), Fin.ofNat (n / 2 ^ 16), Fin.ofNat (n / 2 ^ 24)]
  else
    [Fin.ofNat (n / 2 ^ 24), Fin.ofNat (n / 2 ^ 16), Fin.ofNat (n / 2 ^ 8), Fin.ofNat n]

/-- A marker record with the raw range `(start, end)`: an empty comment of 255 bytes, the
active flag, the range, and five aggregate fields that are 0. -/
def markerBytes (le : Bool) (m : Nat × Nat) : List Byte :=
  List.replicate 255 0 ++ [0] ++ shortBytes le m.1 ++ shortBytes le m.2 ++ List.replicate 10 0

/-- A block record: hundredths of a second since midnight and the chunk count. -/
def blockBytes (le : Bool) (b : Nat × Nat) : List Byte :=
  longBytes le b.1 ++ shortBytes le b.2

/-- A whole file for a host of byte order `le`: the tag `SRM` and the version digit, day
46000, wheel 2100, the recording interval `recint1 / recint2`, the block and marker
counts, an empty comment, then the marker records (`markers` lists the sentinel first),
the block records, `zero`, `slope`, `datacnt`, the padding byte and the sample bytes. -/
def srmFile (le : Bool) (version recint1 recint2 : Nat) (markers blocks : List (Nat × Nat))
    (datacnt : Nat) (samples : List Byte) : List Byte :=
  [83, 82, 77, Fin.ofNat (48 + version)] ++ shortBytes le 46000 ++ shortBytes le 2100 ++
    [Fin.ofNat recint1, Fin.ofNat recint2] ++ shortBytes le blocks.length ++
    shortBytes le (markers.length - 1) ++ [0, 1] ++ List.replicate 70 0 ++
    (markers.map (markerBytes le)).flatten ++ (blocks.map (blockBytes le)).flatten ++
    shortBytes le 0 ++ shortBytes le 0 ++ shortBytes le datacnt ++ [0] ++ samples

/-- A version 6 file with a recording interval of 1 s, the sentinel marker `(1, 5)`, one
marker `(2, 3)`, two blocks of 3 and 2 samples that start 5 s apart, and 5 samples. -/
def fileTwoBlocks : List Byte :=
  srmFile true 6 1 1 [(1, 5), (2, 3)] [(100000, 3), (100500, 2)] 5
    [0x7f, 0xf0, 0x0f, 90, 150, 1, 2, 3, 4, 5, 1, 2, 3, 0, 5, 1, 2, 3, 4, 5, 1, 2, 3, 4, 5]

/-- Six version 6 samples (30 bytes). -/
def sixSamples : List Byte :=
  [0x7f, 0xf0, 0x0f, 90, 150, 1, 2, 3, 4, 5, 1, 2, 3, 0, 5, 1, 2, 3, 4, 5, 1, 2, 3, 4, 5,
    9, 8, 7, 6, 5]

/-- A version 6 file with a recording interval of 1 s, one block, 6 samples, the sentinel
marker `(1, 6)` and the two ordered markers `(2, 3)` and `(5, 6)`. -/
def fileTwoMarkers : List Byte :=
  srmFile true 6 1 1 [(1, 6), (2, 3), (5, 6)] [(100000, 6)] 6 sixSamples

/-- A version 6 file with a recording interval of 1 s, one block, 5 samples, the sentinel
marker `(1, 5)` and two markers out of order, `(4, 5)` before `(1, 2)`. -/
def fileMarkersOutOfOrder : List Byte :=
  srmFile true 6 1 1 [(1, 5), (4, 5), (1, 2)] [(100000, 5)] 5 (sixSamples.take 25)

/-- Two version 7 samples (14 bytes each): power 150, cadence 80, heart rate 140, speed 1000 and
altitude 100, in big-endian byte order. -/
def twoSamples7 : List Byte :=
  [0, 0x96, 80, 140, 0, 0, 3, 0xe8, 0, 0, 0, 0x64, 0, 0,
   0, 0x96, 80, 140, 0, 0, 3, 0xe8, 0, 0, 0, 0x64, 0, 0]

/-- A version 7 file for a big-endian host with a recording interval of 1/2 s, one block,
2 samples and no marker; the sentinel record covers the whole ride, `(1, 2)`. -/
def fileNoMarkers : List Byte :=
  srmFile false 7 1 2 [(1, 2)] [(100000, 2)] 2 twoSamples7

/-- As `fileNoMarkers`, with a sentinel record `(1, 1)` that ends before the last sample. -/
def fileShortSentinel : List Byte :=
  srmFile false 7 1 2 [(1, 1)] [(100000, 2)] 2 twoSamples7

/-- `fileTwoBlocks` with the tag `SRN` in place of `SRM`. -/
def fileBadTag : List Byte :=
  [83, 82, 78, 54] ++ fileTwoBlocks.drop 4

/-- `fileTwoBlocks` with the version digit `5` in place of `6`. -/
def fileBadVersion : List Byte :=
  [83, 82, 77, 53] ++ fileTwoBlocks.drop 4

/-- A version 6 file with a header that declares no block; 5 samples follow the trailer. -/
def fileNoBlocks : List Byte :=
  srmFile true 6 1 1 [(1, 5)] [] 5 (sixSamples.take 25)

/-- A version 6 file with the recording interval components `recint1 = 1`, `recint2 = 0`,
no marker, one block and 5 samples. -/
def fileZeroDivisor : List Byte :=
  srmFile true 6 1 0 [(1, 5)] [(100000, 5)] 5 (sixSamples.take 25)

/-- The test of lines 220 and 231 in the state `st` in which a pass of the sample loop
begins: the pass ends the current block (`++blkidx` reaches its chunk count), another
block follows, and the computed gap to it is below the recording interval. -/
def timeGoesBackwards (p : Prelude) (st : LoopState) : Prop :=
  st.blkidx + 1 = (p.blockhdrs.getD st.blknum { dt := 0, chunkcnt := 0 }).chunkcnt ∧
  st.blknum + 1 < p.hdr.blockcnt ∧
  blockGap p st.blknum < st.result.recIntSecs

instance (p : Prelude) (st : LoopState) : Decidable (timeGoesBackwards p st) := by
  unfold timeGoesBackwards
  infer_instance

/-- The intervals `ivs` emitted so far form a chain that starts at 0 and ends at `last`:
the first starts at 0, each later one starts where the one before it ended, and `last`
is the end of the last one (0 when none is emitted yet). -/
def ChainInv (last : ℚ) (ivs : List RideFileInterval) : Prop :=
  (∀ iv ∈ ivs.head?, iv.start = 0) ∧
  List.Chain' (fun x y : RideFileInterval => y.start = x.stop) ivs ∧
  (∀ iv ∈ ivs.getLast?, iv.stop = last) ∧
  (ivs = [] → last = 0)

/-- A version 6 file with a recording interval of 1 s and two blocks of 3 and 2 samples;
the second block starts 1 s after the first started, that is 2 s before the first ends. -/
def fileTimeBackwards : List Byte :=
  srmFile true 6 1 1 [(1, 5)] [(100000, 3), (100100, 2)] 5 (sixSamples.take 25)

/-- A version 6 file with a recording interval of 1/2 s and a single block that declares
2 samples, while `datacnt` is 5. -/
def fileOneBlock : List Byte :=
  srmFile true 6 1 2 [(1, 5)] [(100000, 2)] 5 (sixSamples.take 25)

/-- A version 6 file with one block and 5 samples, whose first marker `(9, 9)` starts past
the last sample and whose second marker is `(1, 2)`. -/
def fileMarkerPastEnd : List Byte :=
  srmFile true 6 1 1 [(1, 5), (9, 9), (1, 2)] [(100000, 5)] 5 (sixSamples.take 25)

/-- The interval indexes of the samples that `openRideFile` appended, in order. -/
def sampleIntervals (le : Bool) (file : List Byte) : List Int :=
  (openRideFile le file).result.dataPoints.map (fun pt => pt.interval)

/-- Entry `k` of the marker table read from the file (entry 0 is the sentinel record). -/
def markerAt (le : Bool) (file : List Byte) (k : Nat) : marker :=
  (readPrelude le file).markers.getD k ⟨0, 0⟩

/-! ## `double` arithmetic

The elapsed time and the distance of a sample are sums of `double`s.  What can be said of
their values and of their order depends on the rounding of every operation and on the
non-finite values, which the rationals above leave out.  This part models the `double`
operations of IEEE 754 (binary64, round to nearest, ties to even) and embeds the
elapsed-time and distance computations of the sample loop a second time, on `Dbl`.

Every operation is rounded to binary64 once (no extended precision).  The exponent range
is not bounded in `binary64`: every finite non-zero value that `openRideFile` computes on
these two axes has a magnitude between `2 ^ (-40)` and `2 ^ 80`, far from the subnormal
range and from overflow. -/

/-- A `double`: a finite value, an infinity or a NaN.  The two zeros are not told apart. -/
inductive Dbl where
  | fin (q : ℚ)
  | pinf
  | ninf
  | nan
  deriving DecidableEq, Repr

/-- Two to the power `e`. -/
def pow2 (e : Int) : ℚ :=
  if 0 ≤ e then ((2 ^ e.toNat : Nat) : ℚ) else 1 / ((2 ^ (-e).toNat : Nat) : ℚ)

/-- The position of the leading binary digit of `n` by repeated halving, at most `fuel`
times. -/
def log2Fuel : Nat → Nat → Nat
  | 0, _ => 0
  | fuel + 1, n => if n < 2 then 0 else log2Fuel fuel (n / 2) + 1

/-- The position of the leading binary digit of `n`: `2 ^ natLog2 n ≤ n < 2 ^ (natLog2 n + 1)`
for `n ≥ 1`. -/
def natLog2 (n : Nat) : Nat :=
  log2Fuel n n

/-- The binary exponent of a rational `q ≠ 0`: the `e` with `2 ^ e ≤ |q| < 2 ^ (e + 1)`. -/
def ilog2 (q : ℚ) : Int :=
  let e0 : Int := (natLog2 q.num.natAbs : Int) - (natLog2 q.den : Int)
  if pow2 e0 ≤ |q| then e0 else e0 - 1

/-- Rounding to the nearest integer, a tie to the even one. -/
def rne (q : ℚ) : Int :=
  let f := Rat.floor q
  let r := q - f
  if r < 1 / 2 then f else if 1 / 2 < r then f + 1 else if f % 2 = 0 then f else f + 1

/-- Rounding of a real result to binary64: the nearest multiple of `2 ^ (e - 52)`, where
`e` is the binary exponent of the value, a tie to the even multiple. -/
def binary64 (q : ℚ) : ℚ :=
  if q = 0 then 0 else
    let ulp := pow2 (ilog2 q - 52)
    (rne (q / ulp) : ℚ) * ulp

/-- Conversion of an integer to `double`. -/
def Dbl.ofInt (n : Int) : Dbl :=
  .fin (binary64 n)

/-- The `double` that a decimal literal of the source denotes. -/
def Dbl.lit (q : ℚ) : Dbl :=
  .fin (binary64 q)

/-- `-x`. -/
def Dbl.neg : Dbl → Dbl
  | .fin a => .fin (-a)
  | .pinf => .ninf
  | .ninf => .pinf
  | .nan => .nan

/-- `x + y`. -/
def Dbl.add : Dbl → Dbl → Dbl
  | .fin a, .fin b => .fin (binary64 (a + b))
  | .nan, _ => .nan
  | _, .nan => .nan
  | .pinf, .ninf => .nan
  | .ninf, .pinf => .nan
  | .pinf, _ => .pinf
  | _, .pinf => .pinf
  | .ninf, _ => .ninf
  | _, .ninf => .ninf

/-- `x - y`. -/
def Dbl.sub (x y : Dbl) : Dbl :=
  Dbl.add x (Dbl.neg y)

/-- An infinity with the sign of `a` times the sign of `positive`; NaN for `a = 0`. -/
def Dbl.signedInf (a : ℚ) (positive : Bool) : Dbl :=
  if a = 0 then .nan else if (decide (0 < a)) = positive then .pinf else .ninf

/-- `x * y`. -/
def Dbl.mul : Dbl → Dbl → Dbl
  | .fin a, .fin b => .fin (binary64 (a * b))
  | .nan, _ => .nan
  | _, .nan => .nan
  | .fin a, .pinf => Dbl.signedInf a true
  | .fin a, .ninf => Dbl.signedInf a false
  | .pinf, .fin b => Dbl.signedInf b true
  | .ninf, .fin b => Dbl.signedInf b false
  | .pinf, .pinf => .pinf
  | .ninf, .ninf => .pinf
  | .pinf, .ninf => .ninf
  | .ninf, .pinf => .ninf

/-- `x / y`.  A zero divisor is taken as `+0`: the divisors of this file that can be zero
are conversions of unsigned integers. -/
def Dbl.div : Dbl → Dbl → Dbl
  | .fin a, .fin b => if b = 0 then Dbl.signedInf a true else .fin (binary64 (a / b))
  | .nan, _ => .nan
  | _, .nan => .nan
  | .fin _, .pinf => .fin 0
  | .fin _, .ninf => .fin 0
  | .pinf, .fin b => if 0 ≤ b then .pinf else .ninf
  | .ninf, .fin b => if 0 ≤ b then .ninf else .pinf
  | .pinf, .pinf => .nan
  | .pinf, .ninf => .nan
  | .ninf, .pinf => .nan
  | .ninf, .ninf => .nan

/-- `x < y`; false when either side is a NaN. -/
def Dbl.lt : Dbl → Dbl → Bool
  | .fin a, .fin b => decide (a < b)
  | .nan, _ => false
  | _, .nan => false
  | .ninf, .ninf => false
  | .ninf, _ => true
  | .pinf, _ => false
  | .fin _, .pinf => true
  | .fin _, .ninf => false

/-- `x <= y`; false when either side is a NaN. -/
def Dbl.le : Dbl → Dbl → Bool
  | .fin a, .fin b => decide (a ≤ b)
  | .nan, _ => false
  | _, .nan => false
  | .ninf, _ => true
  | .pinf, .pinf => true
  | .pinf, _ => false
  | .fin _, .pinf => true
  | .fin _, .ninf => false

/-! ## The elapsed time and the distance as `double`s -/

/-- `result->recIntSecs()` as the `double` that line 105 stores:
`((double) recint1) / recint2`, an infinity or a NaN when `recint2 = 0`. -/
def Header.recIntSecsD (h : Header) : Dbl :=
  Dbl.div (Dbl.ofInt h.recint1) (Dbl.ofInt h.recint2)

/-- `unsigned recintms = (unsigned) round(result->recIntSecs() * 1000.0);` on the `double`.
The conversion of a non-finite value to `unsigned` is undefined in C++; the model takes 0
there. -/
def Header.recintmsD (h : Header) : Nat :=
  match Dbl.mul h.recIntSecsD (Dbl.lit 1000) with
  | .fin q => (cround q % 2 ^ 32).toNat
  | _ => 0

/-- The `double` `diff_secs` of lines 221-230 on the transition from block `k` to block
`k + 1`: `(startms - endms) / 1000.0`, where the end of block `k` is its start plus
`recintms * chunkcnt` milliseconds (an `unsigned` product). -/
def blockGapD (p : Prelude) (k : Nat) : Dbl :=
  let blk := p.blockhdrs.getD k { dt := 0, chunkcnt := 0 }
  let end_ := blk.dt + ((p.hdr.recintmsD * blk.chunkcnt % 2 ^ 32 : Nat) : Int)
  let start := (p.blockhdrs.getD (k + 1) { dt := 0, chunkcnt := 0 }).dt
  Dbl.div (Dbl.ofInt (epochMSecs start - epochMSecs end_)) (Dbl.lit 1000)

/-- The reads of one pass of the sample loop (lines 181-200) with the speed as the
`double` that the source computes: `n * 3.0 / 26.0` in the version 6 branch,
`readLong(in) * 3.6 / 1000.0` in the version 7 branch. -/
def readSampleD (le : Bool) (version : Int) (s : QDataStream) : Dbl × QDataStream :=
  if version = 6 then
    let ps := readRawData s 3
    let cad := readByte ps.2
    let hr := readByte cad.2
    let n : Nat := ((byteAt ps.1 1 &&& 0xf0) <<< 3) ||| (byteAt ps.1 0 &&& 0x7f)
    (Dbl.div (Dbl.mul (Dbl.ofInt n) (Dbl.lit 3)) (Dbl.lit 26), hr.2)
  else
    let watts := readShort le s
    let cad := readByte watts.2
    let hr := readByte cad.2
    let speed := readLong le hr.2
    let alt := readLong le speed.2
    let temp := readShort le alt.2
    (Dbl.div (Dbl.mul (Dbl.ofInt speed.1) (Dbl.lit (36 / 10))) (Dbl.lit 1000), temp.2)

/-- The elapsed time and the cumulative distance with which `appendPoint` is called. -/
structure PointD where
  secs : Dbl
  km : Dbl
  deriving DecidableEq, Repr

/-- The local variables of the sample loop on which `secs` and `km` depend, and the
`secs` and `km` of the samples appended so far. -/
structure LoopStateD where
  inp : QDataStream
  blknum : Nat
  blkidx : Nat
  km : Dbl
  secs : Dbl
  dataPoints : List PointD
  deriving DecidableEq, Repr

/-- One pass of the sample loop (lines 179-243) on the variables of `LoopStateD`:
`km += recIntSecs * kph / 3600.0`, the call of `appendPoint`, and the update of `secs`,
of `blkidx` and of `blknum` (lines 219-243). -/
def sampleStepD (le : Bool) (p : Prelude) (st : LoopStateD) : LoopStateD :=
  let smp := readSampleD le p.hdr.version st.inp
  let recIntSecs := p.hdr.recIntSecsD
  let blk := p.blockhdrs.getD st.blknum { dt := 0, chunkcnt := 0 }
  let km := Dbl.add st.km (Dbl.div (Dbl.mul recIntSecs smp.1) (Dbl.lit 3600))
  let dataPoints := st.dataPoints ++ [{ secs := st.secs, km := km }]
  let blkidx := st.blkidx + 1
  if blkidx = blk.chunkcnt ∧ st.blknum + 1 < p.hdr.blockcnt then
    let diff_secs := blockGapD p st.blknum
    if Dbl.lt diff_secs recIntSecs then
      { inp := smp.2, blknum := st.blknum + 1, blkidx := 0, km := km,
        secs := Dbl.add st.secs recIntSecs, dataPoints := dataPoints }
    else
      { inp := smp.2, blknum := st.blknum + 1, blkidx := 0, km := km,
        secs := Dbl.add st.secs diff_secs, dataPoints := dataPoints }
  else
    { inp := smp.2, blknum := st.blknum, blkidx := blkidx, km := km,
      secs := Dbl.add st.secs recIntSecs, dataPoints := dataPoints }

/-- The sample loop `for (int i = 0; i < datacnt; ++i)`: `n` passes. -/
def sampleLoopD (le : Bool) (p : Prelude) : Nat → LoopStateD → LoopStateD
  | 0, st => st
  | n + 1, st => sampleLoopD le p n (sampleStepD le p st)

/-- The state in which the sample loop is entered (lines 172-173). -/
def initStateD (p : Prelude) : LoopStateD :=
  { inp := p.inp, blknum := 0, blkidx := 0, km := .fin 0, secs := .fin 0, dataPoints := [] }

/-- The elapsed times and distances, as `double`s, of the samples that `openRideFile`
appends on the file `file`: none when one of the three `assert`s ends the run, those of
the `datacnt` passes of the sample loop otherwise. -/
def openRideFileD (le : Bool) (file : List Byte) : List PointD :=
  let p := readPrelude le file
  if ¬ p.hdr.tagOk then []
  else if ¬ (p.hdr.version = 6 ∨ p.hdr.version = 7) then []
  else if ¬ (0 < p.hdr.blockcnt) then []
  else (sampleLoopD le p p.datacnt (initStateD p)).dataPoints

/-- The elapsed times of the appended samples as `double`s, in order. -/
def elapsedD (le : Bool) (file : List Byte) : List Dbl :=
  (openRideFileD le file).map (fun pt => pt.secs)

/-- The cumulative distances (km) of the appended samples as `double`s, in order. -/
def distancesD (le : Bool) (file : List Byte) : List Dbl :=
  (openRideFileD le file).map (fun pt => pt.km)

/-- The sum `((0 + r) + r) + ...` of `i` terms `r`, each addition rounded. -/
def repeatedSum (r : Dbl) : Nat → Dbl
  | 0 => .fin 0
  | i + 1 => Dbl.add (repeatedSum r i) r

/-- Seven version 6 samples (35 bytes). -/
def sevenSamples : List Byte :=
  sixSamples ++ [3, 1, 4, 1, 5]

/-- A version 6 file with a recording interval of 1/10 s, one block and 7 samples. -/
def fileTenthSecond : List Byte :=
  srmFile true 6 1 10 [(1, 7)] [(100000, 7)] 7 sevenSamples

/-- A version 6 file with the recording interval components `recint1 = 0`, `recint2 = 0`,
one block and 5 samples. -/
def fileZeroOverZero : List Byte :=
  srmFile true 6 0 0 [(1, 5)] [(100000, 5)] 5 (sixSamples.take 25)

/-- The `double` is finite and not negative. -/
def Dbl.Nonneg (x : Dbl) : Prop :=
  ∃ q : ℚ, x = .fin q ∧ 0 ≤ q

/-- The `double` is finite, not negative, and a value of binary64 (its own rounding). -/
def Dbl.NonnegValue (x : Dbl) : Prop :=
  ∃ q : ℚ, x = .fin q ∧ 0 ≤ q ∧ binary64 q = q

/-- One step of the elapsed time from `x` to `y` in `double` arithmetic: one addition of
the recording interval, or one addition of the computed gap of a block transition that is
not below the recording interval. -/
def SecsStepD (p : Prelude) (x y : Dbl) : Prop :=
  y = Dbl.add x p.hdr.recIntSecsD ∨
    ∃ k, k + 1 < p.hdr.blockcnt ∧ Dbl.lt (blockGapD p k) p.hdr.recIntSecsD = false ∧
      y = Dbl.add x (blockGapD p k)

/-- The invariant of the sample loop on the appended samples, for a relation `P` between
the elapsed times and a relation `Q` between the distances of consecutive samples: the
appended samples are related pairwise, the last one has the distance `km` of the state,
and its elapsed time is related to the running `secs`. -/
def PointsInv (P Q : Dbl → Dbl → Prop) (st : LoopStateD) : Prop :=
  List.Chain' (fun a b : PointD => P a.secs b.secs ∧ Q a.km b.km) st.dataPoints ∧
  (∀ pt ∈ st.dataPoints.getLast?, P pt.secs st.secs ∧ pt.km = st.km)

set_option maxRecDepth 100000

/-! ## The sample loop: what one pass changes -/

theorem sampleStep_recIntSecs (le : Bool) (p : Prelude) (i : Nat) (st : LoopState) :
    (sampleStep le p i st).result.recIntSecs = st.result.recIntSecs := by
  unfold sampleStep
  simp only [RideFile.appendPoint]
  split_ifs <;> rfl

theorem sampleStep_dataPoints (le : Bool) (p : Prelude) (i : Nat) (st : LoopState) :
    ∃ pt : RideFilePoint, pt.secs = st.secs ∧
      (sampleStep le p i st).result.dataPoints = st.result.dataPoints ++ [pt] := by
  unfold sampleStep
  simp only [RideFile.appendPoint]
  split_ifs <;> exact ⟨_, rfl, rfl⟩

theorem sampleStep_intervals (le : Bool) (p : Prelude) (i : Nat) (st : LoopState) :
    (sampleStep le p i st).result.intervals = st.result.intervals := by
  unfold sampleStep
  simp only [RideFile.appendPoint]
  split_ifs <;> rfl

theorem sampleStep_secs (le : Bool) (p : Prelude) (i : Nat) (st : LoopState) :
    SecsStep p st.result.recIntSecs st.secs (sampleStep le p i st).secs := by
  unfold sampleStep SecsStep
  simp only [RideFile.appendPoint]
  split_ifs <;> dsimp only <;>
    first
    | exact Or.inl rfl
    | exact Or.inr ⟨st.blknum, (by assumption : _ ∧ _).2, not_lt.mp (by assumption), rfl⟩

theorem SecsStep.le {p : Prelude} {r x y : ℚ} (h : SecsStep p r x y) : x + r ≤ y := by
  rcases h with h | ⟨k, _, hk, h⟩
  · exact h.ge
  · rw [h]
    linarith

theorem sampleStep_secsInv (le : Bool) (p : Prelude) (i : Nat) (st : LoopState)
    (h : SecsInv p st) : SecsInv p (sampleStep le p i st) := by
  obtain ⟨hchain, hlast, hhead, hnil⟩ := h
  obtain ⟨pt, hpt, hpts⟩ := sampleStep_dataPoints le p i st
  have hsecs := sampleStep_secs le p i st
  unfold SecsInv
  rw [sampleStep_recIntSecs, hpts]
  refine ⟨?_, ?_, ?_, ?_⟩
  · refine List.Chain'.append hchain (List.chain'_singleton pt) ?_
    intro x hx y hy
    simp only [List.head?_cons, Option.mem_def, Option.some.injEq] at hy
    subst hy
    rw [hpt]
    exact hlast x hx
  · intro q hq
    rw [List.getLast?_concat] at hq
    simp only [Option.mem_def, Option.some.injEq] at hq
    subst hq
    rw [hpt]
    exact hsecs
  · intro q hq
    cases hl : st.result.dataPoints with
    | nil =>
      rw [hl] at hq
      simp only [List.nil_append, List.head?_cons, Option.mem_def, Option.some.injEq] at hq
      subst hq
      rw [hpt]
      exact hnil hl
    | cons a l =>
      rw [hl] at hq hhead
      simp only [List.cons_append, List.head?_cons, Option.mem_def, Option.some.injEq] at hq hhead
      subst hq
      exact hhead _ rfl
  · intro hcontra
    simp at hcontra

theorem sampleLoop_recIntSecs (le : Bool) (p : Prelude) (n i : Nat) (st : LoopState) :
    (sampleLoop le p n i st).result.recIntSecs = st.result.recIntSecs := by
  induction n generalizing i st with
  | zero => rfl
  | succ n ih => rw [sampleLoop, ih, sampleStep_recIntSecs]

theorem sampleLoop_intervals (le : Bool) (p : Prelude) (n i : Nat) (st : LoopState) :
    (sampleLoop le p n i st).result.intervals = st.result.intervals := by
  induction n generalizing i st with
  | zero => rfl
  | succ n ih => rw [sampleLoop, ih, sampleStep_intervals]

theorem sampleLoop_length (le : Bool) (p : Prelude) (n i : Nat) (st : LoopState) :
    (sampleLoop le p n i st).result.dataPoints.length = st.result.dataPoints.length + n := by
  induction n generalizing i st with
  | zero => rfl
  | succ n ih =>
    obtain ⟨pt, _, hpts⟩ := sampleStep_dataPoints le p i st
    rw [sampleLoop, ih, hpts, List.length_append, List.length_singleton]
    omega

theorem sampleLoop_secsInv (le : Bool) (p : Prelude) (n i : Nat) (st : LoopState)
    (h : SecsInv p st) : SecsInv p (sampleLoop le p n i st) := by
  induction n generalizing i st with
  | zero => exact h
  | succ n ih =>
    rw [sampleLoop]
    exact ih (i + 1) (sampleStep le p i st) (sampleStep_secsInv le p i st h)

theorem initState_secsInv (p : Prelude) (result : RideFile) (h : result.dataPoints = []) :
    SecsInv p (initState p result) := by
  unfold SecsInv initState
  simp [h]

/-! ## Interval reconstruction: what it leaves unchanged -/

theorem intervalStep_start_none (i : Nat) (m : marker) (st : IntervalState)
    (h : secsAt st.result (m.start - 1) = none) :
    intervalStep i m st = { st with ok := false } := by
  simp only [intervalStep, h]

theorem intervalStep_end_none (i : Nat) (m : marker) (st : IntervalState) (s : ℚ)
    (h : secsAt st.result (m.start - 1) = some s)
    (h2 : secsAt st.result (min (m.end_ - 1) ((st.result.dataPoints.length : Int) - 1)) = none) :
    intervalStep i m st = { st with ok := false } := by
  simp only [intervalStep, h, h2]

theorem intervalStep_some (i : Nat) (m : marker) (st : IntervalState) (s e : ℚ)
    (h : secsAt st.result (m.start - 1) = some s)
    (h2 : secsAt st.result (min (m.end_ - 1) ((st.result.dataPoints.length : Int) - 1)) = some e) :
    intervalStep i m st =
      { last := e + st.result.recIntSecs,
        result := (st.result.addInterval st.last s "").addInterval s
          (e + st.result.recIntSecs) (toString i),
        ok := true } := by
  simp only [intervalStep, h, h2]

theorem intervalStep_dataPoints (i : Nat) (m : marker) (st : IntervalState) :
    (intervalStep i m st).result.dataPoints = st.result.dataPoints ∧
    (intervalStep i m st).result.recIntSecs = st.result.recIntSecs := by
  cases h : secsAt st.result (m.start - 1) with
  | none => rw [intervalStep_start_none i m st h]; exact ⟨rfl, rfl⟩
  | some s =>
    cases h2 : secsAt st.result (min (m.end_ - 1) ((st.result.dataPoints.length : Int) - 1)) with
    | none => rw [intervalStep_end_none i m st s h h2]; exact ⟨rfl, rfl⟩
    | some e => rw [intervalStep_some i m st s e h h2]; exact ⟨rfl, rfl⟩

theorem intervalLoop_dataPoints (ms : List marker) (i : Nat) (st : IntervalState) :
    (intervalLoop ms i st).result.dataPoints = st.result.dataPoints ∧
    (intervalLoop ms i st).result.recIntSecs = st.result.recIntSecs := by
  induction ms generalizing i st with
  | nil => exact ⟨rfl, rfl⟩
  | cons m ms ih =>
    rw [intervalLoop]
    split_ifs
    · rw [(ih (i + 1) (intervalStep i m st)).1, (ih (i + 1) (intervalStep i m st)).2]
      exact intervalStep_dataPoints i m st
    · exact intervalStep_dataPoints i m st

theorem addIntervals_dataPoints (markers : List marker) (result : RideFile) :
    (addIntervals markers result).result.dataPoints = result.dataPoints ∧
    (addIntervals markers result).result.recIntSecs = result.recIntSecs := by
  have h := intervalLoop_dataPoints markers.tail 1 { last := 0, result := result, ok := true }
  unfold addIntervals
  simp only
  split_ifs
  · split
    · exact h
    · split_ifs
      · split
        · exact h
        · exact h
      · exact h
  · exact h

/-! ## `openRideFile` behind the header checks -/

theorem openRideFile_of_checks (le : Bool) (file : List Byte)
    (h : headerChecks (readPrelude le file)) :
    openRideFile le file =
      { result := (addIntervals (readPrelude le file).markers (afterSamples le file).result).result,
        errorStrings := (afterSamples le file).errorStrings,
        returned := (addIntervals (readPrelude le file).markers (afterSamples le file).result).ok } := by
  obtain ⟨h1, h2, h3⟩ := h
  unfold openRideFile afterSamples loopStateAt
  simp only [h1, h2, h3, not_true_eq_false, if_false]

theorem openRideFile_of_not_checks (le : Bool) (file : List Byte)
    (h : ¬ headerChecks (readPrelude le file)) :
    (openRideFile le file).result.dataPoints = [] := by
  unfold headerChecks at h
  unfold openRideFile
  simp only
  split_ifs <;>
    first
    | rfl
    | exact absurd ⟨by assumption, by assumption, by assumption⟩ h

theorem afterSamples_length (le : Bool) (file : List Byte) :
    (afterSamples le file).result.dataPoints.length = (readPrelude le file).datacnt := by
  unfold afterSamples loopStateAt
  rw [sampleLoop_length]
  simp [initState, RideFile.new]

theorem afterSamples_recIntSecs (le : Bool) (file : List Byte) :
    (afterSamples le file).result.recIntSecs = (readPrelude le file).hdr.recIntSecs := by
  unfold afterSamples loopStateAt
  rw [sampleLoop_recIntSecs]
  rfl

theorem afterSamples_secsInv (le : Bool) (file : List Byte) :
    SecsInv (readPrelude le file) (afterSamples le file) := by
  unfold afterSamples loopStateAt
  apply sampleLoop_secsInv
  apply initState_secsInv
  rfl

theorem recIntSecs_nonneg (h : Header) : 0 ≤ h.recIntSecs :=
  div_nonneg (Nat.cast_nonneg _) (Nat.cast_nonneg _)

theorem recIntSecs_quotient (h : Header) (hne : h.recint2 ≠ 0) :
    0 ≤ h.recIntSecs ∧ h.recIntSecs * (h.recint2 : ℚ) = (h.recint1 : ℚ) := by
  refine ⟨recIntSecs_nonneg h, ?_⟩
  unfold Header.recIntSecs
  exact div_mul_cancel₀ _ (Nat.cast_ne_zero.mpr hne)

theorem chain_getElem {α : Type} {R : α → α → Prop} :
    ∀ (l : List α) (i : Nat) (a b : α), List.Chain' R l → l[i]? = some a →
      l[i + 1]? = some b → R a b
  | [], _, _, _, _, ha, _ => by simp at ha
  | [_], _, _, _, _, _, hb => by simp at hb
  | x :: y :: l, 0, a, b, h, ha, hb => by
    simp only [List.getElem?_cons_zero, Option.some.injEq, zero_add,
      List.getElem?_cons_succ] at ha hb
    subst ha
    subst hb
    exact (List.chain'_cons.mp h).1
  | x :: y :: l, i + 1, a, b, h, ha, hb => by
    rw [List.getElem?_cons_succ] at ha hb
    exact chain_getElem (y :: l) i a b (List.chain'_cons.mp h).2 ha hb

/-! ## The elapsed-time axis is monotone -/

theorem secs_lt_of_chain (ts : List ℚ) (r : ℚ) (hr : 0 ≤ r)
    (hc : List.Chain' (fun x y : ℚ => x + r ≤ y) ts) (i : Nat) (x : ℚ)
    (hx : ts[i]? = some x) :
    ∀ (d : Nat) (y : ℚ), ts[i + 1 + d]? = some y → x + r ≤ y := by
  intro d
  induction d with
  | zero =>
    intro y hy
    exact chain_getElem ts i x y hc hx hy
  | succ d ih =>
    intro y hy
    have hlt : i + 1 + d < ts.length := by
      have := (List.getElem?_eq_some.mp hy).1
      omega
    have hc' := ih _ (List.getElem?_eq_getElem hlt)
    have hstep := chain_getElem ts (i + 1 + d) _ y hc (List.getElem?_eq_getElem hlt) hy
    linarith

theorem secs_lt_of_lt (ts : List ℚ) (r : ℚ) (hr : 0 ≤ r)
    (hc : List.Chain' (fun x y : ℚ => x + r ≤ y) ts) (i j : Nat) (x y : ℚ)
    (hij : i < j) (hx : ts[i]? = some x) (hy : ts[j]? = some y) : x + r ≤ y := by
  obtain ⟨d, rfl⟩ : ∃ d, j = i + 1 + d := ⟨j - i - 1, by omega⟩
  exact secs_lt_of_chain ts r hr hc i x hx d y hy

theorem secs_le_of_le (ts : List ℚ) (r : ℚ) (hr : 0 ≤ r)
    (hc : List.Chain' (fun x y : ℚ => x + r ≤ y) ts) (i j : Nat) (x y : ℚ)
    (hij : i ≤ j) (hx : ts[i]? = some x) (hy : ts[j]? = some y) : x ≤ y := by
  rcases Nat.eq_or_lt_of_le hij with h | h
  · subst h
    rw [hx] at hy
    exact (Option.some.inj hy).le
  · have := secs_lt_of_lt ts r hr hc i j x y h hx hy
    linarith

/-! ## Tiling -/

theorem tiles_concat (c d : ℚ) (name : String) (ivs : List RideFileInterval)
    (h : TilesUpTo c ivs) (hcd : c ≤ d) :
    Tiles 0 d (ivs ++ [{ start := c, stop := d, name := name }]) := by
  rcases h with ⟨rfl, rfl⟩ | ⟨hhead, hall, hchain, hlast⟩
  · refine ⟨rfl, ?_, List.chain'_singleton _, rfl⟩
    intro iv hiv
    simp only [List.nil_append, List.mem_singleton] at hiv
    subst hiv
    exact hcd
  · refine ⟨?_, ?_, ?_, ?_⟩
    · cases ivs with
      | nil => simp at hhead
      | cons a l => simpa using hhead
    · intro iv hiv
      rcases List.mem_append.mp hiv with h | h
      · exact hall iv h
      · simp only [List.mem_singleton] at h
        subst h
        exact hcd
    · refine List.Chain'.append hchain (List.chain'_singleton _) ?_
      intro x hx y hy
      simp only [List.head?_cons, Option.mem_def, Option.some.injEq] at hy
      subst hy
      simp only [Option.mem_def] at hx
      rw [hx] at hlast
      simpa using hlast.symm
    · rw [List.getLast?_concat]
      rfl

theorem Tiles.upTo {c : ℚ} {ivs : List RideFileInterval} (h : Tiles 0 c ivs) :
    TilesUpTo c ivs :=
  Or.inr h

/-! ## The marker loop on ordered markers -/

theorem secsAt_map (res : RideFile) (idx : Int) (h0 : 0 ≤ idx) :
    secsAt res idx = (res.dataPoints.map (fun pt => pt.secs))[idx.toNat]? := by
  unfold secsAt
  rw [if_pos h0, List.getElem?_map]

theorem intervalStep_in_range (i : Nat) (m : marker) (st : IntervalState)
    (h1 : 1 ≤ m.start) (h2 : m.start ≤ m.end_)
    (h3 : m.start ≤ (st.result.dataPoints.length : Int)) :
    ∃ s e : ℚ,
      (st.result.dataPoints.map (fun pt => pt.secs))[(m.start - 1).toNat]? = some s ∧
      (st.result.dataPoints.map (fun pt => pt.secs))[(min (m.end_ - 1)
        ((st.result.dataPoints.length : Int) - 1)).toNat]? = some e ∧
      intervalStep i m st =
        { last := e + st.result.recIntSecs,
          result := (st.result.addInterval st.last s "").addInterval s
            (e + st.result.recIntSecs) (toString i),
          ok := true } := by
  have hlen : (st.result.dataPoints.map (fun pt => pt.secs)).length
      = st.result.dataPoints.length := List.length_map _ _
  have hi1 : (m.start - 1).toNat < (st.result.dataPoints.map (fun pt => pt.secs)).length := by
    rw [hlen]
    omega
  have hi2 : (min (m.end_ - 1) ((st.result.dataPoints.length : Int) - 1)).toNat
      < (st.result.dataPoints.map (fun pt => pt.secs)).length := by
    rw [hlen]
    omega
  refine ⟨_, _, List.getElem?_eq_getElem hi1, List.getElem?_eq_getElem hi2, ?_⟩
  apply intervalStep_some
  · rw [secsAt_map _ _ (by omega)]
    exact List.getElem?_eq_getElem hi1
  · rw [secsAt_map _ _ (by omega)]
    exact List.getElem?_eq_getElem hi2

theorem intervalLoop_tiles (ts : List ℚ) (r : ℚ) (hr : 0 ≤ r)
    (hc : List.Chain' (fun x y : ℚ => x + r ≤ y) ts) :
    ∀ (ms : List marker) (i : Nat) (st : IntervalState) (prev : marker),
      st.ok = true →
      st.result.dataPoints.map (fun pt => pt.secs) = ts →
      st.result.recIntSecs = r →
      (∀ m ∈ ms, 1 ≤ m.start ∧ m.start ≤ m.end_ ∧ m.start ≤ (ts.length : Int)) →
      List.Chain (fun a b : marker => a.end_ < b.start) prev ms →
      (∀ (k : Nat) (x : ℚ), prev.end_ ≤ (k : Int) → ts[k]? = some x → st.last ≤ x) →
      (∀ x ∈ ts.getLast?, st.last ≤ x + r) →
      TilesUpTo st.last st.result.intervals →
      (intervalLoop ms i st).ok = true ∧
      TilesUpTo (intervalLoop ms i st).last (intervalLoop ms i st).result.intervals ∧
      (∀ x ∈ ts.getLast?, (intervalLoop ms i st).last ≤ x + r) ∧
      (ms ≠ [] →
        Tiles 0 (intervalLoop ms i st).last (intervalLoop ms i st).result.intervals ∧
        ∀ m ∈ ms.getLast?, ∀ x ∈ ts.getLast?, (ts.length : Int) ≤ m.end_ →
          (intervalLoop ms i st).last = x + r) := by
  intro ms
  induction ms with
  | nil =>
    intro i st prev hok _ _ _ _ _ hT htiles
    exact ⟨hok, htiles, hT, fun h => absurd rfl h⟩
  | cons m ms ih =>
    intro i st prev hok hts hrr hms hchain hB hT htiles
    have hlen : st.result.dataPoints.length = ts.length := by
      rw [← hts, List.length_map]
    obtain ⟨hm1, hm2, hm3⟩ := hms m (List.mem_cons_self _ _)
    obtain ⟨hprev, hchain'⟩ := List.chain_cons.mp hchain
    obtain ⟨s, e, hs, he, hstep⟩ := intervalStep_in_range i m st hm1 hm2 (by rw [hlen]; exact hm3)
    rw [hts] at hs he
    rw [hrr] at hstep
    rw [hlen] at he
    have hi2 : (min (m.end_ - 1) ((ts.length : Int) - 1)).toNat < ts.length :=
      (List.getElem?_eq_some.mp he).1
    have hlast_s : st.last ≤ s := hB _ s (by omega) hs
    have hse : s ≤ e := secs_le_of_le ts r hr hc _ _ s e (by omega) hs he
    have htiles1 : Tiles 0 s (st.result.intervals ++ [{ start := st.last, stop := s, name := "" }]) :=
      tiles_concat st.last s "" _ htiles hlast_s
    have htiles2 : Tiles 0 (e + r)
        ((st.result.intervals ++ [{ start := st.last, stop := s, name := "" }]) ++
          [{ start := s, stop := e + r, name := toString i }]) :=
      tiles_concat s (e + r) (toString i) _ htiles1.upTo (by linarith)
    have hB' : ∀ (k : Nat) (x : ℚ), m.end_ ≤ (k : Int) → ts[k]? = some x → e + r ≤ x := by
      intro k x hk hx
      exact secs_lt_of_lt ts r hr hc _ k e x (by omega) he hx
    have hT' : ∀ x ∈ ts.getLast?, e + r ≤ x + r := by
      intro x hx
      rw [Option.mem_def, List.getLast?_eq_getElem?] at hx
      have := secs_le_of_le ts r hr hc _ _ e x (by omega) he hx
      linarith
    have hloop : intervalLoop (m :: ms) i st =
        intervalLoop ms (i + 1)
          { last := e + r,
            result := (st.result.addInterval st.last s "").addInterval s (e + r) (toString i),
            ok := true } := by
      rw [intervalLoop, hstep]
      rfl
    rw [hloop]
    have hrec := ih (i + 1)
      { last := e + r,
        result := (st.result.addInterval st.last s "").addInterval s (e + r) (toString i),
        ok := true } m rfl hts hrr
      (fun m' hm' => hms m' (List.mem_cons_of_mem _ hm')) hchain' hB' hT' htiles2.upTo
    refine ⟨hrec.1, hrec.2.1, hrec.2.2.1, fun _ => ?_⟩
    cases ms with
    | nil =>
      refine ⟨htiles2, ?_⟩
      intro m' hm' x hx hle
      simp only [List.getLast?_singleton, Option.mem_def, Option.some.injEq] at hm'
      subst hm'
      rw [Option.mem_def, List.getLast?_eq_getElem?] at hx
      have hidx : (min (m.end_ - 1) ((ts.length : Int) - 1)).toNat = ts.length - 1 := by
        omega
      rw [hidx, hx] at he
      simp only [intervalLoop]
      rw [Option.some.inj he]
    | cons m2 ms2 =>
      have h2 := hrec.2.2.2 (List.cons_ne_nil _ _)
      refine ⟨h2.1, ?_⟩
      intro m' hm'
      rw [List.getLast?_cons_cons] at hm'
      exact h2.2 m' hm'

theorem addIntervals_tiles (ts : List ℚ) (r : ℚ) (hr : 0 ≤ r)
    (hc : List.Chain' (fun x y : ℚ => x + r ≤ y) ts) (hhead : ts.head? = some 0)
    (m0 : marker) (ms : List marker) (result : RideFile)
    (hts : result.dataPoints.map (fun pt => pt.secs) = ts)
    (hrr : result.recIntSecs = r) (hiv : result.intervals = [])
    (hms : ∀ m ∈ ms, 1 ≤ m.start ∧ m.start ≤ m.end_ ∧ m.start ≤ (ts.length : Int))
    (hord : List.Chain' (fun a b : marker => a.end_ < b.start) ms)
    (hlast : ms ≠ [] ∨ m0.end_ < (ts.length : Int)) :
    (addIntervals (m0 :: ms) result).ok = true ∧
    ∃ last, ts.getLast? = some last ∧
      Tiles 0 (last + r) (addIntervals (m0 :: ms) result).result.intervals := by
  have hne : ts ≠ [] := by
    intro h
    rw [h] at hhead
    simp at hhead
  obtain ⟨last, hlastx⟩ : ∃ last, ts.getLast? = some last := by
    cases hgl : ts.getLast? with
    | none => exact absurd (List.getLast?_eq_none_iff.mp hgl) hne
    | some x => exact ⟨x, rfl⟩
  have hzero : ts[0]? = some 0 := by
    rw [← hhead, List.head?_eq_getElem?]
  have hB : ∀ (k : Nat) (x : ℚ), (⟨0, 0⟩ : marker).end_ ≤ (k : Int) → ts[k]? = some x →
      (0 : ℚ) ≤ x := by
    intro k x _ hx
    exact secs_le_of_le ts r hr hc 0 k 0 x (Nat.zero_le k) hzero hx
  have hlast0 : (0 : ℚ) ≤ last := by
    rw [List.getLast?_eq_getElem?] at hlastx
    exact hB _ last (by simp) hlastx
  have hT : ∀ x ∈ ts.getLast?, (0 : ℚ) ≤ x + r := by
    intro x hx
    rw [Option.mem_def, hlastx] at hx
    rw [← Option.some.inj hx]
    linarith
  have hchain : List.Chain (fun a b : marker => a.end_ < b.start) ⟨0, 0⟩ ms := by
    refine List.Chain'.cons' hord ?_
    intro y hy
    have := (hms y (List.mem_of_mem_head? hy)).1
    show (0 : Int) < y.start
    omega
  have hloop := intervalLoop_tiles ts r hr hc ms 1
    { last := 0, result := result, ok := true } ⟨0, 0⟩ rfl hts hrr hms hchain hB hT
    (Or.inl ⟨hiv, rfl⟩)
  have hdp := intervalLoop_dataPoints ms 1 { last := 0, result := result, ok := true }
  obtain ⟨hok, hupto, hT', hfin⟩ := hloop
  have hlen : (intervalLoop ms 1 { last := 0, result := result, ok := true }).result.dataPoints.length
      = ts.length := by
    rw [hdp.1, ← hts, List.length_map]
  obtain ⟨pt, hpt, hptsecs⟩ : ∃ pt,
      (intervalLoop ms 1 { last := 0, result := result, ok := true }).result.dataPoints.getLast?
        = some pt ∧ pt.secs = last := by
    rw [hdp.1]
    rw [← hts, List.getLast?_map] at hlastx
    exact Option.map_eq_some'.mp hlastx
  obtain ⟨ml, hml⟩ : ∃ ml, (m0 :: ms).getLast? = some ml := by
    cases hgl : (m0 :: ms).getLast? with
    | none => exact absurd (List.getLast?_eq_none_iff.mp hgl) (List.cons_ne_nil _ _)
    | some x => exact ⟨x, rfl⟩
  unfold addIntervals
  simp only [List.tail_cons, hok, if_true, hml, hlen, hpt, hdp.2, hrr, hptsecs]
  by_cases hend : ml.end_ < (ts.length : Int)
  · rw [if_pos hend]
    refine ⟨rfl, last, hlastx, ?_⟩
    exact tiles_concat _ _ "" _ hupto (hT' last hlastx)
  · rw [if_neg hend]
    refine ⟨hok, last, hlastx, ?_⟩
    rcases hlast with hms' | hm0
    · obtain ⟨htl, heq⟩ := hfin hms'
      have hml' : ms.getLast? = some ml := by
        cases ms with
        | nil => exact absurd rfl hms'
        | cons a l =>
          rw [List.getLast?_cons_cons] at hml
          exact hml
      rw [← heq ml hml' last hlastx (by omega)]
      exact htl
    · cases ms with
      | nil =>
        simp only [List.getLast?_singleton, Option.some.injEq] at hml
        subst hml
        exact absurd hm0 hend
      | cons a l =>
        obtain ⟨htl, heq⟩ := hfin (List.cons_ne_nil _ _)
        rw [List.getLast?_cons_cons] at hml
        rw [← heq ml hml last hlastx (by omega)]
        exact htl

theorem readMarkers_length (le : Bool) (n : Nat) (s : QDataStream) :
    (readMarkers le n s).1.length = n := by
  induction n generalizing s with
  | zero => rfl
  | succ n ih =>
    rw [readMarkers]
    simp only [List.length_cons, ih]

theorem readMarkers_fixup (le : Bool) (n : Nat) (s : QDataStream) :
    ∀ m ∈ (readMarkers le n s).1, ∃ a b : Int, m = fixup a b := by
  induction n generalizing s with
  | zero => intro m hm; simp [readMarkers] at hm
  | succ n ih =>
    intro m hm
    rw [readMarkers] at hm
    simp only [List.mem_cons] at hm
    rcases hm with hm | hm
    · exact ⟨_, _, hm.trans rfl⟩
    · exact ih _ m hm

theorem fixup_range (a b : Int) :
    1 ≤ (fixup a b).start ∧ (fixup a b).start ≤ (fixup a b).end_ := by
  unfold fixup
  simp only
  split_ifs <;> simp <;> omega

theorem prelude_markers_length (le : Bool) (file : List Byte) :
    (readPrelude le file).markers.length = (readPrelude le file).hdr.markercnt + 1 := by
  unfold readPrelude
  exact readMarkers_length le _ _

theorem prelude_markers_range (le : Bool) (file : List Byte) :
    ∀ m ∈ (readPrelude le file).markers, 1 ≤ m.start ∧ m.start ≤ m.end_ := by
  intro m hm
  obtain ⟨a, b, hab⟩ := readMarkers_fixup le _ _ m hm
  rw [hab]
  exact fixup_range a b

theorem openRideFile_dataPoints (le : Bool) (file : List Byte)
    (h : headerChecks (readPrelude le file)) :
    (openRideFile le file).result.dataPoints = (afterSamples le file).result.dataPoints := by
  rw [openRideFile_of_checks le file h]
  exact (addIntervals_dataPoints _ _).1

theorem afterSamples_intervals (le : Bool) (file : List Byte) :
    (afterSamples le file).result.intervals = [] := by
  unfold afterSamples loopStateAt
  rw [sampleLoop_intervals]
  rfl

theorem afterSamples_chain (le : Bool) (file : List Byte) :
    List.Chain' (fun x y : ℚ => x + (readPrelude le file).hdr.recIntSecs ≤ y)
      ((afterSamples le file).result.dataPoints.map (fun pt => pt.secs)) := by
  have hinv := (afterSamples_secsInv le file).1
  rw [afterSamples_recIntSecs] at hinv
  rw [List.chain'_map]
  exact hinv.imp (fun _ _ hab => hab.le)

theorem afterSamples_head (le : Bool) (file : List Byte)
    (hn : 1 ≤ (readPrelude le file).datacnt) :
    ((afterSamples le file).result.dataPoints.map (fun pt => pt.secs)).head? = some 0 := by
  have hinv := (afterSamples_secsInv le file).2.2.1
  have hlen := afterSamples_length le file
  cases hpts : (afterSamples le file).result.dataPoints with
  | nil =>
    rw [hpts] at hlen
    simp only [List.length_nil] at hlen
    omega
  | cons a l =>
    rw [hpts] at hinv
    simp only [List.map_cons, List.head?_cons, Option.some.injEq]
    exact hinv a rfl

/-! ## Reads on a stream that holds the bytes asked for -/

theorem read_of_drop (s : QDataStream) (bs rest : List Byte) (hbs : bs ≠ [])
    (h : s.data.drop s.pos = bs ++ rest) :
    s.read bs.length = (bs, { data := s.data, pos := s.pos + bs.length }) ∧
    s.data.drop (s.pos + bs.length) = rest := by
  have hlen : (s.data.drop s.pos).length = bs.length + rest.length := by
    rw [h, List.length_append]
  rw [List.length_drop] at hlen
  have hpos : 0 < bs.length := List.length_pos.mpr hbs
  constructor
  · unfold QDataStream.read
    rw [h, List.take_left']
    · congr 2
      omega
    · rfl
  · rw [← List.drop_drop, h, List.drop_left]

theorem readByte_of_drop (s : QDataStream) (b : Byte) (rest : List Byte)
    (h : s.data.drop s.pos = b :: rest) :
    readByte s = (b.val, { data := s.data, pos := s.pos + 1 }) ∧
    s.data.drop (s.pos + 1) = rest := by
  have := read_of_drop s [b] rest (List.cons_ne_nil _ _) h
  refine ⟨?_, this.2⟩
  unfold readByte streamByte
  rw [show (1 : Nat) = [b].length from rfl, this.1]

theorem readShort_of_drop (le : Bool) (s : QDataStream) (b0 b1 : Byte) (rest : List Byte)
    (h : s.data.drop s.pos = b0 :: b1 :: rest) :
    readShort le s = (htons le (b0.val * 256 + b1.val), { data := s.data, pos := s.pos + 2 }) ∧
    s.data.drop (s.pos + 2) = rest := by
  have := read_of_drop s [b0, b1] rest (List.cons_ne_nil _ _) h
  refine ⟨?_, this.2⟩
  unfold readShort streamShort
  rw [show (2 : Nat) = [b0, b1].length from rfl, this.1]

theorem readLong_of_drop (le : Bool) (s : QDataStream) (b0 b1 b2 b3 : Byte) (rest : List Byte)
    (h : s.data.drop s.pos = b0 :: b1 :: b2 :: b3 :: rest) :
    readLong le s = (htonl le (b0.val * 2 ^ 24 + b1.val * 2 ^ 16 + b2.val * 2 ^ 8 + b3.val),
      { data := s.data, pos := s.pos + 4 }) ∧
    s.data.drop (s.pos + 4) = rest := by
  have := read_of_drop s [b0, b1, b2, b3] rest (List.cons_ne_nil _ _) h
  refine ⟨?_, this.2⟩
  unfold readLong streamLong
  rw [show (4 : Nat) = [b0, b1, b2, b3].length from rfl, this.1]

theorem readRawData_of_drop (s : QDataStream) (bs rest : List Byte) (hbs : bs ≠ [])
    (h : s.data.drop s.pos = bs ++ rest) :
    readRawData s bs.length = (bs, { data := s.data, pos := s.pos + bs.length }) ∧
    s.data.drop (s.pos + bs.length) = rest := by
  have := read_of_drop s bs rest hbs h
  refine ⟨?_, this.2⟩
  unfold readRawData
  rw [this.1]
  simp

theorem readSample6_of_drop (s : QDataStream) (p0 p1 p2 cad hr : Byte) (rest : List Byte)
    (h : s.data.drop s.pos = p0 :: p1 :: p2 :: cad :: hr :: rest) :
    readSample6 s =
      ({ cad := cad.val, hr := hr.val,
         watts := (((p1.val &&& 0x0f) ||| (p2.val <<< 4) : Nat) : Int),
         kph := ((((p1.val &&& 0xf0) <<< 3) ||| (p0.val &&& 0x7f) : Nat) : ℚ) * 3 / 26,
         alt := 0 },
       { data := s.data, pos := s.pos + 5 }) := by
  have r1 := readRawData_of_drop s [p0, p1, p2] (cad :: hr :: rest) (List.cons_ne_nil _ _) h
  have r2 := readByte_of_drop { data := s.data, pos := s.pos + 3 } cad (hr :: rest) r1.2
  have r3 := readByte_of_drop { data := s.data, pos := s.pos + 3 + 1 } hr rest r2.2
  unfold readSample6
  rw [show (3 : Nat) = [p0, p1, p2].length from rfl, r1.1]
  simp only [List.length_cons, List.length_nil, r2.1, r3.1, byteAt]
  rfl

theorem readSample7_of_drop (le : Bool) (s : QDataStream)
    (w0 w1 cad hr s0 s1 s2 s3 a0 a1 a2 a3 t0 t1 : Byte) (rest : List Byte)
    (h : s.data.drop s.pos
      = w0 :: w1 :: cad :: hr :: s0 :: s1 :: s2 :: s3 :: a0 :: a1 :: a2 :: a3 :: t0 :: t1 :: rest) :
    readSample7 le s =
      ({ cad := cad.val, hr := hr.val,
         watts := ((htons le (w0.val * 256 + w1.val) : Nat) : Int),
         kph := ((htonl le (s0.val * 2 ^ 24 + s1.val * 2 ^ 16 + s2.val * 2 ^ 8 + s3.val) : Nat) : ℚ)
           * (36 / 10) / 1000,
         alt := ((htonl le (a0.val * 2 ^ 24 + a1.val * 2 ^ 16 + a2.val * 2 ^ 8 + a3.val) : Nat) : ℚ) },
       { data := s.data, pos := s.pos + 14 }) := by
  have r1 := readShort_of_drop le s w0 w1 _ h
  have r2 := readByte_of_drop { data := s.data, pos := s.pos + 2 } cad _ r1.2
  have r3 := readByte_of_drop { data := s.data, pos := s.pos + 2 + 1 } hr _ r2.2
  have r4 := readLong_of_drop le { data := s.data, pos := s.pos + 2 + 1 + 1 } s0 s1 s2 s3 _ r3.2
  have r5 := readLong_of_drop le { data := s.data, pos := s.pos + 2 + 1 + 1 + 4 } a0 a1 a2 a3 _ r4.2
  have r6 := readShort_of_drop le { data := s.data, pos := s.pos + 2 + 1 + 1 + 4 + 4 } t0 t1 _ r5.2
  unfold readSample7
  simp only [r1.1, r2.1, r3.1, r4.1, r5.1, r6.1]

/-! ## The stream position after the reads -/

theorem read_snd (s : QDataStream) (n : Nat) :
    (s.read n).2 = { data := s.data, pos := min (s.pos + n) s.data.length } :=
  rfl

theorem readRawData_snd (s : QDataStream) (n : Nat) : (readRawData s n).2 = (s.read n).2 :=
  rfl

theorem readByte_snd (s : QDataStream) : (readByte s).2 = (s.read 1).2 := by
  unfold readByte streamByte
  simp only
  split <;> rfl

theorem readShort_snd (le : Bool) (s : QDataStream) : (readShort le s).2 = (s.read 2).2 := by
  unfold readShort streamShort
  simp only
  split <;> rfl

theorem readLong_snd (le : Bool) (s : QDataStream) : (readLong le s).2 = (s.read 4).2 := by
  unfold readLong streamLong
  simp only
  split <;> rfl

theorem read_read_snd (s : QDataStream) (a b : Nat) :
    ((s.read a).2.read b).2 = (s.read (a + b)).2 := by
  simp only [read_snd, QDataStream.mk.injEq, true_and]
  omega

theorem readSample_snd (le : Bool) (version : Int) (s : QDataStream) :
    (readSample le version s).2 = (s.read (sampleSize version)).2 := by
  unfold readSample sampleSize
  split_ifs
  · unfold readSample6
    simp only [readByte_snd, readRawData_snd, read_read_snd]
  · unfold readSample7
    simp only [readByte_snd, readShort_snd, readLong_snd, read_read_snd]

theorem sampleStep_inp (le : Bool) (p : Prelude) (i : Nat) (st : LoopState) :
    (sampleStep le p i st).inp = (st.inp.read (sampleSize p.hdr.version)).2 := by
  rw [← readSample_snd le]
  unfold sampleStep
  simp only
  split_ifs <;> rfl

theorem sampleLoop_add (le : Bool) (p : Prelude) (a b i : Nat) (st : LoopState) :
    sampleLoop le p (a + b) i st = sampleLoop le p b (i + a) (sampleLoop le p a i st) := by
  induction a generalizing i st with
  | zero => simp [sampleLoop]
  | succ a ih =>
    rw [Nat.add_right_comm, sampleLoop, sampleLoop, ih]
    congr 1
    omega

theorem sampleLoop_inp_pos (le : Bool) (p : Prelude) (n i : Nat) (st : LoopState)
    (h : st.inp.pos + n * sampleSize p.hdr.version ≤ st.inp.data.length) :
    (sampleLoop le p n i st).inp.pos = st.inp.pos + n * sampleSize p.hdr.version ∧
    (sampleLoop le p n i st).inp.data = st.inp.data := by
  induction n generalizing i st with
  | zero => simp [sampleLoop]
  | succ n ih =>
    have hstep := sampleStep_inp le p i st
    rw [read_snd] at hstep
    have h1 : (sampleStep le p i st).inp.pos = st.inp.pos + sampleSize p.hdr.version := by
      rw [hstep]
      simp only
      rw [Nat.succ_mul] at h
      omega
    have h2 : (sampleStep le p i st).inp.data = st.inp.data := by
      rw [hstep]
    rw [sampleLoop]
    have hrec := ih (i + 1) (sampleStep le p i st) (by
      rw [h1, h2]
      rw [Nat.succ_mul] at h
      omega)
    rw [hrec.1, hrec.2, h1, h2, Nat.succ_mul]
    exact ⟨by omega, rfl⟩

theorem readMarker_data (le : Bool) (s : QDataStream) :
    (readMarker le s).2.data = s.data := by
  unfold readMarker
  simp only [readRawData_snd, readByte_snd, readShort_snd, read_snd]

theorem readMarkers_data (le : Bool) (n : Nat) (s : QDataStream) :
    (readMarkers le n s).2.data = s.data := by
  induction n generalizing s with
  | zero => rfl
  | succ n ih =>
    rw [readMarkers]
    simp only [ih, readMarker_data]

theorem readBlock_data (le : Bool) (date : Int) (s : QDataStream) :
    (readBlock le date s).2.data = s.data := by
  unfold readBlock
  simp only [readShort_snd, readLong_snd, read_snd]

theorem readBlocks_data (le : Bool) (date : Int) (n : Nat) (s : QDataStream) :
    (readBlocks le date n s).2.data = s.data := by
  induction n generalizing s with
  | zero => rfl
  | succ n ih =>
    rw [readBlocks]
    simp only [ih, readBlock_data]

theorem prelude_inp_data (le : Bool) (file : List Byte) :
    (readPrelude le file).inp.data = file := by
  unfold readPrelude readTrailer
  simp only [readByte_snd, readShort_snd, read_snd, readBlocks_data, readMarkers_data]
  unfold readHeader
  simp only [readRawData_snd, readByte_snd, readShort_snd, read_snd]

theorem sampleSize_eq (version : Int) :
    sampleSize version = if version = 6 then 5 else 14 :=
  rfl

theorem sampleStep_point (le : Bool) (p : Prelude) (i : Nat) (st : LoopState) :
    ∃ pt : RideFilePoint,
      (sampleStep le p i st).result.dataPoints = st.result.dataPoints ++ [pt] ∧
      pt.secs = st.secs ∧
      pt.cad = (readSample le p.hdr.version st.inp).1.cad ∧
      pt.hr = (readSample le p.hdr.version st.inp).1.hr ∧
      pt.watts = (readSample le p.hdr.version st.inp).1.watts ∧
      pt.kph = (readSample le p.hdr.version st.inp).1.kph ∧
      pt.alt = (readSample le p.hdr.version st.inp).1.alt ∧
      pt.km = st.km + st.result.recIntSecs * (readSample le p.hdr.version st.inp).1.kph / 3600 ∧
      pt.nm = torque pt.watts pt.cad := by
  unfold sampleStep
  simp only [RideFile.appendPoint]
  split_ifs <;> exact ⟨_, rfl, rfl, rfl, rfl, rfl, rfl, rfl, rfl, rfl⟩

/-! ## The claims -/

/-- C1 (the code departs from the claim on a little-endian host).  `readShort` and
`readLong` return the big-endian value of the bytes on a big-endian host, where `htons`
and `htonl` are the identity, and the little-endian value on a little-endian host, where
they swap the value that the big-endian `QDataStream` delivered: the bytes `01 02` are
read as 513, not 258, and `01 02 03 04` as `0x04030201`. -/
theorem readShort_readLong_host_order (b0 b1 b2 b3 : Byte) (rest : List Byte) :
    (readShort false { data := b0 :: b1 :: rest, pos := 0 }).1 = b0.val * 256 + b1.val ∧
    (readShort true { data := b0 :: b1 :: rest, pos := 0 }).1 = b1.val * 256 + b0.val ∧
    (readLong false { data := b0 :: b1 :: b2 :: b3 :: rest, pos := 0 }).1
      = b0.val * 2 ^ 24 + b1.val * 2 ^ 16 + b2.val * 2 ^ 8 + b3.val ∧
    (readLong true { data := b0 :: b1 :: b2 :: b3 :: rest, pos := 0 }).1
      = b3.val * 2 ^ 24 + b2.val * 2 ^ 16 + b1.val * 2 ^ 8 + b0.val ∧
    (readShort true { data := [1, 2], pos := 0 }).1 = 513 ∧
    (readLong true { data := [1, 2, 3, 4], pos := 0 }).1 = 67305985 := by
  have h0 := b0.isLt
  have h1 := b1.isLt
  have h2 := b2.isLt
  have h3 := b3.isLt
  refine ⟨?_, ?_, ?_, ?_, by decide, by decide⟩
  · simp only [readShort, streamShort, QDataStream.read, htons, List.drop_zero, List.take]
    simp
    omega
  · simp only [readShort, streamShort, QDataStream.read, htons, List.drop_zero, List.take]
    simp
    omega
  · simp only [readLong, streamLong, QDataStream.read, htonl, List.drop_zero, List.take]
    simp
    omega
  · simp only [readLong, streamLong, QDataStream.read, htonl, List.drop_zero, List.take]
    simp
    omega

/-- C2.  On every file that passes the header checks (tag `SRM`, version 6 or 7, block
count above 0), on either host, the number of samples in the sink when `openRideFile`
ends is the `datacnt` read from the file, whatever the block and marker tables hold. -/
theorem openRideFile_sample_count (le : Bool) (file : List Byte)
    (h : headerChecks (readPrelude le file)) :
    (openRideFile le file).result.dataPoints.length = (readPrelude le file).datacnt := by
  rw [openRideFile_of_checks le file h]
  simp only
  rw [(addIntervals_dataPoints _ _).1]
  exact afterSamples_length le file

/-- Witness of C2 on `fileTwoBlocks`, which declares 5 samples. -/
theorem openRideFile_sample_count_witness :
    headerChecks (readPrelude true fileTwoBlocks) ∧
    (openRideFile true fileTwoBlocks).result.dataPoints.length = 5 :=
  ⟨by decide!, openRideFile_sample_count true fileTwoBlocks (by decide!)⟩

/-- C4.  The marker fixup stores `1 ≤ start ≤ end` for every pair of raw values, it stores
the raw marker `(0, 0)` as `(1, 1)`, and so every marker of the table that `openRideFile`
reads from a file satisfies `1 ≤ start ≤ end`. -/
theorem fixup_invariant (start end_ : Int) (le : Bool) (file : List Byte) :
    1 ≤ (fixup start end_).start ∧ (fixup start end_).start ≤ (fixup start end_).end_ ∧
    fixup 0 0 = { start := 1, end_ := 1 } ∧
    ∀ m ∈ (readPrelude le file).markers, 1 ≤ m.start ∧ m.start ≤ m.end_ := by
  exact ⟨(fixup_range start end_).1, (fixup_range start end_).2, by decide,
    prelude_markers_range le file⟩

/-- C5.  The marker fixup is idempotent: applied to the marker it stored, it stores the
same marker again. -/
theorem fixup_idempotent (start end_ : Int) :
    fixup (fixup start end_).start (fixup start end_).end_ = fixup start end_ := by
  unfold fixup
  simp only
  split_ifs <;> simp_all
  omega

/-- C6, counterexample.  `fileMarkersOutOfOrder` passes the header checks and has 5
samples, the last at 4 s, with a recording interval of 1 s; its markers `(4, 5)` and
`(1, 2)` make `openRideFile` emit `(0, 3)`, `(3, 5)`, `(5, 0)`, `(0, 2)`, `(2, 5)`, and the
third of them starts after it ends: the intervals do not tile `[0, 4 + 1]`. -/
theorem intervals_do_not_tile_out_of_order :
    headerChecks (readPrelude true fileMarkersOutOfOrder) ∧
    (openRideFile true fileMarkersOutOfOrder).returned = true ∧
    (elapsed true fileMarkersOutOfOrder).getLast? = some 4 ∧
    (readPrelude true fileMarkersOutOfOrder).hdr.recIntSecs = 1 ∧
    (openRideFile true fileMarkersOutOfOrder).result.intervals =
      [⟨0, 3, ""⟩, ⟨3, 5, "1"⟩, ⟨5, 0, ""⟩, ⟨0, 2, "2"⟩, ⟨2, 5, ""⟩] ∧
    ¬ Tiles 0 (4 + 1) (openRideFile true fileMarkersOutOfOrder).result.intervals := by
  decide!

/-- C6, amended.  On every file that passes the header checks, has a divisor `recint2 ≠ 0`
of the recording interval (so that the recording interval is the finite quotient
`recint1 / recint2`) and has at least one sample, if the markers 1..markercnt start within
the samples (`start ≤ datacnt`) and are ordered and disjoint (each ends before the next
starts), and there is at least one marker or the sentinel record ends before the last
sample, then `openRideFile` returns and the intervals it emitted tile
`[0, last_sample_secs + recording_interval]`. -/
theorem openRideFile_intervals_tile (le : Bool) (file : List Byte)
    (h : headerChecks (readPrelude le file))
    (hrec : (readPrelude le file).hdr.recint2 ≠ 0)
    (hn : 1 ≤ (readPrelude le file).datacnt)
    (hrange : ∀ m ∈ (readPrelude le file).markers.tail,
      m.start ≤ ((readPrelude le file).datacnt : Int))
    (hord : List.Chain' (fun a b : marker => a.end_ < b.start)
      (readPrelude le file).markers.tail)
    (hlast : 1 ≤ (readPrelude le file).hdr.markercnt ∨
      ∀ m ∈ (readPrelude le file).markers.head?,
        m.end_ < ((readPrelude le file).datacnt : Int)) :
    (openRideFile le file).returned = true ∧
    ∃ last, (elapsed le file).getLast? = some last ∧
      Tiles 0 (last + (readPrelude le file).hdr.recIntSecs)
        (openRideFile le file).result.intervals := by
  have hmlen := prelude_markers_length le file
  have hmrange := prelude_markers_range le file
  have htslen : ((afterSamples le file).result.dataPoints.map (fun pt => pt.secs)).length
      = (readPrelude le file).datacnt := by
    rw [List.length_map, afterSamples_length]
  have hel : elapsed le file
      = (afterSamples le file).result.dataPoints.map (fun pt => pt.secs) := by
    unfold elapsed
    rw [openRideFile_dataPoints le file h]
  rw [hel, openRideFile_of_checks le file h]
  cases hmk : (readPrelude le file).markers with
  | nil =>
    rw [hmk] at hmlen
    simp at hmlen
  | cons m0 ms =>
    rw [hmk] at hmlen hmrange hrange hord hlast
    simp only [List.tail_cons] at hrange hord
    refine addIntervals_tiles _ _ (recIntSecs_quotient _ hrec).1 (afterSamples_chain le file)
      (afterSamples_head le file hn) m0 ms _ rfl (afterSamples_recIntSecs le file)
      (afterSamples_intervals le file) ?_ hord ?_
    · intro m hm
      rw [htslen]
      exact ⟨(hmrange m (List.mem_cons_of_mem _ hm)).1,
        (hmrange m (List.mem_cons_of_mem _ hm)).2, hrange m hm⟩
    · rw [htslen]
      rcases hlast with h1 | h2
      · left
        intro hnil
        rw [hnil] at hmlen
        simp only [List.length_singleton] at hmlen
        omega
      · right
        exact h2 m0 rfl

/-- Witness of the amended C6 on `fileTwoMarkers`: 6 samples at 0..5 s, markers `(2, 3)`
and `(5, 6)`. -/
theorem openRideFile_intervals_tile_witness :
    (openRideFile true fileTwoMarkers).returned = true ∧
    ∃ last, (elapsed true fileTwoMarkers).getLast? = some last ∧
      Tiles 0 (last + (readPrelude true fileTwoMarkers).hdr.recIntSecs)
        (openRideFile true fileTwoMarkers).result.intervals :=
  openRideFile_intervals_tile true fileTwoMarkers (by decide!) (by decide!) (by decide!)
    (by decide!)
    (by
      rw [show (readPrelude true fileTwoMarkers).markers = [⟨1, 6⟩, ⟨2, 3⟩, ⟨5, 6⟩] by decide!]
      simp)
    (by decide!)

/-- C7, counterexample.  `fileNoMarkers` passes the header checks, has `markercnt = 0` and
2 samples, and its sentinel record is `(1, 2)`: `openRideFile` emits no interval at all,
because the sentinel's end is not below the number of samples. -/
theorem no_interval_when_sentinel_covers_ride :
    headerChecks (readPrelude false fileNoMarkers) ∧
    (readPrelude false fileNoMarkers).hdr.markercnt = 0 ∧
    (readPrelude false fileNoMarkers).markers = [⟨1, 2⟩] ∧
    (openRideFile false fileNoMarkers).result.dataPoints.length = 2 ∧
    (openRideFile false fileNoMarkers).returned = true ∧
    (openRideFile false fileNoMarkers).result.intervals = [] := by
  decide!

/-- C7, amended.  On every file that passes the header checks, has `markercnt = 0` and at
least one sample, `openRideFile` returns; when the end of the sentinel record (entry 0,
after the fixup) is below the number of samples it emits exactly one interval, unnamed,
from 0 to `last_sample_secs + recording_interval`, and otherwise it emits no interval. -/
theorem openRideFile_no_markers (le : Bool) (file : List Byte)
    (h : headerChecks (readPrelude le file))
    (h0 : (readPrelude le file).hdr.markercnt = 0)
    (hn : 1 ≤ (readPrelude le file).datacnt) :
    (openRideFile le file).returned = true ∧
    ∃ m0 last, (readPrelude le file).markers = [m0] ∧
      (elapsed le file).getLast? = some last ∧
      (openRideFile le file).result.intervals =
        if m0.end_ < ((readPrelude le file).datacnt : Int) then
          [{ start := 0, stop := last + (readPrelude le file).hdr.recIntSecs, name := "" }]
        else [] := by
  have hmlen := prelude_markers_length le file
  rw [h0] at hmlen
  obtain ⟨m0, hm0⟩ := List.length_eq_one.mp hmlen
  have hlen := afterSamples_length le file
  obtain ⟨pt, hpt⟩ : ∃ pt, (afterSamples le file).result.dataPoints.getLast? = some pt := by
    cases hgl : (afterSamples le file).result.dataPoints.getLast? with
    | none =>
      rw [List.getLast?_eq_none_iff.mp hgl] at hlen
      simp only [List.length_nil] at hlen
      omega
    | some x => exact ⟨x, rfl⟩
  have hel : (elapsed le file).getLast? = some pt.secs := by
    unfold elapsed
    rw [openRideFile_dataPoints le file h, List.getLast?_map, hpt]
    rfl
  have hadd : addIntervals [m0] (afterSamples le file).result =
      if m0.end_ < ((readPrelude le file).datacnt : Int) then
        { last := 0,
          result := (afterSamples le file).result.addInterval 0
            (pt.secs + (readPrelude le file).hdr.recIntSecs) "",
          ok := true }
      else { last := 0, result := (afterSamples le file).result, ok := true } := by
    unfold addIntervals
    simp only [List.tail_cons, intervalLoop, if_true, List.getLast?_singleton, hlen, hpt,
      afterSamples_recIntSecs]
  rw [openRideFile_of_checks le file h, hm0, hadd]
  refine ⟨?_, m0, pt.secs, rfl, hel, ?_⟩
  · split_ifs <;> rfl
  · split_ifs
    · simp only [RideFile.addInterval, afterSamples_intervals, List.nil_append]
    · exact afterSamples_intervals le file

/-- Witness of the amended C7 on `fileShortSentinel`, whose sentinel record `(1, 1)` ends
before the second and last sample: one unnamed interval is emitted. -/
theorem openRideFile_no_markers_witness :
    (readPrelude false fileShortSentinel).markers = [⟨1, 1⟩] ∧
    (openRideFile false fileShortSentinel).result.intervals = [⟨0, 1, ""⟩] ∧
    ((openRideFile false fileShortSentinel).returned = true ∧
    ∃ m0 last, (readPrelude false fileShortSentinel).markers = [m0] ∧
      (elapsed false fileShortSentinel).getLast? = some last ∧
      (openRideFile false fileShortSentinel).result.intervals =
        if m0.end_ < ((readPrelude false fileShortSentinel).datacnt : Int) then
          [{ start := 0, stop := last + (readPrelude false fileShortSentinel).hdr.recIntSecs,
             name := "" }]
        else []) :=
  ⟨by decide!, by decide!,
    openRideFile_no_markers false fileShortSentinel (by decide!) (by decide!) (by decide!)⟩

/-- C8.  In a version 6 file, a pass of the sample loop whose stream stands at the record
`p0 p1 p2 cad hr` appends a sample with speed `(((p1 & 0xF0) << 3) | (p0 & 0x7F)) * 3 / 26`,
power `(p1 & 0x0F) | (p2 << 4)`, the 4th and 5th byte as cadence and heart rate, altitude
0, and the torque computed from that power and cadence.  The record `7F F0 0F`, cadence
90, heart rate 150 decodes to speed `2047 * 3 / 26` and power 240, and its torque is
`240 / (2 * PI * 90) * 60`. -/
theorem version6_sample (le : Bool) (p : Prelude) (i : Nat) (st : LoopState)
    (p0 p1 p2 cad hr : Byte) (rest : List Byte)
    (hv : p.hdr.version = 6)
    (hin : st.inp.data.drop st.inp.pos = p0 :: p1 :: p2 :: cad :: hr :: rest) :
    (∃ pt : RideFilePoint,
      (sampleStep le p i st).result.dataPoints = st.result.dataPoints ++ [pt] ∧
      pt.kph = ((((p1.val &&& 0xf0) <<< 3) ||| (p0.val &&& 0x7f) : Nat) : ℚ) * 3 / 26 ∧
      pt.watts = (((p1.val &&& 0x0f) ||| (p2.val <<< 4) : Nat) : Int) ∧
      pt.cad = (cad.val : Int) ∧ pt.hr = (hr.val : Int) ∧ pt.alt = 0 ∧
      pt.nm = torque pt.watts pt.cad) ∧
    (readSample6 { data := [0x7f, 0xf0, 0x0f, 90, 150], pos := 0 }).1
      = { cad := 90, hr := 150, watts := 240, kph := 2047 * 3 / 26, alt := 0 } ∧
    torque 240 90 = some (240 / (2 * PI * 90) * 60) := by
  refine ⟨?_, by decide!, by decide!⟩
  obtain ⟨pt, hpts, _, hcad, hhr, hwatts, hkph, halt, _, hnm⟩ := sampleStep_point le p i st
  have hread : readSample le p.hdr.version st.inp = readSample6 st.inp := by
    unfold readSample
    rw [if_pos hv]
  rw [hread, readSample6_of_drop st.inp p0 p1 p2 cad hr rest hin] at hcad hhr hwatts hkph halt
  exact ⟨pt, hpts, hkph, hwatts, hcad, hhr, halt, hnm⟩

/-- Witness of C8 on the first pass over `fileTwoBlocks`, whose first sample record is
`7F F0 0F 5A 96`. -/
theorem version6_sample_witness :
    (∃ pt : RideFilePoint,
      (sampleStep true (readPrelude true fileTwoBlocks) 0
          (loopStateAt true fileTwoBlocks 0)).result.dataPoints
        = (loopStateAt true fileTwoBlocks 0).result.dataPoints ++ [pt] ∧
      pt.kph = ((((((0xf0 : Byte)).val &&& 0xf0) <<< 3) ||| (((0x7f : Byte)).val &&& 0x7f) : Nat) : ℚ)
        * 3 / 26 ∧
      pt.watts = (((((0xf0 : Byte)).val &&& 0x0f) ||| (((0x0f : Byte)).val <<< 4) : Nat) : Int) ∧
      pt.cad = (((90 : Byte)).val : Int) ∧ pt.hr = (((150 : Byte)).val : Int) ∧ pt.alt = 0 ∧
      pt.nm = torque pt.watts pt.cad) ∧
    (readSample6 { data := [0x7f, 0xf0, 0x0f, 90, 150], pos := 0 }).1
      = { cad := 90, hr := 150, watts := 240, kph := 2047 * 3 / 26, alt := 0 } ∧
    torque 240 90 = some (240 / (2 * PI * 90) * 60) :=
  version6_sample true (readPrelude true fileTwoBlocks) 0 (loopStateAt true fileTwoBlocks 0)
    0x7f 0xf0 0x0f 90 150 (sixSamples.drop 5 |>.take 20) (by decide!) (by decide!)

/-- C9 (the code departs from the claim on a little-endian host).  The version 7 branch
decodes the two power bytes, the four speed bytes and the four altitude bytes as
big-endian values on a big-endian host, and as little-endian values on a little-endian
host.  The record of the claim (power `00 96`, cadence 80, heart rate 140, speed
`00 00 03 E8`, altitude `00 00 00 64`) decodes to 150 W, 3.6 km/h, 100 m on a big-endian
host and to 38400 W, `0xE8030000 * 3.6 / 1000` km/h, `0x64000000` m on a little-endian
host. -/
theorem version7_sample_host_order
    (w0 w1 cad hr s0 s1 s2 s3 a0 a1 a2 a3 t0 t1 : Byte) (rest : List Byte) :
    (readSample7 false
      { data := w0 :: w1 :: cad :: hr :: s0 :: s1 :: s2 :: s3 :: a0 :: a1 :: a2 :: a3 ::
          t0 :: t1 :: rest, pos := 0 }).1
      = { cad := cad.val, hr := hr.val, watts := ((w0.val * 256 + w1.val : Nat) : Int),
          kph := ((s0.val * 2 ^ 24 + s1.val * 2 ^ 16 + s2.val * 2 ^ 8 + s3.val : Nat) : ℚ)
            * (36 / 10) / 1000,
          alt := ((a0.val * 2 ^ 24 + a1.val * 2 ^ 16 + a2.val * 2 ^ 8 + a3.val : Nat) : ℚ) } ∧
    (readSample7 true
      { data := w0 :: w1 :: cad :: hr :: s0 :: s1 :: s2 :: s3 :: a0 :: a1 :: a2 :: a3 ::
          t0 :: t1 :: rest, pos := 0 }).1
      = { cad := cad.val, hr := hr.val, watts := ((w1.val * 256 + w0.val : Nat) : Int),
          kph := ((s3.val * 2 ^ 24 + s2.val * 2 ^ 16 + s1.val * 2 ^ 8 + s0.val : Nat) : ℚ)
            * (36 / 10) / 1000,
          alt := ((a3.val * 2 ^ 24 + a2.val * 2 ^ 16 + a1.val * 2 ^ 8 + a0.val : Nat) : ℚ) } ∧
    (readSample7 false
      { data := [0, 0x96, 80, 140, 0, 0, 3, 0xe8, 0, 0, 0, 0x64, 0, 0], pos := 0 }).1
      = { cad := 80, hr := 140, watts := 150, kph := 36 / 10, alt := 100 } ∧
    (readSample7 true
      { data := [0, 0x96, 80, 140, 0, 0, 3, 0xe8, 0, 0, 0, 0x64, 0, 0], pos := 0 }).1
      = { cad := 80, hr := 140, watts := 38400, kph := 3892510720 * (36 / 10) / 1000,
          alt := 1677721600 } := by
  have hw0 := w0.isLt
  have hw1 := w1.isLt
  have hs0 := s0.isLt
  have hs1 := s1.isLt
  have hs2 := s2.isLt
  have hs3 := s3.isLt
  have ha0 := a0.isLt
  have ha1 := a1.isLt
  have ha2 := a2.isLt
  have ha3 := a3.isLt
  have e1 : htons false (w0.val * 256 + w1.val) = w0.val * 256 + w1.val := by
    simp only [htons, Bool.false_eq_true, if_false]
    omega
  have e2 : htons true (w0.val * 256 + w1.val) = w1.val * 256 + w0.val := by
    simp only [htons, if_true]
    omega
  have e3 : ∀ b0 b1 b2 b3 : Byte,
      htonl false (b0.val * 2 ^ 24 + b1.val * 2 ^ 16 + b2.val * 2 ^ 8 + b3.val)
        = b0.val * 2 ^ 24 + b1.val * 2 ^ 16 + b2.val * 2 ^ 8 + b3.val := by
    intro b0 b1 b2 b3
    have h0 := b0.isLt
    have h1 := b1.isLt
    have h2 := b2.isLt
    have h3 := b3.isLt
    simp only [htonl, Bool.false_eq_true, if_false]
    omega
  have e4 : ∀ b0 b1 b2 b3 : Byte,
      htonl true (b0.val * 2 ^ 24 + b1.val * 2 ^ 16 + b2.val * 2 ^ 8 + b3.val)
        = b3.val * 2 ^ 24 + b2.val * 2 ^ 16 + b1.val * 2 ^ 8 + b0.val := by
    intro b0 b1 b2 b3
    have h0 := b0.isLt
    have h1 := b1.isLt
    have h2 := b2.isLt
    have h3 := b3.isLt
    simp only [htonl, if_true]
    omega
  refine ⟨?_, ?_, by decide!, by decide!⟩
  · rw [readSample7_of_drop false
      { data := w0 :: w1 :: cad :: hr :: s0 :: s1 :: s2 :: s3 :: a0 :: a1 :: a2 :: a3 ::
          t0 :: t1 :: rest, pos := 0 }
      w0 w1 cad hr s0 s1 s2 s3 a0 a1 a2 a3 t0 t1 rest rfl, e1, e3, e3]
  · rw [readSample7_of_drop true
      { data := w0 :: w1 :: cad :: hr :: s0 :: s1 :: s2 :: s3 :: a0 :: a1 :: a2 :: a3 ::
          t0 :: t1 :: rest, pos := 0 }
      w0 w1 cad hr s0 s1 s2 s3 a0 a1 a2 a3 t0 t1 rest rfl, e2, e4, e4]

/-- C10, counterexample.  `fileNoMarkers` is a version 7 file that passes the header checks
and holds all the bytes of its 2 samples; the second sample starts 14 bytes after the
first, not 10. -/
theorem version7_sample_is_not_10_bytes :
    headerChecks (readPrelude false fileNoMarkers) ∧
    (readPrelude false fileNoMarkers).hdr.version = 7 ∧
    (readPrelude false fileNoMarkers).datacnt = 2 ∧
    (readPrelude false fileNoMarkers).inp.pos + 2 * 14 = fileNoMarkers.length ∧
    (loopStateAt false fileNoMarkers 1).inp.pos
      = (readPrelude false fileNoMarkers).inp.pos + 1 * 14 ∧
    (loopStateAt false fileNoMarkers 1).inp.pos
      ≠ (readPrelude false fileNoMarkers).inp.pos + 1 * 10 := by
  decide!

/-- C10, amended.  On every file that passes the header checks and holds all the bytes of
its `datacnt` samples, with 5 bytes per sample for version 6 and 14 bytes per sample for
version 7: pass `i` of the sample loop starts at offset `i * 5`, respectively `i * 14`,
from the beginning of the sample stream, and moves the stream by exactly 5, respectively
14, bytes. -/
theorem sample_stream_offsets (le : Bool) (file : List Byte) (i : Nat)
    (h : headerChecks (readPrelude le file))
    (hi : i < (readPrelude le file).datacnt)
    (hlen : (readPrelude le file).inp.pos
      + (readPrelude le file).datacnt * (if (readPrelude le file).hdr.version = 6 then 5 else 14)
      ≤ file.length) :
    ((readPrelude le file).hdr.version = 6 ∨ (readPrelude le file).hdr.version = 7) ∧
    (loopStateAt le file i).inp.pos = (readPrelude le file).inp.pos
      + i * (if (readPrelude le file).hdr.version = 6 then 5 else 14) ∧
    loopStateAt le file (i + 1)
      = sampleStep le (readPrelude le file) i (loopStateAt le file i) ∧
    (sampleStep le (readPrelude le file) i (loopStateAt le file i)).inp.pos
      = (loopStateAt le file i).inp.pos
        + (if (readPrelude le file).hdr.version = 6 then 5 else 14) := by
  have hdata := prelude_inp_data le file
  rw [← sampleSize_eq] at hlen ⊢
  have hmul : ∀ j, j ≤ (readPrelude le file).datacnt →
      j * sampleSize (readPrelude le file).hdr.version
        ≤ (readPrelude le file).datacnt * sampleSize (readPrelude le file).hdr.version :=
    fun j hj => Nat.mul_le_mul_right _ hj
  have hpos : ∀ j, j ≤ (readPrelude le file).datacnt →
      (loopStateAt le file j).inp.pos = (readPrelude le file).inp.pos
        + j * sampleSize (readPrelude le file).hdr.version := by
    intro j hj
    unfold loopStateAt
    refine (sampleLoop_inp_pos le _ j 0 _ ?_).1
    have := hmul j hj
    simp only [initState]
    rw [hdata]
    omega
  have hnext : loopStateAt le file (i + 1)
      = sampleStep le (readPrelude le file) i (loopStateAt le file i) := by
    unfold loopStateAt
    rw [sampleLoop_add]
    simp [sampleLoop]
  refine ⟨h.2.1, hpos i hi.le, hnext, ?_⟩
  rw [← hnext, hpos i hi.le, hpos (i + 1) hi, Nat.succ_mul]
  omega

/-- Witness of the amended C10 on `fileTwoBlocks` (version 6): its third sample, `i = 2`. -/
theorem sample_stream_offsets_witness :
    (loopStateAt true fileTwoBlocks 2).inp.pos = 645 + 2 * 5 ∧
    (((readPrelude true fileTwoBlocks).hdr.version = 6 ∨
        (readPrelude true fileTwoBlocks).hdr.version = 7) ∧
      (loopStateAt true fileTwoBlocks 2).inp.pos = (readPrelude true fileTwoBlocks).inp.pos
        + 2 * (if (readPrelude true fileTwoBlocks).hdr.version = 6 then 5 else 14) ∧
      loopStateAt true fileTwoBlocks (2 + 1)
        = sampleStep true (readPrelude true fileTwoBlocks) 2 (loopStateAt true fileTwoBlocks 2) ∧
      (sampleStep true (readPrelude true fileTwoBlocks) 2
          (loopStateAt true fileTwoBlocks 2)).inp.pos
        = (loopStateAt true fileTwoBlocks 2).inp.pos
          + (if (readPrelude true fileTwoBlocks).hdr.version = 6 then 5 else 14)) :=
  ⟨by decide!, sample_stream_offsets true fileTwoBlocks 2 (by decide!) (by decide!) (by decide!)⟩

/-! ## Failing header checks -/

theorem openRideFile_of_not_checks_outcome (le : Bool) (file : List Byte)
    (h : ¬ headerChecks (readPrelude le file)) :
    (openRideFile le file).returned = false ∧
    (openRideFile le file).result.dataPoints = [] ∧
    (openRideFile le file).result.intervals = [] := by
  unfold headerChecks at h
  unfold openRideFile
  simp only
  split_ifs <;>
    first
    | exact ⟨rfl, rfl, rfl⟩
    | exact absurd ⟨by assumption, by assumption, by assumption⟩ h

theorem magic_of_file (le : Bool) (file : List Byte) :
    (readPrelude le file).hdr.magic = file.take 4 ++ List.replicate (4 - (file.take 4).length) 0 := by
  unfold readPrelude readHeader readRawData QDataStream.read
  simp

theorem tagOk_iff (le : Bool) (file : List Byte) :
    (readPrelude le file).hdr.tagOk = true ↔ file.take 3 = [83, 82, 77] := by
  unfold Header.tagOk
  rw [magic_of_file]
  rcases file with _ | ⟨a, _ | ⟨b, _ | ⟨c, _ | ⟨d, rest⟩⟩⟩⟩ <;> simp

theorem version_iff (le : Bool) (file : List Byte) :
    ((readPrelude le file).hdr.version = 6 ∨ (readPrelude le file).hdr.version = 7) ↔
      (file[3]? = some 54 ∨ file[3]? = some 55) := by
  unfold Header.version
  rw [magic_of_file]
  rcases file with _ | ⟨a, _ | ⟨b, _ | ⟨c, _ | ⟨d, rest⟩⟩⟩⟩
  · simp
  · simp
  · simp
  · simp
  · have hd := d.isLt
    simp only [List.take_succ_cons, List.take_zero, List.length_cons, List.length_nil,
      Nat.reduceAdd, Nat.sub_self, List.replicate_zero, List.append_nil,
      List.getElem?_cons_succ, List.getElem?_cons_zero, Option.some.injEq]
    simp only [List.getD_cons_succ, List.getD_cons_zero, Fin.ext_iff]
    have e54 : ((54 : Fin 256) : Nat) = 54 := rfl
    have e55 : ((55 : Fin 256) : Nat) = 55 := rfl
    rw [e54, e55]
    omega

/-! ## Torque of the emitted samples -/

theorem sampleLoop_forall_points (P : RideFilePoint → Prop) (le : Bool) (p : Prelude)
    (hstep : ∀ (i : Nat) (st : LoopState), ∃ pt : RideFilePoint,
      (sampleStep le p i st).result.dataPoints = st.result.dataPoints ++ [pt] ∧ P pt)
    (n i : Nat) (st : LoopState) (h : ∀ pt ∈ st.result.dataPoints, P pt) :
    ∀ pt ∈ (sampleLoop le p n i st).result.dataPoints, P pt := by
  induction n generalizing i st with
  | zero => exact h
  | succ n ih =>
    rw [sampleLoop]
    apply ih
    obtain ⟨pt, hpts, hpt⟩ := hstep i st
    rw [hpts]
    intro q hq
    rcases List.mem_append.mp hq with hq | hq
    · exact h q hq
    · rw [List.mem_singleton.mp hq]
      exact hpt

theorem afterSamples_torque (le : Bool) (file : List Byte) :
    ∀ pt ∈ (afterSamples le file).result.dataPoints, pt.nm = torque pt.watts pt.cad := by
  unfold afterSamples loopStateAt
  apply sampleLoop_forall_points
  · intro i st
    obtain ⟨pt, hpts, _, _, _, _, _, _, _, hnm⟩ := sampleStep_point le (readPrelude le file) i st
    exact ⟨pt, hpts, hnm⟩
  · intro pt hpt
    simp [initState, RideFile.new] at hpt

/-- C11.  `openRideFile` passes its three header `assert`s exactly when the first three
bytes of the file are `SRM`, the fourth byte is the digit `6` or `7`, and the block count
read from the header is above 0.  When one of them fails, the run ends there with no
sample and no interval in the sink.  When all three hold, the run goes through the whole
sample loop (`datacnt` samples) and whether it returns is decided by the interval
reconstruction alone. -/
theorem openRideFile_header_checks (le : Bool) (file : List Byte) :
    (headerChecks (readPrelude le file) ↔
      file.take 3 = [83, 82, 77] ∧ (file[3]? = some 54 ∨ file[3]? = some 55) ∧
        0 < (readPrelude le file).hdr.blockcnt) ∧
    (¬ headerChecks (readPrelude le file) →
      (openRideFile le file).returned = false ∧
      (openRideFile le file).result.dataPoints = [] ∧
      (openRideFile le file).result.intervals = []) ∧
    (headerChecks (readPrelude le file) →
      (openRideFile le file).result.dataPoints.length = (readPrelude le file).datacnt ∧
      (openRideFile le file).returned
        = (addIntervals (readPrelude le file).markers (afterSamples le file).result).ok) := by
  refine ⟨?_, openRideFile_of_not_checks_outcome le file, ?_⟩
  · unfold headerChecks
    rw [tagOk_iff, version_iff]
  · intro h
    rw [openRideFile_of_checks le file h]
    exact ⟨by rw [(addIntervals_dataPoints _ _).1]; exact afterSamples_length le file, rfl⟩

/-- Witness of C11: `fileBadTag`, `fileBadVersion` and `fileNoBlocks` end at an `assert`
with an empty sink; `fileTwoBlocks` passes the checks, decodes its 5 samples and returns. -/
theorem openRideFile_header_checks_witness :
    ((openRideFile true fileBadTag).returned = false ∧
      (openRideFile true fileBadTag).result.dataPoints = [] ∧
      (openRideFile true fileBadTag).result.intervals = []) ∧
    ((openRideFile true fileBadVersion).returned = false ∧
      (openRideFile true fileBadVersion).result.dataPoints = [] ∧
      (openRideFile true fileBadVersion).result.intervals = []) ∧
    ((openRideFile true fileNoBlocks).returned = false ∧
      (openRideFile true fileNoBlocks).result.dataPoints = [] ∧
      (openRideFile true fileNoBlocks).result.intervals = []) ∧
    (openRideFile true fileTwoBlocks).result.dataPoints.length = 5 ∧
    (openRideFile true fileTwoBlocks).returned = true :=
  ⟨(openRideFile_header_checks true fileBadTag).2.1 (by decide!),
    (openRideFile_header_checks true fileBadVersion).2.1 (by decide!),
    (openRideFile_header_checks true fileNoBlocks).2.1 (by decide!),
    ((openRideFile_header_checks true fileTwoBlocks).2.2 (by decide!)).1.trans (by decide!),
    ((openRideFile_header_checks true fileTwoBlocks).2.2 (by decide!)).2.trans (by decide!)⟩

/-- C13, counterexample.  The third sample of `fileTwoBlocks` has cadence 0 and power 50;
its emitted torque is not the guarded value 0 but the result of the division by the zero
cadence, which is not a finite number. -/
theorem zero_cadence_torque_is_not_guarded :
    ((openRideFile true fileTwoBlocks).result.dataPoints[2]?).map
        (fun pt => (pt.cad, pt.watts, pt.nm)) = some (0, 50, none) ∧
    ((openRideFile true fileTwoBlocks).result.dataPoints[2]?).map (fun pt => pt.nm)
      ≠ some (some 0) := by
  decide!

/-- C13, amended.  For every sample that `openRideFile` emits, the torque is the value of
`watts / 2 / PI / cad * 60` evaluated without a test of the cadence: with a cadence other
than 0 it is that quotient, and with cadence 0 the division by zero is carried out and the
emitted torque is not a finite number. -/
theorem openRideFile_torque (le : Bool) (file : List Byte) (pt : RideFilePoint)
    (hpt : pt ∈ (openRideFile le file).result.dataPoints) :
    pt.nm = torque pt.watts pt.cad ∧
    (pt.cad ≠ 0 → pt.nm = some ((pt.watts : ℚ) / 2 / PI / (pt.cad : ℚ) * 60)) ∧
    (pt.cad = 0 → pt.nm = none) := by
  have hnm : pt.nm = torque pt.watts pt.cad := by
    by_cases h : headerChecks (readPrelude le file)
    · rw [openRideFile_dataPoints le file h] at hpt
      exact afterSamples_torque le file pt hpt
    · rw [openRideFile_of_not_checks le file h] at hpt
      simp at hpt
  refine ⟨hnm, ?_, ?_⟩
  · intro hc
    rw [hnm, torque, if_neg hc]
  · intro hc
    rw [hnm, torque, if_pos hc]

/-- Witness of the amended C13 on the third sample of `fileTwoBlocks`, whose cadence is 0. -/
theorem openRideFile_torque_witness :
    (⟨2, 0, 5, 683 / 10400, 3 / 26, none, 50, 0, 1⟩ : RideFilePoint)
      ∈ (openRideFile true fileTwoBlocks).result.dataPoints ∧
    (⟨2, 0, 5, 683 / 10400, 3 / 26, none, 50, 0, 1⟩ : RideFilePoint).nm = none :=
  ⟨by decide!,
    (openRideFile_torque true fileTwoBlocks ⟨2, 0, 5, 683 / 10400, 3 / 26, none, 50, 0, 1⟩
      (by decide!)).2.2 rfl⟩

/-! ## The emitted intervals form a chain -/

theorem chainInv_concat (last d : ℚ) (name : String) (ivs : List RideFileInterval)
    (h : ChainInv last ivs) :
    ChainInv d (ivs ++ [{ start := last, stop := d, name := name }]) := by
  obtain ⟨hhead, hchain, hlast, hnil⟩ := h
  refine ⟨?_, ?_, ?_, ?_⟩
  · intro iv hiv
    cases ivs with
    | nil =>
      simp only [List.nil_append, List.head?_cons, Option.mem_def, Option.some.injEq] at hiv
      rw [← hiv]
      exact hnil rfl
    | cons a l =>
      simp only [List.cons_append, List.head?_cons, Option.mem_def, Option.some.injEq] at hiv
      exact hhead iv (by simp [hiv])
  · refine List.Chain'.append hchain (List.chain'_singleton _) ?_
    intro x hx y hy
    simp only [List.head?_cons, Option.mem_def, Option.some.injEq] at hy
    rw [← hy]
    exact (hlast x hx).symm
  · intro iv hiv
    rw [List.getLast?_concat] at hiv
    simp only [Option.mem_def, Option.some.injEq] at hiv
    rw [← hiv]
  · intro hcontra
    simp at hcontra

theorem intervalStep_chainInv (i : Nat) (m : marker) (st : IntervalState)
    (h : ChainInv st.last st.result.intervals) :
    ChainInv (intervalStep i m st).last (intervalStep i m st).result.intervals := by
  cases h1 : secsAt st.result (m.start - 1) with
  | none => rw [intervalStep_start_none i m st h1]; exact h
  | some s =>
    cases h2 : secsAt st.result (min (m.end_ - 1) ((st.result.dataPoints.length : Int) - 1)) with
    | none => rw [intervalStep_end_none i m st s h1 h2]; exact h
    | some e =>
      rw [intervalStep_some i m st s e h1 h2]
      exact chainInv_concat _ _ _ _ (chainInv_concat _ _ _ _ h)

theorem intervalLoop_chainInv (ms : List marker) (i : Nat) (st : IntervalState)
    (h : ChainInv st.last st.result.intervals) :
    ChainInv (intervalLoop ms i st).last (intervalLoop ms i st).result.intervals := by
  induction ms generalizing i st with
  | nil => exact h
  | cons m ms ih =>
    rw [intervalLoop]
    split_ifs
    · exact ih (i + 1) _ (intervalStep_chainInv i m st h)
    · exact intervalStep_chainInv i m st h

theorem addIntervals_chain (markers : List marker) (result : RideFile)
    (h : result.intervals = []) :
    (∀ iv ∈ (addIntervals markers result).result.intervals.head?, iv.start = 0) ∧
    List.Chain' (fun x y : RideFileInterval => y.start = x.stop)
      (addIntervals markers result).result.intervals := by
  have hloop := intervalLoop_chainInv markers.tail 1 { last := 0, result := result, ok := true }
    ⟨by simp [h], by simp [h], by simp [h], fun _ => rfl⟩
  unfold addIntervals
  simp only
  split_ifs
  · split
    · exact ⟨hloop.1, hloop.2.1⟩
    · split_ifs
      · split
        · exact ⟨hloop.1, hloop.2.1⟩
        · exact ⟨(chainInv_concat _ _ "" _ hloop).1, (chainInv_concat _ _ "" _ hloop).2.1⟩
      · exact ⟨hloop.1, hloop.2.1⟩
  · exact ⟨hloop.1, hloop.2.1⟩

/-- C20.  For every file, whatever the order or overlap of its markers, the intervals in
the sink when `openRideFile` ends form a chain: the first starts at 0 and every later one
starts at the end value of the one emitted immediately before it. -/
theorem openRideFile_intervals_chain (le : Bool) (file : List Byte) :
    (∀ iv ∈ (openRideFile le file).result.intervals.head?, iv.start = 0) ∧
    List.Chain' (fun x y : RideFileInterval => y.start = x.stop)
      (openRideFile le file).result.intervals := by
  by_cases h : headerChecks (readPrelude le file)
  · rw [openRideFile_of_checks le file h]
    exact addIntervals_chain (readPrelude le file).markers (afterSamples le file).result
      (afterSamples_intervals le file)
  · rw [(openRideFile_of_not_checks_outcome le file h).2.2]
    exact ⟨fun iv hiv => by simp at hiv, List.chain'_nil⟩

/-- Witness of C20 on `fileMarkersOutOfOrder`, whose markers are out of order: the five
intervals emitted are chained although the third one runs backwards. -/
theorem openRideFile_intervals_chain_witness :
    (openRideFile true fileMarkersOutOfOrder).result.intervals =
      [⟨0, 3, ""⟩, ⟨3, 5, "1"⟩, ⟨5, 0, ""⟩, ⟨0, 2, "2"⟩, ⟨2, 5, ""⟩] ∧
    List.Chain' (fun x y : RideFileInterval => y.start = x.stop)
      (openRideFile true fileMarkersOutOfOrder).result.intervals :=
  ⟨by decide!, (openRideFile_intervals_chain true fileMarkersOutOfOrder).2⟩

/-! ## Diagnostics of the block transitions -/

theorem sampleStep_errorStrings (le : Bool) (p : Prelude) (i : Nat) (st : LoopState) :
    (timeGoesBackwards p st →
      (∃ msg : String, (sampleStep le p i st).errorStrings = st.errorStrings ++ [msg]) ∧
      (sampleStep le p i st).secs = st.secs + st.result.recIntSecs) ∧
    (¬ timeGoesBackwards p st → (sampleStep le p i st).errorStrings = st.errorStrings) := by
  unfold timeGoesBackwards blockGap
  by_cases h1 : st.blkidx + 1 = (p.blockhdrs.getD st.blknum { dt := 0, chunkcnt := 0 }).chunkcnt
      ∧ st.blknum + 1 < p.hdr.blockcnt
  · by_cases h2 : ((epochMSecs (p.blockhdrs.getD (st.blknum + 1) { dt := 0, chunkcnt := 0 }).dt
          - epochMSecs ((p.blockhdrs.getD st.blknum { dt := 0, chunkcnt := 0 }).dt
            + ((p.hdr.recintms * (p.blockhdrs.getD st.blknum { dt := 0, chunkcnt := 0 }).chunkcnt
                % 2 ^ 32 : Nat) : Int)) : Int) : ℚ) / 1000 < st.result.recIntSecs
    · refine ⟨fun _ => ?_, fun hn => absurd ⟨h1.1, h1.2, h2⟩ hn⟩
      unfold sampleStep
      simp only [RideFile.appendPoint, h1, h2, and_self, if_true]
      exact ⟨⟨_, rfl⟩, trivial⟩
    · refine ⟨fun hb => absurd hb.2.2 h2, fun _ => ?_⟩
      unfold sampleStep
      simp only [RideFile.appendPoint, h1, h2, and_self, if_true, if_false]
  · refine ⟨fun hb => absurd ⟨hb.1, hb.2.1⟩ h1, fun _ => ?_⟩
    unfold sampleStep
    simp only [RideFile.appendPoint, h1, if_false]

theorem loopStateAt_succ (le : Bool) (file : List Byte) (i : Nat) :
    loopStateAt le file (i + 1)
      = sampleStep le (readPrelude le file) i (loopStateAt le file i) := by
  unfold loopStateAt
  rw [sampleLoop_add]
  simp [sampleLoop]

theorem loopStateAt_errorStrings_length (le : Bool) (file : List Byte) (n : Nat) :
    (loopStateAt le file n).errorStrings.length
      = ((List.range n).filter
          (fun i => decide (timeGoesBackwards (readPrelude le file) (loopStateAt le file i)))).length := by
  induction n with
  | zero => rfl
  | succ n ih =>
    have hstep := sampleStep_errorStrings le (readPrelude le file) n (loopStateAt le file n)
    rw [List.range_succ, List.filter_append, List.length_append, ← ih, loopStateAt_succ]
    by_cases hb : timeGoesBackwards (readPrelude le file) (loopStateAt le file n)
    · obtain ⟨⟨msg, hmsg⟩, _⟩ := hstep.1 hb
      rw [hmsg]
      simp [hb]
    · rw [hstep.2 hb]
      simp [hb]

theorem getElem?_append_add {α : Type} (l l' : List α) (k : Nat) :
    (l ++ l')[l.length + k]? = l'[k]? := by
  rw [List.getElem?_append_right (Nat.le_add_right _ _), Nat.add_sub_cancel_left]

theorem secsAt_congr (r1 r2 : RideFile) (h : r1.dataPoints = r2.dataPoints) (idx : Int) :
    secsAt r1 idx = secsAt r2 idx := by
  unfold secsAt
  rw [h]

theorem intervalStep_ext (i : Nat) (m : marker) (st : IntervalState) :
    ∃ ext, (intervalStep i m st).result.intervals = st.result.intervals ++ ext := by
  cases h1 : secsAt st.result (m.start - 1) with
  | none => rw [intervalStep_start_none i m st h1]; exact ⟨[], by simp⟩
  | some s =>
    cases h2 : secsAt st.result (min (m.end_ - 1) ((st.result.dataPoints.length : Int) - 1)) with
    | none => rw [intervalStep_end_none i m st s h1 h2]; exact ⟨[], by simp⟩
    | some e =>
      rw [intervalStep_some i m st s e h1 h2]
      exact ⟨[{ start := st.last, stop := s, name := "" },
        { start := s, stop := e + st.result.recIntSecs, name := toString i }],
        by simp [RideFile.addInterval]⟩

theorem intervalLoop_ext (ms : List marker) (i : Nat) (st : IntervalState) :
    ∃ ext, (intervalLoop ms i st).result.intervals = st.result.intervals ++ ext := by
  induction ms generalizing i st with
  | nil => exact ⟨[], by simp [intervalLoop]⟩
  | cons m ms ih =>
    rw [intervalLoop]
    obtain ⟨ext1, h1⟩ := intervalStep_ext i m st
    split_ifs
    · obtain ⟨ext2, h2⟩ := ih (i + 1) (intervalStep i m st)
      exact ⟨ext1 ++ ext2, by rw [h2, h1, List.append_assoc]⟩
    · exact ⟨ext1, h1⟩

theorem intervalLoop_cons_ok (m : marker) (ms : List marker) (i : Nat) (st : IntervalState)
    (hok : (intervalLoop (m :: ms) i st).ok = true) :
    ∃ s e : ℚ, secsAt st.result (m.start - 1) = some s ∧
      secsAt st.result (min (m.end_ - 1) ((st.result.dataPoints.length : Int) - 1)) = some e ∧
      intervalLoop (m :: ms) i st = intervalLoop ms (i + 1)
        { last := e + st.result.recIntSecs,
          result := (st.result.addInterval st.last s "").addInterval s
            (e + st.result.recIntSecs) (toString i),
          ok := true } := by
  rw [intervalLoop] at hok ⊢
  cases h1 : secsAt st.result (m.start - 1) with
  | none =>
    rw [intervalStep_start_none i m st h1] at hok
    simp at hok
  | some s =>
    cases h2 : secsAt st.result (min (m.end_ - 1) ((st.result.dataPoints.length : Int) - 1)) with
    | none =>
      rw [intervalStep_end_none i m st s h1 h2] at hok
      simp at hok
    | some e =>
      rw [intervalStep_some i m st s e h1 h2]
      exact ⟨s, e, rfl, rfl, rfl⟩

theorem intervalLoop_emits :
    ∀ (ms : List marker) (i : Nat) (st : IntervalState),
      (intervalLoop ms i st).ok = true →
      ∀ (j : Nat) (m : marker), ms[j]? = some m →
        ∃ prev s e : ℚ,
          secsAt st.result (m.start - 1) = some s ∧
          secsAt st.result (min (m.end_ - 1) ((st.result.dataPoints.length : Int) - 1))
            = some e ∧
          (intervalLoop ms i st).result.intervals[st.result.intervals.length + 2 * j]?
            = some { start := prev, stop := s, name := "" } ∧
          (intervalLoop ms i st).result.intervals[st.result.intervals.length + 2 * j + 1]?
            = some { start := s, stop := e + st.result.recIntSecs, name := toString (i + j) } ∧
          (j = 0 → prev = st.last) ∧
          (0 < j → ∃ iv : RideFileInterval,
            (intervalLoop ms i st).result.intervals[st.result.intervals.length + 2 * j - 1]?
              = some iv ∧ iv.stop = prev ∧ iv.name = toString (i + j - 1)) := by
  intro ms
  induction ms with
  | nil =>
    intro i st _ j m hm
    simp at hm
  | cons m0 ms ih =>
    intro i st hok j m hm
    obtain ⟨s0, e0, hs0, he0, hloop⟩ := intervalLoop_cons_ok m0 ms i st hok
    rw [hloop] at hok ⊢
    obtain ⟨ext, hext⟩ := intervalLoop_ext ms (i + 1)
      { last := e0 + st.result.recIntSecs,
        result := (st.result.addInterval st.last s0 "").addInterval s0
          (e0 + st.result.recIntSecs) (toString i),
        ok := true }
    have hext' : (intervalLoop ms (i + 1)
        { last := e0 + st.result.recIntSecs,
          result := (st.result.addInterval st.last s0 "").addInterval s0
            (e0 + st.result.recIntSecs) (toString i),
          ok := true }).result.intervals
        = st.result.intervals ++
          ([{ start := st.last, stop := s0, name := "" },
            { start := s0, stop := e0 + st.result.recIntSecs, name := toString i }] ++ ext) := by
      rw [hext]
      simp only [RideFile.addInterval, List.append_assoc, List.singleton_append,
        List.cons_append, List.nil_append]
    cases j with
    | zero =>
      simp only [List.getElem?_cons_zero, Option.some.injEq] at hm
      subst hm
      refine ⟨st.last, s0, e0, hs0, he0, ?_, ?_, fun _ => rfl, fun h => absurd h (lt_irrefl 0)⟩
      · rw [hext', Nat.mul_zero, getElem?_append_add]
        rfl
      · rw [hext', Nat.mul_zero, Nat.add_zero, getElem?_append_add]
        simp
    | succ j =>
      rw [List.getElem?_cons_succ] at hm
      obtain ⟨prev, s, e, hs, he, ha, hb, hp0, hp1⟩ := ih (i + 1) _ hok j m hm
      have hlen : ((st.result.addInterval st.last s0 "").addInterval s0
          (e0 + st.result.recIntSecs) (toString i)).intervals.length
          = st.result.intervals.length + 2 := by
        simp [RideFile.addInterval]
      simp only [hlen] at ha hb hp1
      have e1 : st.result.intervals.length + 2 * (j + 1)
          = st.result.intervals.length + 2 + 2 * j := by omega
      have e2 : i + (j + 1) = i + 1 + j := by omega
      refine ⟨prev, s, e, hs, he, ?_, ?_, fun h => absurd h (Nat.succ_ne_zero j), fun _ => ?_⟩
      · rw [e1]
        exact ha
      · rw [e1, e2]
        exact hb
      · rw [e1]
        rcases Nat.eq_zero_or_pos j with hj | hj
        · subst hj
          refine ⟨{ start := s0, stop := e0 + st.result.recIntSecs, name := toString i }, ?_, ?_, rfl⟩
          · rw [hext']
            have e3 : st.result.intervals.length + 2 + 2 * 0 - 1
                = st.result.intervals.length + 1 := by omega
            rw [e3, getElem?_append_add]
            simp
          · exact (hp0 rfl).symm
        · obtain ⟨iv, hiv, hstop, hname⟩ := hp1 hj
          refine ⟨iv, hiv, hstop, ?_⟩
          rw [hname]
          congr 1
          omega

theorem secsAt_some (res : RideFile) (idx : Int) (s : ℚ) (h : secsAt res idx = some s) :
    0 ≤ idx ∧ idx < (res.dataPoints.length : Int) ∧
    (res.dataPoints.map (fun pt => pt.secs))[idx.toNat]? = some s := by
  unfold secsAt at h
  by_cases h0 : 0 ≤ idx
  · rw [if_pos h0, ← List.getElem?_map] at h
    have hlt := (List.getElem?_eq_some.mp h).1
    rw [List.length_map] at hlt
    exact ⟨h0, by omega, h⟩
  · rw [if_neg h0] at h
    simp at h

theorem getElem?_append_of_some {α : Type} (l l' : List α) (i : Nat) (x : α)
    (h : l[i]? = some x) : (l ++ l')[i]? = some x := by
  rw [List.getElem?_append_left (List.getElem?_eq_some.mp h).1]
  exact h

theorem addIntervals_ok (markers : List marker) (result : RideFile)
    (h : (addIntervals markers result).ok = true) :
    (intervalLoop markers.tail 1 { last := 0, result := result, ok := true }).ok = true ∧
    ∃ ext, (addIntervals markers result).result.intervals
      = (intervalLoop markers.tail 1 { last := 0, result := result, ok := true }).result.intervals
        ++ ext := by
  unfold addIntervals at h ⊢
  simp only at h ⊢
  by_cases hok : (intervalLoop markers.tail 1 { last := 0, result := result, ok := true }).ok = true
  · refine ⟨hok, ?_⟩
    rw [if_pos hok]
    split
    · exact ⟨[], by simp⟩
    · split_ifs
      · split
        · exact ⟨[], by simp⟩
        · exact ⟨_, rfl⟩
      · exact ⟨[], by simp⟩
  · rw [if_neg hok] at h
    exact absurd h hok

theorem intervalLoop_emits_upto :
    ∀ (ms : List marker) (i : Nat) (st : IntervalState) (j : Nat) (m : marker),
      ms[j]? = some m →
      (∀ (j' : Nat) (m' : marker), j' ≤ j → ms[j']? = some m' →
        1 ≤ m'.start ∧ m'.start ≤ m'.end_ ∧
          m'.start ≤ (st.result.dataPoints.length : Int)) →
        ∃ prev s e : ℚ,
          secsAt st.result (m.start - 1) = some s ∧
          secsAt st.result (min (m.end_ - 1) ((st.result.dataPoints.length : Int) - 1))
            = some e ∧
          (intervalLoop ms i st).result.intervals[st.result.intervals.length + 2 * j]?
            = some { start := prev, stop := s, name := "" } ∧
          (intervalLoop ms i st).result.intervals[st.result.intervals.length + 2 * j + 1]?
            = some { start := s, stop := e + st.result.recIntSecs, name := toString (i + j) } ∧
          (j = 0 → prev = st.last) ∧
          (0 < j → ∃ iv : RideFileInterval,
            (intervalLoop ms i st).result.intervals[st.result.intervals.length + 2 * j - 1]?
              = some iv ∧ iv.stop = prev ∧ iv.name = toString (i + j - 1)) := by
  intro ms
  induction ms with
  | nil =>
    intro i st j m hm _
    simp at hm
  | cons m0 ms ih =>
    intro i st j m hm hr
    obtain ⟨h01, h02, h03⟩ := hr 0 m0 (Nat.zero_le _) List.getElem?_cons_zero
    obtain ⟨s0, e0, hs0', he0', hstep⟩ := intervalStep_in_range i m0 st h01 h02 h03
    have hs0 : secsAt st.result (m0.start - 1) = some s0 := by
      rw [secsAt_map _ _ (by omega)]
      exact hs0'
    have he0 : secsAt st.result (min (m0.end_ - 1) ((st.result.dataPoints.length : Int) - 1))
        = some e0 := by
      rw [secsAt_map _ _ (by omega)]
      exact he0'
    have hloop : intervalLoop (m0 :: ms) i st = intervalLoop ms (i + 1)
        { last := e0 + st.result.recIntSecs,
          result := (st.result.addInterval st.last s0 "").addInterval s0
            (e0 + st.result.recIntSecs) (toString i),
          ok := true } := by
      rw [intervalLoop, hstep]
      rfl
    rw [hloop]
    obtain ⟨ext, hext⟩ := intervalLoop_ext ms (i + 1)
      { last := e0 + st.result.recIntSecs,
        result := (st.result.addInterval st.last s0 "").addInterval s0
          (e0 + st.result.recIntSecs) (toString i),
        ok := true }
    have hext' : (intervalLoop ms (i + 1)
        { last := e0 + st.result.recIntSecs,
          result := (st.result.addInterval st.last s0 "").addInterval s0
            (e0 + st.result.recIntSecs) (toString i),
          ok := true }).result.intervals
        = st.result.intervals ++
          ([{ start := st.last, stop := s0, name := "" },
            { start := s0, stop := e0 + st.result.recIntSecs, name := toString i }] ++ ext) := by
      rw [hext]
      simp only [RideFile.addInterval, List.append_assoc, List.singleton_append,
        List.cons_append, List.nil_append]
    cases j with
    | zero =>
      simp only [List.getElem?_cons_zero, Option.some.injEq] at hm
      subst hm
      refine ⟨st.last, s0, e0, hs0, he0, ?_, ?_, fun _ => rfl, fun h => absurd h (lt_irrefl 0)⟩
      · rw [hext', Nat.mul_zero, getElem?_append_add]
        rfl
      · rw [hext', Nat.mul_zero, Nat.add_zero, getElem?_append_add]
        simp
    | succ j =>
      rw [List.getElem?_cons_succ] at hm
      have hr' : ∀ (j' : Nat) (m' : marker), j' ≤ j → ms[j']? = some m' →
          1 ≤ m'.start ∧ m'.start ≤ m'.end_ ∧
            m'.start ≤ (st.result.dataPoints.length : Int) := by
        intro j' m' hj' hm'
        exact hr (j' + 1) m' (Nat.succ_le_succ hj') (by rw [List.getElem?_cons_succ]; exact hm')
      obtain ⟨prev, s, e, hs, he, ha, hb, hp0, hp1⟩ := ih (i + 1)
        { last := e0 + st.result.recIntSecs,
          result := (st.result.addInterval st.last s0 "").addInterval s0
            (e0 + st.result.recIntSecs) (toString i),
          ok := true } j m hm hr'
      have hlen : ((st.result.addInterval st.last s0 "").addInterval s0
          (e0 + st.result.recIntSecs) (toString i)).intervals.length
          = st.result.intervals.length + 2 := by
        simp [RideFile.addInterval]
      simp only [hlen] at ha hb hp1
      have e1 : st.result.intervals.length + 2 * (j + 1)
          = st.result.intervals.length + 2 + 2 * j := by omega
      have e2 : i + (j + 1) = i + 1 + j := by omega
      refine ⟨prev, s, e, hs, he, ?_, ?_, fun h => absurd h (Nat.succ_ne_zero j), fun _ => ?_⟩
      · rw [e1]
        exact ha
      · rw [e1, e2]
        exact hb
      · rw [e1]
        rcases Nat.eq_zero_or_pos j with hj | hj
        · subst hj
          refine ⟨{ start := s0, stop := e0 + st.result.recIntSecs, name := toString i }, ?_, ?_, rfl⟩
          · rw [hext']
            have e3 : st.result.intervals.length + 2 + 2 * 0 - 1
                = st.result.intervals.length + 1 := by omega
            rw [e3, getElem?_append_add]
            simp
          · exact (hp0 rfl).symm
        · obtain ⟨iv, hiv, hstop, hname⟩ := hp1 hj
          refine ⟨iv, hiv, hstop, ?_⟩
          rw [hname]
          congr 1
          omega

theorem addIntervals_ext (markers : List marker) (result : RideFile) :
    ∃ ext, (addIntervals markers result).result.intervals
      = (intervalLoop markers.tail 1 { last := 0, result := result, ok := true }).result.intervals
        ++ ext := by
  unfold addIntervals
  simp only
  split_ifs
  · split
    · exact ⟨[], by simp⟩
    · split_ifs
      · split
        · exact ⟨[], by simp⟩
        · exact ⟨_, rfl⟩
      · exact ⟨[], by simp⟩
  · exact ⟨[], by simp⟩

/-- C19 (the code departs from the claim).  On every file that passes the header checks
and has a marker among `1..markercnt` whose start is above the number of samples, the
index `marker.start - 1` with which the reconstructor reads the samples is outside
`[0, n)`: the read fails its range check and `openRideFile` does not return. -/
theorem marker_start_out_of_range (le : Bool) (file : List Byte) (m : marker)
    (h : headerChecks (readPrelude le file))
    (hm : m ∈ (readPrelude le file).markers.tail)
    (hstart : ((readPrelude le file).datacnt : Int) < m.start) :
    ((openRideFile le file).result.dataPoints.length : Int) ≤ m.start - 1 ∧
    secsAt (afterSamples le file).result (m.start - 1) = none ∧
    (openRideFile le file).returned = false := by
  have hlen := afterSamples_length le file
  have hnone : secsAt (afterSamples le file).result (m.start - 1) = none := by
    cases hs : secsAt (afterSamples le file).result (m.start - 1) with
    | none => rfl
    | some s =>
      have := (secsAt_some _ _ _ hs).2.1
      rw [hlen] at this
      omega
  refine ⟨?_, hnone, ?_⟩
  · rw [openRideFile_dataPoints le file h, hlen]
    omega
  · cases hret : (openRideFile le file).returned with
    | false => rfl
    | true =>
      rw [openRideFile_of_checks le file h] at hret
      obtain ⟨hok, _⟩ := addIntervals_ok _ _ hret
      obtain ⟨j, hj⟩ := List.mem_iff_getElem?.mp hm
      obtain ⟨_, s, _, hs, _⟩ :=
        intervalLoop_emits _ 1 { last := 0, result := (afterSamples le file).result, ok := true }
          hok j m hj
      rw [hnone] at hs
      simp at hs

/-- Witness of C19 on `fileMarkerPastEnd`: 5 samples, first marker `(9, 9)`; the read of
`dataPoints()[8]` ends the run before any interval is emitted. -/
theorem marker_start_out_of_range_witness :
    (readPrelude true fileMarkerPastEnd).markers = [⟨1, 5⟩, ⟨9, 9⟩, ⟨1, 2⟩] ∧
    (openRideFile true fileMarkerPastEnd).result.intervals = [] ∧
    (((openRideFile true fileMarkerPastEnd).result.dataPoints.length : Int) ≤ 9 - 1 ∧
      secsAt (afterSamples true fileMarkerPastEnd).result (9 - 1) = none ∧
      (openRideFile true fileMarkerPastEnd).returned = false) :=
  ⟨by decide!, by decide!,
    marker_start_out_of_range true fileMarkerPastEnd ⟨9, 9⟩ (by decide!) (by decide!)
      (by decide!)⟩

/-! ## The interval counter -/

theorem sampleStep_mrknum (le : Bool) (p : Prelude) (i : Nat) (st : LoopState) :
    (sampleStep le p i st).mrknum =
      if st.mrknum < p.markers.length ∧ (i : Int) = (p.markers.getD st.mrknum ⟨0, 0⟩).end_
      then st.mrknum + 1 else st.mrknum := by
  unfold sampleStep
  simp only [Bool.and_eq_true, decide_eq_true_eq]
  split_ifs <;> rfl

theorem sampleStep_interval (le : Bool) (p : Prelude) (i : Nat) (st : LoopState) :
    (sampleStep le p i st).interval =
      st.interval
        + (if st.mrknum < p.markers.length ∧
              (i : Int) = (p.markers.getD st.mrknum ⟨0, 0⟩).end_ then 1 else 0)
        + (if 0 < i ∧ (sampleStep le p i st).mrknum < p.markers.length ∧
              (i : Int) = (p.markers.getD (sampleStep le p i st).mrknum ⟨0, 0⟩).start - 1
            then 1 else 0) := by
  rw [sampleStep_mrknum]
  unfold sampleStep
  simp only [Bool.and_eq_true, decide_eq_true_eq, and_assoc]
  by_cases hend : st.mrknum < p.markers.length ∧
      (i : Int) = (p.markers.getD st.mrknum ⟨0, 0⟩).end_
  · simp only [if_pos hend]
    by_cases hstart : 0 < i ∧ st.mrknum + 1 < p.markers.length ∧
        (i : Int) = (p.markers.getD (st.mrknum + 1) ⟨0, 0⟩).start - 1
    · simp only [if_pos hstart]
      split_ifs <;> rfl
    · simp only [if_neg hstart]
      split_ifs <;> exact (add_zero _).symm
  · simp only [if_neg hend]
    by_cases hstart : 0 < i ∧ st.mrknum < p.markers.length ∧
        (i : Int) = (p.markers.getD st.mrknum ⟨0, 0⟩).start - 1
    · simp only [if_pos hstart]
      split_ifs <;> exact (congrArg (· + 1) (add_zero _)).symm
    · simp only [if_neg hstart]
      split_ifs <;> exact ((add_zero _).trans (add_zero _)).symm

theorem sampleStep_point_interval (le : Bool) (p : Prelude) (i : Nat) (st : LoopState) :
    ∃ pt : RideFilePoint,
      (sampleStep le p i st).result.dataPoints = st.result.dataPoints ++ [pt] ∧
      pt.interval = (sampleStep le p i st).interval := by
  unfold sampleStep
  simp only [RideFile.appendPoint]
  split_ifs <;> exact ⟨_, rfl, rfl⟩

theorem loopStateAt_zero (le : Bool) (file : List Byte) :
    loopStateAt le file 0
      = initState (readPrelude le file)
          { RideFile.new with
            deviceType := "SRM",
            recIntSecs := (readPrelude le file).hdr.recIntSecs } :=
  rfl

theorem loopStateAt_sampleIntervals (le : Bool) (file : List Byte) (n : Nat) :
    (loopStateAt le file n).result.dataPoints.map (fun pt => pt.interval)
      = (List.range n).map (fun i => (loopStateAt le file (i + 1)).interval) := by
  induction n with
  | zero => rfl
  | succ n ih =>
    obtain ⟨pt, hpts, hpt⟩ :=
      sampleStep_point_interval le (readPrelude le file) n (loopStateAt le file n)
    rw [List.range_succ, List.map_append, ← ih, List.map_singleton, loopStateAt_succ, hpts,
      List.map_append, List.map_singleton, hpt]

theorem sampleIntervals_getElem (le : Bool) (file : List Byte) (a : Nat) (x : Int)
    (h : (sampleIntervals le file)[a]? = some x) :
    x = (loopStateAt le file (a + 1)).interval := by
  by_cases hc : headerChecks (readPrelude le file)
  · unfold sampleIntervals at h
    rw [openRideFile_dataPoints le file hc] at h
    unfold afterSamples at h
    rw [loopStateAt_sampleIntervals, List.getElem?_map] at h
    obtain ⟨i, hi, hix⟩ := Option.map_eq_some'.mp h
    rw [List.getElem?_range (by
      have := (List.getElem?_eq_some.mp hi).1
      simpa using this)] at hi
    rw [← hix, ← Option.some.inj hi]
  · unfold sampleIntervals at h
    rw [openRideFile_of_not_checks le file hc] at h
    simp at h

theorem markerAt_range (le : Bool) (file : List Byte) (k : Nat)
    (hk : k ≤ (readPrelude le file).hdr.markercnt) :
    (readPrelude le file).markers[k]? = some (markerAt le file k) ∧
    1 ≤ (markerAt le file k).start ∧ (markerAt le file k).start ≤ (markerAt le file k).end_ := by
  have hlen := prelude_markers_length le file
  have hlt : k < (readPrelude le file).markers.length := by omega
  have hget : (readPrelude le file).markers[k]? = some (markerAt le file k) := by
    unfold markerAt
    rw [List.getD_eq_getElem?_getD, List.getElem?_eq_getElem hlt]
    rfl
  exact ⟨hget, prelude_markers_range le file _ (List.getElem?_mem hget)⟩

theorem markerAt_succ (le : Bool) (file : List Byte)
    (hord : List.Chain' (fun a b : marker => a.end_ < b.start) (readPrelude le file).markers.tail)
    (k : Nat) (hk1 : 1 ≤ k) (hk : k + 1 ≤ (readPrelude le file).hdr.markercnt) :
    (markerAt le file k).end_ < (markerAt le file (k + 1)).start := by
  have h1 := (markerAt_range le file k (by omega)).1
  have h2 := (markerAt_range le file (k + 1) hk).1
  obtain ⟨k', rfl⟩ : ∃ k', k = k' + 1 := ⟨k - 1, by omega⟩
  cases hmk : (readPrelude le file).markers with
  | nil => rw [hmk] at h1; simp at h1
  | cons m0 ms =>
    rw [hmk] at h1 h2 hord
    rw [List.getElem?_cons_succ] at h1 h2
    exact chain_getElem ms k' _ _ hord h1 h2

theorem markerAt_ordered (le : Bool) (file : List Byte)
    (hord : List.Chain' (fun a b : marker => a.end_ < b.start) (readPrelude le file).markers.tail)
    (j : Nat) (hj : 1 ≤ j) :
    ∀ d, j + 1 + d ≤ (readPrelude le file).hdr.markercnt →
      (markerAt le file j).end_ < (markerAt le file (j + 1 + d)).start := by
  intro d
  induction d with
  | zero => exact markerAt_succ le file hord j hj
  | succ d ih =>
    intro hk
    have h1 := ih (by omega)
    have h2 := (markerAt_range le file (j + 1 + d) (by omega)).2.2
    have h3 := markerAt_succ le file hord (j + 1 + d) (by omega) hk
    have e : j + 1 + (d + 1) = j + 1 + d + 1 := by omega
    rw [e]
    omega

theorem mrknum_inv (le : Bool) (file : List Byte)
    (hm : 1 ≤ (readPrelude le file).hdr.markercnt)
    (hord : List.Chain' (fun a b : marker => a.end_ < b.start) (readPrelude le file).markers.tail) :
    ∀ i : Nat,
      1 ≤ (loopStateAt le file i).mrknum ∧
      (loopStateAt le file i).mrknum ≤ (readPrelude le file).hdr.markercnt + 1 ∧
      (∀ k, 1 ≤ k → k < (loopStateAt le file i).mrknum → (markerAt le file k).end_ < (i : Int)) ∧
      ((loopStateAt le file i).mrknum ≤ (readPrelude le file).hdr.markercnt →
        (i : Int) ≤ (markerAt le file (loopStateAt le file i).mrknum).end_) := by
  have hlen := prelude_markers_length le file
  intro i
  induction i with
  | zero =>
    have h0 : (loopStateAt le file 0).mrknum = 1 := by
      rw [loopStateAt_zero]
      simp only [initState]
      rw [if_pos (by omega)]
    rw [h0]
    refine ⟨le_refl _, by omega, fun k h1 h2 => by omega, fun _ => ?_⟩
    have := (markerAt_range le file 1 hm).2
    simp only [Nat.cast_zero]
    omega
  | succ i ih =>
    obtain ⟨h1, h2, h3, h4⟩ := ih
    have hstep := sampleStep_mrknum le (readPrelude le file) i (loopStateAt le file i)
    rw [← loopStateAt_succ, hlen] at hstep
    by_cases hend : (loopStateAt le file i).mrknum < (readPrelude le file).hdr.markercnt + 1 ∧
        (i : Int) = ((readPrelude le file).markers.getD (loopStateAt le file i).mrknum ⟨0, 0⟩).end_
    · rw [if_pos hend] at hstep
      rw [hstep]
      refine ⟨by omega, by omega, ?_, ?_⟩
      · intro k hk1 hk2
        rcases Nat.lt_succ_iff_lt_or_eq.mp hk2 with hlt | heq
        · have := h3 k hk1 hlt
          push_cast
          omega
        · rw [heq]
          have := hend.2
          unfold markerAt
          push_cast
          omega
      · intro hle
        have hs := markerAt_succ le file hord (loopStateAt le file i).mrknum h1 hle
        have hr := (markerAt_range le file ((loopStateAt le file i).mrknum + 1) hle).2.2
        have := hend.2
        unfold markerAt at hs hr ⊢
        push_cast
        omega
    · rw [if_neg hend] at hstep
      rw [hstep]
      refine ⟨h1, h2, ?_, ?_⟩
      · intro k hk1 hk2
        have := h3 k hk1 hk2
        push_cast
        omega
      · intro hle
        have h4' := h4 hle
        have hne : (i : Int) ≠ (markerAt le file (loopStateAt le file i).mrknum).end_ := by
          intro heq
          exact hend ⟨by omega, heq⟩
        push_cast
        omega

theorem mrknum_in_marker (le : Bool) (file : List Byte)
    (hm : 1 ≤ (readPrelude le file).hdr.markercnt)
    (hord : List.Chain' (fun a b : marker => a.end_ < b.start) (readPrelude le file).markers.tail)
    (k : Nat) (hk1 : 1 ≤ k) (hk : k ≤ (readPrelude le file).hdr.markercnt) (i : Nat)
    (hlo : (markerAt le file k).start ≤ (i : Int)) (hhi : (i : Int) ≤ (markerAt le file k).end_) :
    (loopStateAt le file i).mrknum = k := by
  obtain ⟨h1, h2, h3, h4⟩ := mrknum_inv le file hm hord i
  rcases Nat.lt_trichotomy (loopStateAt le file i).mrknum k with hlt | heq | hgt
  · exfalso
    have h4' := h4 (by omega)
    obtain ⟨d, hd⟩ : ∃ d, k = (loopStateAt le file i).mrknum + 1 + d :=
      ⟨k - (loopStateAt le file i).mrknum - 1, by omega⟩
    have := markerAt_ordered le file hord (loopStateAt le file i).mrknum h1 d (by omega)
    rw [← hd] at this
    omega
  · exact heq
  · exfalso
    have := h3 k hk1 hgt
    omega

theorem interval_step_le (le : Bool) (file : List Byte) (i : Nat) :
    (loopStateAt le file i).interval ≤ (loopStateAt le file (i + 1)).interval := by
  rw [loopStateAt_succ, sampleStep_interval]
  split_ifs <;> omega

theorem interval_mono (le : Bool) (file : List Byte) (i : Nat) :
    ∀ d, (loopStateAt le file i).interval ≤ (loopStateAt le file (i + d)).interval := by
  intro d
  induction d with
  | zero => exact le_refl _
  | succ d ih => exact le_trans ih (interval_step_le le file (i + d))

theorem interval_mono_le (le : Bool) (file : List Byte) (i j : Nat) (hij : i ≤ j) :
    (loopStateAt le file i).interval ≤ (loopStateAt le file j).interval := by
  obtain ⟨d, rfl⟩ : ∃ d, j = i + d := ⟨j - i, by omega⟩
  exact interval_mono le file i d

theorem interval_const_in_marker (le : Bool) (file : List Byte)
    (hm : 1 ≤ (readPrelude le file).hdr.markercnt)
    (hord : List.Chain' (fun a b : marker => a.end_ < b.start) (readPrelude le file).markers.tail)
    (k : Nat) (hk1 : 1 ≤ k) (hk : k ≤ (readPrelude le file).hdr.markercnt) (i : Nat)
    (hlo : (markerAt le file k).start ≤ (i : Int))
    (hhi : (i : Int) ≤ (markerAt le file k).end_ - 1) :
    (loopStateAt le file (i + 1)).interval = (loopStateAt le file i).interval := by
  have hc := mrknum_in_marker le file hm hord k hk1 hk i hlo (by omega)
  have hmr := sampleStep_mrknum le (readPrelude le file) i (loopStateAt le file i)
  have hend : ¬ ((loopStateAt le file i).mrknum < (readPrelude le file).markers.length ∧
      (i : Int) = ((readPrelude le file).markers.getD (loopStateAt le file i).mrknum ⟨0, 0⟩).end_) := by
    rw [hc]
    intro h
    have := h.2
    unfold markerAt at hhi
    omega
  rw [if_neg hend, hc] at hmr
  rw [loopStateAt_succ, sampleStep_interval, if_neg hend, hmr]
  have hstart : ¬ (0 < i ∧ k < (readPrelude le file).markers.length ∧
      (i : Int) = ((readPrelude le file).markers.getD k ⟨0, 0⟩).start - 1) := by
    intro h
    have := h.2.2
    unfold markerAt at hlo
    omega
  rw [if_neg hstart]
  omega

theorem interval_at_end (le : Bool) (file : List Byte)
    (hm : 1 ≤ (readPrelude le file).hdr.markercnt)
    (hord : List.Chain' (fun a b : marker => a.end_ < b.start) (readPrelude le file).markers.tail)
    (k : Nat) (hk1 : 1 ≤ k) (hk : k ≤ (readPrelude le file).hdr.markercnt) (i : Nat)
    (hi : (i : Int) = (markerAt le file k).end_) :
    (loopStateAt le file i).interval + 1 ≤ (loopStateAt le file (i + 1)).interval := by
  have hr := (markerAt_range le file k hk).2
  have hc := mrknum_in_marker le file hm hord k hk1 hk i (by omega) (by omega)
  have hlen := prelude_markers_length le file
  have hend : (loopStateAt le file i).mrknum < (readPrelude le file).markers.length ∧
      (i : Int) = ((readPrelude le file).markers.getD (loopStateAt le file i).mrknum ⟨0, 0⟩).end_ := by
    rw [hc]
    exact ⟨by omega, hi⟩
  rw [loopStateAt_succ, sampleStep_interval, if_pos hend]
  split_ifs <;> omega

theorem interval_same_in_marker (le : Bool) (file : List Byte)
    (hm : 1 ≤ (readPrelude le file).hdr.markercnt)
    (hord : List.Chain' (fun a b : marker => a.end_ < b.start) (readPrelude le file).markers.tail)
    (k : Nat) (hk1 : 1 ≤ k) (hk : k ≤ (readPrelude le file).hdr.markercnt) (t : Nat)
    (ht : (t : Int) = (markerAt le file k).start - 1) :
    ∀ d : Nat, ((t + d : Nat) : Int) ≤ (markerAt le file k).end_ - 1 →
      (loopStateAt le file (t + d + 1)).interval = (loopStateAt le file (t + 1)).interval := by
  intro d
  induction d with
  | zero => intro _; rfl
  | succ d ih =>
    intro hd
    have h1 := ih (by push_cast at hd ⊢; omega)
    have h2 := interval_const_in_marker le file hm hord k hk1 hk (t + d + 1)
      (by push_cast; omega) (by push_cast at hd ⊢; omega)
    rw [← h1, ← h2]
    rfl

theorem interval_lt_of_marker_lt (le : Bool) (file : List Byte)
    (hm : 1 ≤ (readPrelude le file).hdr.markercnt)
    (hord : List.Chain' (fun a b : marker => a.end_ < b.start) (readPrelude le file).markers.tail)
    (j k : Nat) (hj1 : 1 ≤ j) (hjk : j < k) (hk : k ≤ (readPrelude le file).hdr.markercnt)
    (a b : Nat)
    (ha : (a : Int) ≤ (markerAt le file j).end_ - 1)
    (hb : (markerAt le file k).start - 1 ≤ (b : Int)) :
    (loopStateAt le file (a + 1)).interval < (loopStateAt le file (b + 1)).interval := by
  obtain ⟨d, hd⟩ : ∃ d, k = j + 1 + d := ⟨k - j - 1, by omega⟩
  have hordjk := markerAt_ordered le file hord j hj1 d (by omega)
  rw [← hd] at hordjk
  have hrj := (markerAt_range le file j (by omega)).2
  obtain ⟨ej, hej⟩ : ∃ ej : Nat, (ej : Int) = (markerAt le file j).end_ :=
    ⟨(markerAt le file j).end_.toNat, Int.toNat_of_nonneg (by omega)⟩
  have h1 := interval_mono_le le file (a + 1) ej (by omega)
  have h2 := interval_at_end le file hm hord j hj1 (by omega) ej hej
  have h3 := interval_mono_le le file (ej + 1) (b + 1) (by omega)
  omega

/-- C17.  On every file with `markercnt ≥ 1` whose markers `1..markercnt`, after the fixup,
are ordered and disjoint (each ends before the next starts): two emitted samples whose
0-based indexes lie in the range `[start - 1, end - 1]` of the same marker have the same
interval index, and two samples that lie in the ranges of two different markers have
different interval indexes. -/
theorem openRideFile_interval_index (le : Bool) (file : List Byte)
    (hm : 1 ≤ (readPrelude le file).hdr.markercnt)
    (hord : List.Chain' (fun a b : marker => a.end_ < b.start) (readPrelude le file).markers.tail)
    (j k : Nat) (mj mk : marker) (a b : Nat) (x y : Int)
    (hj : 1 ≤ j) (hk : 1 ≤ k)
    (hmj : (readPrelude le file).markers[j]? = some mj)
    (hmk : (readPrelude le file).markers[k]? = some mk)
    (hx : (sampleIntervals le file)[a]? = some x)
    (hy : (sampleIntervals le file)[b]? = some y)
    (haj : mj.start - 1 ≤ (a : Int) ∧ (a : Int) ≤ mj.end_ - 1)
    (hbk : mk.start - 1 ≤ (b : Int) ∧ (b : Int) ≤ mk.end_ - 1) :
    (j = k → x = y) ∧ (j ≠ k → x ≠ y) := by
  have hlen := prelude_markers_length le file
  have hjm : j ≤ (readPrelude le file).hdr.markercnt := by
    have := (List.getElem?_eq_some.mp hmj).1
    omega
  have hkm : k ≤ (readPrelude le file).hdr.markercnt := by
    have := (List.getElem?_eq_some.mp hmk).1
    omega
  have hmj' : mj = markerAt le file j := by
    have := (markerAt_range le file j hjm).1
    rw [hmj] at this
    exact Option.some.inj this
  have hmk' : mk = markerAt le file k := by
    have := (markerAt_range le file k hkm).1
    rw [hmk] at this
    exact Option.some.inj this
  rw [hmj'] at haj
  rw [hmk'] at hbk
  rw [sampleIntervals_getElem le file a x hx, sampleIntervals_getElem le file b y hy]
  have hrk := (markerAt_range le file k hkm).2
  constructor
  · intro hjk
    subst hjk
    obtain ⟨t, ht⟩ : ∃ t : Nat, (t : Int) = (markerAt le file j).start - 1 :=
      ⟨((markerAt le file j).start - 1).toNat, Int.toNat_of_nonneg (by omega)⟩
    obtain ⟨da, rfl⟩ : ∃ da, a = t + da := ⟨a - t, by omega⟩
    obtain ⟨db, rfl⟩ : ∃ db, b = t + db := ⟨b - t, by omega⟩
    rw [interval_same_in_marker le file hm hord j hj hjm t ht da haj.2,
      interval_same_in_marker le file hm hord j hj hjm t ht db hbk.2]
  · intro hjk
    rcases Nat.lt_or_gt_of_ne hjk with hlt | hgt
    · exact (interval_lt_of_marker_lt le file hm hord j k hj hlt hkm a b haj.2 hbk.1).ne
    · exact (interval_lt_of_marker_lt le file hm hord k j hk hgt hjm b a hbk.2 haj.1).ne'

/-- Witness of C17 on `fileTwoMarkers`, with the markers `(2, 3)` and `(5, 6)`: the samples
1 and 2 of the first marker have the interval index 1, the samples 4 and 5 of the second
have the interval index 3. -/
theorem openRideFile_interval_index_witness :
    sampleIntervals true fileTwoMarkers = [0, 1, 1, 2, 3, 3] ∧
    ((1 = 1 → (1 : Int) = 1) ∧ (1 ≠ 1 → (1 : Int) ≠ 1)) ∧
    ((1 = 2 → (1 : Int) = 3) ∧ (1 ≠ 2 → (1 : Int) ≠ 3)) :=
  ⟨by decide!,
    openRideFile_interval_index true fileTwoMarkers (by decide!)
      (by
        rw [show (readPrelude true fileTwoMarkers).markers = [⟨1, 6⟩, ⟨2, 3⟩, ⟨5, 6⟩] by decide!]
        simp)
      1 1 ⟨2, 3⟩ ⟨2, 3⟩ 1 2 1 1 (by decide) (by decide) (by decide!) (by decide!)
      (by decide!) (by decide!) (by decide) (by decide),
    openRideFile_interval_index true fileTwoMarkers (by decide!)
      (by
        rw [show (readPrelude true fileTwoMarkers).markers = [⟨1, 6⟩, ⟨2, 3⟩, ⟨5, 6⟩] by decide!]
        simp)
      1 2 ⟨2, 3⟩ ⟨5, 6⟩ 2 4 1 3 (by decide) (by decide) (by decide!) (by decide!)
      (by decide!) (by decide!) (by decide) (by decide)⟩

/-! ## Rounding to binary64 -/

theorem pow2_eq (e : Int) : pow2 e = (2 : ℚ) ^ e := by
  unfold pow2
  split_ifs with h
  · obtain ⟨n, rfl⟩ := Int.eq_ofNat_of_zero_le h
    simp
  · push_neg at h
    obtain ⟨n, hn⟩ := Int.eq_ofNat_of_zero_le (by omega : 0 ≤ -e)
    have he : e = -(n : Int) := by omega
    subst he
    simp

theorem log2Fuel_spec : ∀ (fuel n : Nat), 1 ≤ n → n ≤ fuel →
    2 ^ log2Fuel fuel n ≤ n ∧ n < 2 ^ (log2Fuel fuel n + 1) := by
  intro fuel
  induction fuel with
  | zero => intro n h1 h2; omega
  | succ fuel ih =>
    intro n h1 h2
    rw [log2Fuel]
    split_ifs with h
    · simp
      omega
    · have := ih (n / 2) (by omega) (by omega)
      rw [pow_succ, pow_succ 2 (log2Fuel fuel (n / 2) + 1)]
      omega

theorem natLog2_spec (n : Nat) (h : 1 ≤ n) :
    2 ^ natLog2 n ≤ n ∧ n < 2 ^ (natLog2 n + 1) :=
  log2Fuel_spec n n h (le_refl n)

theorem ilog2_spec (q : ℚ) (hq : 0 < q) :
    (2 : ℚ) ^ ilog2 q ≤ q ∧ q < (2 : ℚ) ^ (ilog2 q + 1) := by
  have hnum : 0 < q.num := Rat.num_pos.mpr hq
  have hden : 0 < q.den := q.den_pos
  obtain ⟨a1, a2⟩ := natLog2_spec q.num.natAbs (by omega)
  obtain ⟨b1, b2⟩ := natLog2_spec q.den (by omega)
  have hN : ((q.num.natAbs : ℕ) : ℚ) = (q.num : ℚ) := by
    have : ((q.num.natAbs : ℕ) : ℤ) = q.num := by omega
    rw [← Int.cast_natCast, this]
  have hqe : q = (q.num.natAbs : ℚ) / (q.den : ℚ) := by
    rw [hN]
    exact (Rat.num_div_den q).symm
  have hD : (0 : ℚ) < (q.den : ℚ) := by exact_mod_cast hden
  have a1' : (2 : ℚ) ^ (natLog2 q.num.natAbs : ℤ) ≤ (q.num.natAbs : ℚ) := by
    rw [zpow_natCast]
    exact_mod_cast a1
  have a2' : (q.num.natAbs : ℚ) < (2 : ℚ) ^ ((natLog2 q.num.natAbs : ℤ) + 1) := by
    have : ((natLog2 q.num.natAbs : ℤ) + 1) = ((natLog2 q.num.natAbs + 1 : ℕ) : ℤ) := by simp
    rw [this, zpow_natCast]
    exact_mod_cast a2
  have b1' : (2 : ℚ) ^ (natLog2 q.den : ℤ) ≤ (q.den : ℚ) := by
    rw [zpow_natCast]
    exact_mod_cast b1
  have b2' : (q.den : ℚ) < (2 : ℚ) ^ ((natLog2 q.den : ℤ) + 1) := by
    have : ((natLog2 q.den : ℤ) + 1) = ((natLog2 q.den + 1 : ℕ) : ℤ) := by simp
    rw [this, zpow_natCast]
    exact_mod_cast b2
  have h2 : (0 : ℚ) < 2 := by norm_num
  have pa : (0 : ℚ) < (2 : ℚ) ^ (natLog2 q.num.natAbs : ℤ) := zpow_pos h2 _
  have pb : (0 : ℚ) < (2 : ℚ) ^ (natLog2 q.den : ℤ) := zpow_pos h2 _
  unfold ilog2
  simp only [pow2_eq, abs_of_pos hq]
  split_ifs with hc
  · refine ⟨hc, ?_⟩
    rw [show ((natLog2 q.num.natAbs : ℤ) - (natLog2 q.den : ℤ) + 1)
      = ((natLog2 q.num.natAbs : ℤ) + 1) - (natLog2 q.den : ℤ) by ring,
      zpow_sub₀ (by norm_num : (2 : ℚ) ≠ 0)]
    calc q = (q.num.natAbs : ℚ) / (q.den : ℚ) := hqe
      _ < (2 : ℚ) ^ ((natLog2 q.num.natAbs : ℤ) + 1) / (q.den : ℚ) :=
          div_lt_div_of_pos_right a2' hD
      _ ≤ (2 : ℚ) ^ ((natLog2 q.num.natAbs : ℤ) + 1) / (2 : ℚ) ^ (natLog2 q.den : ℤ) :=
          div_le_div_of_nonneg_left (zpow_pos h2 _).le pb b1'
  · push_neg at hc
    refine ⟨?_, ?_⟩
    · rw [show ((natLog2 q.num.natAbs : ℤ) - (natLog2 q.den : ℤ) - 1)
        = (natLog2 q.num.natAbs : ℤ) - ((natLog2 q.den : ℤ) + 1) by ring,
        zpow_sub₀ (by norm_num : (2 : ℚ) ≠ 0)]
      calc (2 : ℚ) ^ (natLog2 q.num.natAbs : ℤ) / (2 : ℚ) ^ ((natLog2 q.den : ℤ) + 1)
          ≤ (2 : ℚ) ^ (natLog2 q.num.natAbs : ℤ) / (q.den : ℚ) :=
            div_le_div_of_nonneg_left pa.le hD b2'.le
        _ ≤ (q.num.natAbs : ℚ) / (q.den : ℚ) :=
            div_le_div_of_nonneg_right a1' hD.le
        _ = q := hqe.symm
    · rw [show ((natLog2 q.num.natAbs : ℤ) - (natLog2 q.den : ℤ) - 1 + 1)
        = (natLog2 q.num.natAbs : ℤ) - (natLog2 q.den : ℤ) by ring]
      exact hc

theorem ilog2_unique (q : ℚ) (e : Int) (h1 : (2 : ℚ) ^ e ≤ q) (h2 : q < (2 : ℚ) ^ (e + 1)) :
    ilog2 q = e := by
  have hq : 0 < q := lt_of_lt_of_le (zpow_pos (by norm_num) _) h1
  obtain ⟨s1, s2⟩ := ilog2_spec q hq
  have one_lt : (1 : ℚ) < 2 := by norm_num
  by_contra hne
  rcases lt_or_gt_of_ne hne with hlt | hgt
  · have : (2 : ℚ) ^ (ilog2 q + 1) ≤ (2 : ℚ) ^ e :=
      zpow_le_zpow_right₀ one_lt.le (by omega)
    linarith
  · have : (2 : ℚ) ^ (e + 1) ≤ (2 : ℚ) ^ ilog2 q :=
      zpow_le_zpow_right₀ one_lt.le (by omega)
    linarith

theorem rne_bounds (q : ℚ) : Rat.floor q ≤ rne q ∧ rne q ≤ Rat.floor q + 1 := by
  unfold rne
  simp only
  split_ifs <;> omega

theorem rat_floor_eq (q : ℚ) : Rat.floor q = ⌊q⌋ := rfl

theorem rne_intCast (n : Int) : rne (n : ℚ) = n := by
  unfold rne
  simp only [rat_floor_eq, Int.floor_intCast, sub_self]
  norm_num

theorem rne_mono {p q : ℚ} (h : p ≤ q) : rne p ≤ rne q := by
  have hf : ⌊p⌋ ≤ ⌊q⌋ := Int.floor_mono h
  rcases lt_or_eq_of_le hf with hlt | heq
  · have h1 := (rne_bounds p).2
    have h2 := (rne_bounds q).1
    rw [rat_floor_eq] at h1 h2
    omega
  · unfold rne
    simp only [rat_floor_eq]
    rw [← heq]
    have hpq : p - (⌊p⌋ : ℚ) ≤ q - (⌊p⌋ : ℚ) := by linarith
    split_ifs <;> first | omega | (exfalso; linarith)

theorem two_zpow_pos (e : Int) : (0 : ℚ) < (2 : ℚ) ^ e := zpow_pos (by norm_num) e

theorem binary64_of_ne (q : ℚ) (hq : q ≠ 0) :
    binary64 q = (rne (q / (2 : ℚ) ^ (ilog2 q - 52)) : ℚ) * (2 : ℚ) ^ (ilog2 q - 52) := by
  unfold binary64
  rw [if_neg hq]
  simp only [pow2_eq]

theorem binary64_zero : binary64 0 = 0 := by
  unfold binary64
  rw [if_pos rfl]

/-- The scaled significand of a positive value lies in `[2 ^ 52, 2 ^ 53)`. -/
theorem scaled_bounds (q : ℚ) (e : Int) (h1 : (2 : ℚ) ^ e ≤ q) (h2 : q < (2 : ℚ) ^ (e + 1)) :
    ((2 ^ 52 : Int) : ℚ) ≤ q / (2 : ℚ) ^ (e - 52) ∧
    q / (2 : ℚ) ^ (e - 52) < ((2 ^ 53 : Int) : ℚ) := by
  have hu := two_zpow_pos (e - 52)
  have e1 : (2 : ℚ) ^ e = (2 : ℚ) ^ (52 : ℤ) * (2 : ℚ) ^ (e - 52) := by
    rw [← zpow_add₀ (by norm_num : (2 : ℚ) ≠ 0)]
    congr 1
    ring
  have e2 : (2 : ℚ) ^ (e + 1) = (2 : ℚ) ^ (53 : ℤ) * (2 : ℚ) ^ (e - 52) := by
    rw [← zpow_add₀ (by norm_num : (2 : ℚ) ≠ 0)]
    congr 1
    ring
  have c1 : ((2 ^ 52 : Int) : ℚ) = (2 : ℚ) ^ (52 : ℤ) := by norm_num
  have c2 : ((2 ^ 53 : Int) : ℚ) = (2 : ℚ) ^ (53 : ℤ) := by norm_num
  rw [c1, c2]
  constructor
  · rw [le_div_iff₀ hu, ← e1]
    exact h1
  · rw [div_lt_iff₀ hu, ← e2]
    exact h2

theorem rne_scaled_bounds (q : ℚ) (e : Int) (h1 : (2 : ℚ) ^ e ≤ q)
    (h2 : q < (2 : ℚ) ^ (e + 1)) :
    (2 ^ 52 : Int) ≤ rne (q / (2 : ℚ) ^ (e - 52)) ∧
    rne (q / (2 : ℚ) ^ (e - 52)) ≤ (2 ^ 53 : Int) := by
  obtain ⟨b1, b2⟩ := scaled_bounds q e h1 h2
  constructor
  · have := rne_mono b1
    rwa [rne_intCast] at this
  · have := rne_mono b2.le
    rwa [rne_intCast] at this

theorem binary64_bounds (q : ℚ) (hq : 0 < q) :
    (2 : ℚ) ^ ilog2 q ≤ binary64 q ∧ binary64 q ≤ (2 : ℚ) ^ (ilog2 q + 1) := by
  obtain ⟨s1, s2⟩ := ilog2_spec q hq
  obtain ⟨m1, m2⟩ := rne_scaled_bounds q (ilog2 q) s1 s2
  have hu := two_zpow_pos (ilog2 q - 52)
  have e1 : (2 : ℚ) ^ ilog2 q = (2 : ℚ) ^ (52 : ℤ) * (2 : ℚ) ^ (ilog2 q - 52) := by
    rw [← zpow_add₀ (by norm_num : (2 : ℚ) ≠ 0)]
    congr 1
    ring
  have e2 : (2 : ℚ) ^ (ilog2 q + 1) = (2 : ℚ) ^ (53 : ℤ) * (2 : ℚ) ^ (ilog2 q - 52) := by
    rw [← zpow_add₀ (by norm_num : (2 : ℚ) ≠ 0)]
    congr 1
    ring
  rw [binary64_of_ne q hq.ne', e1, e2]
  have m1' : (2 : ℚ) ^ (52 : ℤ) ≤ (rne (q / (2 : ℚ) ^ (ilog2 q - 52)) : ℚ) := by
    have : ((2 ^ 52 : Int) : ℚ) ≤ (rne (q / (2 : ℚ) ^ (ilog2 q - 52)) : ℚ) := by
      exact_mod_cast m1
    calc (2 : ℚ) ^ (52 : ℤ) = ((2 ^ 52 : Int) : ℚ) := by norm_num
      _ ≤ _ := this
  have m2' : (rne (q / (2 : ℚ) ^ (ilog2 q - 52)) : ℚ) ≤ (2 : ℚ) ^ (53 : ℤ) := by
    have : (rne (q / (2 : ℚ) ^ (ilog2 q - 52)) : ℚ) ≤ ((2 ^ 53 : Int) : ℚ) := by
      exact_mod_cast m2
    calc _ ≤ ((2 ^ 53 : Int) : ℚ) := this
      _ = (2 : ℚ) ^ (53 : ℤ) := by norm_num
  exact ⟨mul_le_mul_of_nonneg_right m1' hu.le, mul_le_mul_of_nonneg_right m2' hu.le⟩

theorem binary64_pos (q : ℚ) (hq : 0 < q) : 0 < binary64 q :=
  lt_of_lt_of_le (two_zpow_pos _) (binary64_bounds q hq).1

theorem binary64_nonneg (q : ℚ) (hq : 0 ≤ q) : 0 ≤ binary64 q := by
  rcases lt_or_eq_of_le hq with h | h
  · exact (binary64_pos q h).le
  · rw [← h, binary64_zero]

theorem ilog2_mono (p q : ℚ) (hp : 0 < p) (h : p ≤ q) : ilog2 p ≤ ilog2 q := by
  obtain ⟨p1, _⟩ := ilog2_spec p hp
  obtain ⟨_, q2⟩ := ilog2_spec q (lt_of_lt_of_le hp h)
  by_contra hlt
  push_neg at hlt
  have : (2 : ℚ) ^ (ilog2 q + 1) ≤ (2 : ℚ) ^ ilog2 p :=
    zpow_le_zpow_right₀ (by norm_num) (by omega)
  linarith

/-- Rounding to binary64 is monotone on the non-negative values. -/
theorem binary64_mono (p q : ℚ) (hp : 0 ≤ p) (h : p ≤ q) : binary64 p ≤ binary64 q := by
  rcases lt_or_eq_of_le hp with hp' | hp'
  · have hq' : 0 < q := lt_of_lt_of_le hp' h
    rcases lt_or_eq_of_le (ilog2_mono p q hp' h) with hlt | heq
    · have b1 := (binary64_bounds p hp').2
      have b2 := (binary64_bounds q hq').1
      have : (2 : ℚ) ^ (ilog2 p + 1) ≤ (2 : ℚ) ^ ilog2 q :=
        zpow_le_zpow_right₀ (by norm_num) (by omega)
      linarith
    · rw [binary64_of_ne p hp'.ne', binary64_of_ne q hq'.ne', heq]
      have hu := two_zpow_pos (ilog2 q - 52)
      apply mul_le_mul_of_nonneg_right _ hu.le
      have : rne (p / (2 : ℚ) ^ (ilog2 q - 52)) ≤ rne (q / (2 : ℚ) ^ (ilog2 q - 52)) :=
        rne_mono (div_le_div_of_nonneg_right h hu.le)
      exact_mod_cast this
  · rw [← hp', binary64_zero]
    exact binary64_nonneg q (hp'.symm ▸ h)

/-- A value with a 53-bit significand is its own rounding. -/
theorem binary64_scaled (m k : Int) (h1 : (2 ^ 52 : Int) ≤ m) (h2 : m < (2 ^ 53 : Int)) :
    binary64 ((m : ℚ) * (2 : ℚ) ^ k) = (m : ℚ) * (2 : ℚ) ^ k := by
  have hk := two_zpow_pos k
  have hm1 : (2 : ℚ) ^ (52 : ℤ) ≤ (m : ℚ) := by
    calc (2 : ℚ) ^ (52 : ℤ) = ((2 ^ 52 : Int) : ℚ) := by norm_num
      _ ≤ _ := by exact_mod_cast h1
  have hm2 : (m : ℚ) < (2 : ℚ) ^ (53 : ℤ) := by
    calc (m : ℚ) < ((2 ^ 53 : Int) : ℚ) := by exact_mod_cast h2
      _ = (2 : ℚ) ^ (53 : ℤ) := by norm_num
  have hmpos : (0 : ℚ) < (m : ℚ) := lt_of_lt_of_le (two_zpow_pos 52) hm1
  have hexp : ilog2 ((m : ℚ) * (2 : ℚ) ^ k) = k + 52 := by
    apply ilog2_unique
    · rw [show k + 52 = 52 + k by ring, zpow_add₀ (by norm_num : (2 : ℚ) ≠ 0)]
      exact mul_le_mul_of_nonneg_right hm1 hk.le
    · rw [show k + 52 + 1 = 53 + k by ring, zpow_add₀ (by norm_num : (2 : ℚ) ≠ 0)]
      exact mul_lt_mul_of_pos_right hm2 hk
  rw [binary64_of_ne _ (mul_pos hmpos hk).ne', hexp]
  rw [show k + 52 - 52 = k by ring, mul_div_assoc, div_self hk.ne', mul_one, rne_intCast]

/-- Rounding to binary64 is idempotent. -/
theorem binary64_idem (q : ℚ) (hq : 0 ≤ q) : binary64 (binary64 q) = binary64 q := by
  rcases lt_or_eq_of_le hq with hq' | hq'
  · obtain ⟨s1, s2⟩ := ilog2_spec q hq'
    obtain ⟨m1, m2⟩ := rne_scaled_bounds q (ilog2 q) s1 s2
    rw [binary64_of_ne q hq'.ne']
    rcases lt_or_eq_of_le m2 with hlt | heq
    · exact binary64_scaled _ _ m1 hlt
    · rw [heq]
      have : ((2 ^ 53 : Int) : ℚ) * (2 : ℚ) ^ (ilog2 q - 52)
          = ((2 ^ 52 : Int) : ℚ) * (2 : ℚ) ^ (ilog2 q - 52 + 1) := by
        rw [zpow_add₀ (by norm_num : (2 : ℚ) ≠ 0)]
        norm_num
        ring
      rw [this]
      exact binary64_scaled _ _ (le_refl _) (by norm_num)
  · rw [← hq', binary64_zero, binary64_zero]

/-! ## `double` operations on finite, non-negative values -/

theorem Dbl.NonnegValue.nonneg {x : Dbl} (h : x.NonnegValue) : x.Nonneg := by
  obtain ⟨q, hq, h0, _⟩ := h
  exact ⟨q, hq, h0⟩

theorem nonnegValue_zero : (Dbl.fin 0).NonnegValue :=
  ⟨0, rfl, le_refl 0, binary64_zero⟩

theorem nonneg_lit (q : ℚ) (hq : 0 ≤ q) : (Dbl.lit q).Nonneg :=
  ⟨binary64 q, rfl, binary64_nonneg q hq⟩

theorem nonneg_ofInt (n : Nat) : (Dbl.ofInt (n : Int)).Nonneg :=
  ⟨binary64 ((n : Int) : ℚ), rfl, binary64_nonneg _ (by exact_mod_cast Nat.zero_le n)⟩

theorem nonneg_mul {a b : Dbl} (ha : a.Nonneg) (hb : b.Nonneg) : (Dbl.mul a b).Nonneg := by
  obtain ⟨x, rfl, hx⟩ := ha
  obtain ⟨y, rfl, hy⟩ := hb
  exact ⟨binary64 (x * y), rfl, binary64_nonneg _ (mul_nonneg hx hy)⟩

theorem nonneg_div_lit {a : Dbl} (ha : a.Nonneg) (q : ℚ) (hq : 0 < q) :
    (Dbl.div a (Dbl.lit q)).Nonneg := by
  obtain ⟨x, rfl, hx⟩ := ha
  have hpos := binary64_pos q hq
  refine ⟨binary64 (x / binary64 q), ?_, binary64_nonneg _ (div_nonneg hx hpos.le)⟩
  unfold Dbl.lit Dbl.div
  simp only [if_neg hpos.ne']

/-- Adding a finite non-negative `double` to a finite non-negative `double` gives a finite
`double` that is not below the first. -/
theorem nonnegValue_add {a b : Dbl} (ha : a.NonnegValue) (hb : b.Nonneg) :
    (Dbl.add a b).NonnegValue ∧ Dbl.le a (Dbl.add a b) = true := by
  obtain ⟨x, rfl, hx, hxr⟩ := ha
  obtain ⟨y, rfl, hy⟩ := hb
  have hle : x ≤ binary64 (x + y) := by
    have := binary64_mono x (x + y) hx (by linarith)
    rwa [hxr] at this
  refine ⟨⟨binary64 (x + y), rfl, binary64_nonneg _ (by linarith),
    binary64_idem _ (by linarith)⟩, ?_⟩
  simp only [Dbl.add, Dbl.le, decide_eq_true_eq]
  exact hle

theorem recIntSecsD_nonneg (h : Header) (hne : h.recint2 ≠ 0) : h.recIntSecsD.Nonneg := by
  have h1 : (0 : ℚ) ≤ ((h.recint1 : Int) : ℚ) := by exact_mod_cast Nat.zero_le _
  have h2 : (0 : ℚ) < ((h.recint2 : Int) : ℚ) := by exact_mod_cast Nat.pos_of_ne_zero hne
  have hpos := binary64_pos _ h2
  refine ⟨binary64 (binary64 ((h.recint1 : Int) : ℚ) / binary64 ((h.recint2 : Int) : ℚ)), ?_,
    binary64_nonneg _ (div_nonneg (binary64_nonneg _ h1) hpos.le)⟩
  unfold Header.recIntSecsD Dbl.ofInt Dbl.div
  simp only [if_neg hpos.ne']

theorem readSampleD_nonneg (le : Bool) (version : Int) (s : QDataStream) :
    (readSampleD le version s).1.Nonneg := by
  unfold readSampleD
  split_ifs
  · exact nonneg_div_lit (nonneg_mul (nonneg_ofInt _) (nonneg_lit 3 (by norm_num))) 26
      (by norm_num)
  · exact nonneg_div_lit (nonneg_mul (nonneg_ofInt _) (nonneg_lit (36 / 10) (by norm_num)))
      1000 (by norm_num)

theorem blockGapD_finite (p : Prelude) (k : Nat) : ∃ g : ℚ, blockGapD p k = .fin g := by
  have hpos := binary64_pos 1000 (by norm_num)
  unfold blockGapD Dbl.ofInt Dbl.lit Dbl.div
  simp only [if_neg hpos.ne']
  exact ⟨_, rfl⟩

theorem nonneg_of_not_lt {g r : Dbl} (hg : ∃ q : ℚ, g = .fin q) (hr : r.Nonneg)
    (h : Dbl.lt g r = false) : g.Nonneg := by
  obtain ⟨x, rfl⟩ := hg
  obtain ⟨y, rfl, hy⟩ := hr
  simp only [Dbl.lt, decide_eq_false_iff_not, not_lt] at h
  exact ⟨x, rfl, le_trans hy h⟩

/-! ## The sample loop on `double`s -/

theorem sampleStepD_km (le : Bool) (p : Prelude) (st : LoopStateD) :
    (sampleStepD le p st).km = Dbl.add st.km
      (Dbl.div (Dbl.mul p.hdr.recIntSecsD (readSampleD le p.hdr.version st.inp).1)
        (Dbl.lit 3600)) := by
  unfold sampleStepD
  simp only
  split_ifs <;> rfl

theorem sampleStepD_dataPoints (le : Bool) (p : Prelude) (st : LoopStateD) :
    (sampleStepD le p st).dataPoints
      = st.dataPoints ++ [{ secs := st.secs, km := (sampleStepD le p st).km }] := by
  unfold sampleStepD
  simp only
  split_ifs <;> rfl

theorem sampleStepD_secs (le : Bool) (p : Prelude) (st : LoopStateD) :
    SecsStepD p st.secs (sampleStepD le p st).secs := by
  unfold sampleStepD SecsStepD
  simp only
  split_ifs <;> dsimp only <;>
    first
    | exact Or.inl rfl
    | exact Or.inr ⟨st.blknum, (by assumption : _ ∧ _).2,
        Bool.eq_false_iff.mpr (by assumption), rfl⟩

theorem sampleStepD_secs_one_block (le : Bool) (p : Prelude) (st : LoopStateD)
    (hb : p.hdr.blockcnt = 1) :
    (sampleStepD le p st).secs = Dbl.add st.secs p.hdr.recIntSecsD := by
  have hno : ¬ (st.blkidx + 1 = (p.blockhdrs.getD st.blknum { dt := 0, chunkcnt := 0 }).chunkcnt ∧
      st.blknum + 1 < p.hdr.blockcnt) := by
    rw [hb]
    omega
  unfold sampleStepD
  simp only [if_neg hno]

theorem sampleStepD_pointsInv (le : Bool) (p : Prelude) (P Q : Dbl → Dbl → Prop)
    (st : LoopStateD) (hP : P st.secs (sampleStepD le p st).secs)
    (hQ : Q st.km (sampleStepD le p st).km) (h : PointsInv P Q st) :
    PointsInv P Q (sampleStepD le p st) := by
  obtain ⟨hchain, hlast⟩ := h
  unfold PointsInv
  rw [sampleStepD_dataPoints]
  refine ⟨?_, ?_⟩
  · refine List.Chain'.append hchain (List.chain'_singleton _) ?_
    intro x hx y hy
    simp only [List.head?_cons, Option.mem_def, Option.some.injEq] at hy
    subst hy
    obtain ⟨h1, h2⟩ := hlast x hx
    exact ⟨h1, by rw [h2]; exact hQ⟩
  · intro q hq
    rw [List.getLast?_concat] at hq
    simp only [Option.mem_def, Option.some.injEq] at hq
    subst hq
    exact ⟨hP, rfl⟩

theorem sampleLoopD_pointsInv (le : Bool) (p : Prelude) (I : LoopStateD → Prop)
    (P Q : Dbl → Dbl → Prop)
    (hstep : ∀ st, I st → I (sampleStepD le p st) ∧ P st.secs (sampleStepD le p st).secs ∧
      Q st.km (sampleStepD le p st).km) :
    ∀ (n : Nat) (st : LoopStateD), I st → PointsInv P Q st →
      PointsInv P Q (sampleLoopD le p n st) := by
  intro n
  induction n with
  | zero => intro st _ h; exact h
  | succ n ih =>
    intro st hI h
    rw [sampleLoopD]
    obtain ⟨h1, h2, h3⟩ := hstep st hI
    exact ih _ h1 (sampleStepD_pointsInv le p P Q st h2 h3 h)

theorem initStateD_pointsInv (p : Prelude) (P Q : Dbl → Dbl → Prop) :
    PointsInv P Q (initStateD p) := by
  unfold PointsInv initStateD
  simp

theorem sampleLoopD_length (le : Bool) (p : Prelude) :
    ∀ (n : Nat) (st : LoopStateD),
      (sampleLoopD le p n st).dataPoints.length = st.dataPoints.length + n := by
  intro n
  induction n with
  | zero => intro st; rfl
  | succ n ih =>
    intro st
    rw [sampleLoopD, ih, sampleStepD_dataPoints]
    simp
    omega

theorem openRideFileD_of_checks (le : Bool) (file : List Byte)
    (h : headerChecks (readPrelude le file)) :
    openRideFileD le file
      = (sampleLoopD le (readPrelude le file) (readPrelude le file).datacnt
          (initStateD (readPrelude le file))).dataPoints := by
  obtain ⟨h1, h2, h3⟩ := h
  unfold openRideFileD
  simp only [h1, h2, h3, not_true_eq_false, if_false]

theorem openRideFileD_of_not_checks (le : Bool) (file : List Byte)
    (h : ¬ headerChecks (readPrelude le file)) : openRideFileD le file = [] := by
  unfold headerChecks at h
  unfold openRideFileD
  simp only
  split_ifs <;>
    first
    | rfl
    | exact absurd ⟨by assumption, by assumption, by assumption⟩ h

/-- On every file, the appended samples satisfy pairwise what every pass of the sample loop
establishes between the elapsed times and between the distances before and after it. -/
theorem openRideFileD_chain (le : Bool) (file : List Byte) (I : LoopStateD → Prop)
    (P Q : Dbl → Dbl → Prop) (h0 : I (initStateD (readPrelude le file)))
    (hstep : ∀ st, I st → I (sampleStepD le (readPrelude le file) st) ∧
      P st.secs (sampleStepD le (readPrelude le file) st).secs ∧
      Q st.km (sampleStepD le (readPrelude le file) st).km) :
    List.Chain' (fun a b : PointD => P a.secs b.secs ∧ Q a.km b.km) (openRideFileD le file) := by
  by_cases h : headerChecks (readPrelude le file)
  · rw [openRideFileD_of_checks le file h]
    exact (sampleLoopD_pointsInv le _ I P Q hstep _ _ h0 (initStateD_pointsInv _ P Q)).1
  · rw [openRideFileD_of_not_checks le file h]
    exact List.chain'_nil

theorem getElem?_map_some {α β : Type} (f : α → β) (l : List α) (i : Nat) (y : β)
    (h : (l.map f)[i]? = some y) : ∃ a, l[i]? = some a ∧ f a = y := by
  rw [List.getElem?_map] at h
  exact Option.map_eq_some'.mp h

theorem sampleLoopD_succ (le : Bool) (p : Prelude) :
    ∀ (n : Nat) (st : LoopStateD),
      sampleLoopD le p (n + 1) st = sampleStepD le p (sampleLoopD le p n st) := by
  intro n
  induction n with
  | zero => intro st; rfl
  | succ n ih =>
    intro st
    rw [sampleLoopD, ih (sampleStepD le p st)]
    rfl

theorem sampleLoopD_secs_one_block (le : Bool) (p : Prelude) (hb : p.hdr.blockcnt = 1) :
    ∀ n : Nat,
      (sampleLoopD le p n (initStateD p)).secs = repeatedSum p.hdr.recIntSecsD n ∧
      (sampleLoopD le p n (initStateD p)).dataPoints.map (fun pt => pt.secs)
        = (List.range n).map (repeatedSum p.hdr.recIntSecsD) := by
  intro n
  induction n with
  | zero => exact ⟨rfl, rfl⟩
  | succ n ih =>
    obtain ⟨h1, h2⟩ := ih
    rw [sampleLoopD_succ]
    refine ⟨?_, ?_⟩
    · rw [sampleStepD_secs_one_block le p _ hb, h1]
      rfl
    · rw [sampleStepD_dataPoints, List.map_append, h2, List.range_succ, List.map_append, h1]
      rfl

theorem sampleLoopD_dataPoints_ext (le : Bool) (p : Prelude) :
    ∀ (n : Nat) (st : LoopStateD),
      ∃ ext, (sampleLoopD le p n st).dataPoints = st.dataPoints ++ ext := by
  intro n
  induction n with
  | zero => intro st; exact ⟨[], by simp [sampleLoopD]⟩
  | succ n ih =>
    intro st
    obtain ⟨ext, h⟩ := ih (sampleStepD le p st)
    rw [sampleLoopD, h, sampleStepD_dataPoints, List.append_assoc]
    exact ⟨_, rfl⟩

/-- Repeated addition is multiplication as long as every multiple is a value of
binary64. -/
theorem repeatedSum_exact (ρ : ℚ) :
    ∀ i : Nat, (∀ j : Nat, j ≤ i → binary64 ((j : ℚ) * ρ) = (j : ℚ) * ρ) →
      repeatedSum (.fin ρ) i = .fin ((i : ℚ) * ρ) := by
  intro i
  induction i with
  | zero =>
    intro _
    simp [repeatedSum]
  | succ i ih =>
    intro h
    rw [repeatedSum, ih (fun j hj => h j (Nat.le_succ_of_le hj))]
    have := h (i + 1) (le_refl _)
    simp only [Dbl.add]
    rw [show (i : ℚ) * ρ + ρ = ((i + 1 : ℕ) : ℚ) * ρ by push_cast; ring, this]

/-- The second embedding appends the same number of samples as `openRideFile`. -/
theorem openRideFileD_length (le : Bool) (file : List Byte) :
    (openRideFileD le file).length = (openRideFile le file).result.dataPoints.length := by
  by_cases h : headerChecks (readPrelude le file)
  · rw [openRideFileD_of_checks le file h, sampleLoopD_length, openRideFile_dataPoints le file h,
      afterSamples_length]
    simp [initStateD]
  · rw [openRideFileD_of_not_checks le file h, openRideFile_of_not_checks le file h]
    rfl

/-! ## Elapsed time and distance as `double`s: the claims -/

/-- C3, counterexample.  `fileTenthSecond` passes the header checks and has a recording
interval of 1/10 s, which as a `double` is `3602879701896397 / 2 ^ 55`.  Its samples 3 and
4 are emitted with the elapsed times `0.30000000000000004` and `0.4`: their difference,
taken exactly or as the `double` subtraction, is below the recording interval, because
each addition of the loop is rounded.  `fileZeroDivisor` (`recint2 = 0`) has an infinite
recording interval, the elapsed times `0, inf, inf, ...` and the difference `inf - inf`,
a NaN; `fileZeroOverZero` has a NaN recording interval and the elapsed times
`0, NaN, NaN, ...`, which are not ordered. -/
theorem secs_step_below_recording_interval :
    headerChecks (readPrelude true fileTenthSecond) ∧
    (readPrelude true fileTenthSecond).hdr.recIntSecsD
      = .fin (3602879701896397 / 36028797018963968) ∧
    (elapsedD true fileTenthSecond)[3]? = some (.fin (1351079888211149 / 4503599627370496)) ∧
    (elapsedD true fileTenthSecond)[3 + 1]?
      = some (.fin (3602879701896397 / 9007199254740992)) ∧
    (3602879701896397 / 9007199254740992 - 1351079888211149 / 4503599627370496 : ℚ)
      < 3602879701896397 / 36028797018963968 ∧
    Dbl.le (readPrelude true fileTenthSecond).hdr.recIntSecsD
      (Dbl.sub (.fin (3602879701896397 / 9007199254740992))
        (.fin (1351079888211149 / 4503599627370496))) = false ∧
    headerChecks (readPrelude true fileZeroDivisor) ∧
    (readPrelude true fileZeroDivisor).hdr.recIntSecsD = .pinf ∧
    elapsedD true fileZeroDivisor = [.fin 0, .pinf, .pinf, .pinf, .pinf] ∧
    Dbl.le .pinf (Dbl.sub .pinf .pinf) = false ∧
    headerChecks (readPrelude true fileZeroOverZero) ∧
    (readPrelude true fileZeroOverZero).hdr.recIntSecsD = .nan ∧
    elapsedD true fileZeroOverZero = [.fin 0, .nan, .nan, .nan, .nan] ∧
    Dbl.le (.fin 0) .nan = false ∧ Dbl.le .nan .nan = false := by
  decide!

/-- C3, amended.  On every file whose divisor `recint2` of the recording interval is not
0, on either host, for every two consecutive samples with the elapsed times `x` and `y`
(as `double`s): `y` is the `double` sum of `x` and the recording interval, or the `double`
sum of `x` and the computed gap of a block transition that is not below the recording
interval; and `x ≤ y`, so the elapsed time is non-decreasing. -/
theorem openRideFile_secs_step_rounded (le : Bool) (file : List Byte) (i : Nat) (x y : Dbl)
    (hrec : (readPrelude le file).hdr.recint2 ≠ 0)
    (hx : (elapsedD le file)[i]? = some x) (hy : (elapsedD le file)[i + 1]? = some y) :
    (y = Dbl.add x (readPrelude le file).hdr.recIntSecsD ∨
      ∃ k, k + 1 < (readPrelude le file).hdr.blockcnt ∧
        Dbl.lt (blockGapD (readPrelude le file) k) (readPrelude le file).hdr.recIntSecsD
          = false ∧
        y = Dbl.add x (blockGapD (readPrelude le file) k)) ∧
    Dbl.le x y = true := by
  have hr := recIntSecsD_nonneg (readPrelude le file).hdr hrec
  have hchain := openRideFileD_chain le file (fun st => st.secs.NonnegValue)
    (fun a b => SecsStepD (readPrelude le file) a b ∧ Dbl.le a b = true) (fun _ _ => True)
    nonnegValue_zero
    (by
      intro st hst
      have hs := sampleStepD_secs le (readPrelude le file) st
      have key : (sampleStepD le (readPrelude le file) st).secs.NonnegValue ∧
          Dbl.le st.secs (sampleStepD le (readPrelude le file) st).secs = true := by
        rcases hs with h | ⟨k, _, hk, h⟩
        · rw [h]
          exact nonnegValue_add hst hr
        · rw [h]
          exact nonnegValue_add hst (nonneg_of_not_lt (blockGapD_finite _ k) hr hk)
      exact ⟨key.1, ⟨hs, key.2⟩, trivial⟩)
  obtain ⟨a, ha, hax⟩ := getElem?_map_some _ _ _ _ hx
  obtain ⟨b, hb, hby⟩ := getElem?_map_some _ _ _ _ hy
  have h := (chain_getElem _ i a b hchain ha hb).1
  rw [hax, hby] at h
  exact h

/-- Witness of the amended C3 on `fileTenthSecond`, samples 3 and 4. -/
theorem openRideFile_secs_step_rounded_witness :
    (.fin (3602879701896397 / 9007199254740992) : Dbl)
      = Dbl.add (.fin (1351079888211149 / 4503599627370496))
          (readPrelude true fileTenthSecond).hdr.recIntSecsD ∧
    Dbl.le (.fin (1351079888211149 / 4503599627370496))
      (.fin (3602879701896397 / 9007199254740992)) = true :=
  ⟨by decide!,
    (openRideFile_secs_step_rounded true fileTenthSecond 3
      (.fin (1351079888211149 / 4503599627370496))
      (.fin (3602879701896397 / 9007199254740992)) (by decide!) (by decide!) (by decide!)).2⟩

/-- C15, counterexample.  `fileZeroOverZero` passes the header checks and has
`recint1 = recint2 = 0`: the recording interval `0.0 / 0` is a NaN, every pass adds a NaN
to `km`, and the distances of the 5 samples are NaNs, for which `km[i] <= km[i+1]` is
false. -/
theorem distance_not_ordered_without_interval :
    headerChecks (readPrelude true fileZeroOverZero) ∧
    (readPrelude true fileZeroOverZero).hdr.recint1 = 0 ∧
    (readPrelude true fileZeroOverZero).hdr.recint2 = 0 ∧
    (readPrelude true fileZeroOverZero).hdr.recIntSecsD = .nan ∧
    distancesD true fileZeroOverZero = [.nan, .nan, .nan, .nan, .nan] ∧
    (distancesD true fileZeroOverZero)[0]? = some .nan ∧
    (distancesD true fileZeroOverZero)[0 + 1]? = some .nan ∧
    Dbl.le .nan .nan = false := by
  decide!

/-- C15, amended.  On every file whose divisor `recint2` of the recording interval is not
0, of version 6 or 7 and on either host, the cumulative distance of the emitted samples
(as `double`s) is non-decreasing: `km[i] <= km[i+1]` for every two consecutive samples. -/
theorem openRideFile_km_monotone_finite (le : Bool) (file : List Byte) (i : Nat) (x y : Dbl)
    (hrec : (readPrelude le file).hdr.recint2 ≠ 0)
    (hx : (distancesD le file)[i]? = some x) (hy : (distancesD le file)[i + 1]? = some y) :
    Dbl.le x y = true := by
  have hr := recIntSecsD_nonneg (readPrelude le file).hdr hrec
  have hchain := openRideFileD_chain le file (fun st => st.km.NonnegValue)
    (fun _ _ => True) (fun a b => Dbl.le a b = true)
    nonnegValue_zero
    (by
      intro st hst
      have key := nonnegValue_add hst
        (nonneg_div_lit (nonneg_mul hr
          (readSampleD_nonneg le (readPrelude le file).hdr.version st.inp)) 3600 (by norm_num))
      rw [← sampleStepD_km] at key
      exact ⟨key.1, trivial, key.2⟩)
  obtain ⟨a, ha, hax⟩ := getElem?_map_some _ _ _ _ hx
  obtain ⟨b, hb, hby⟩ := getElem?_map_some _ _ _ _ hy
  have h := (chain_getElem _ i a b hchain ha hb).2
  rw [hax, hby] at h
  exact h

/-- Witness of the amended C15 on the version 7 file `fileNoMarkers` (recording interval
1/2 s, two samples at 3.6 km/h): the distances are `0.0005` and `0.001` km. -/
theorem openRideFile_km_monotone_finite_witness :
    (readPrelude false fileNoMarkers).hdr.version = 7 ∧
    distancesD false fileNoMarkers
      = [.fin (1152921504606847 / 2305843009213693952),
         .fin (1152921504606847 / 1152921504606846976)] ∧
    Dbl.le (.fin (1152921504606847 / 2305843009213693952))
      (.fin (1152921504606847 / 1152921504606846976)) = true :=
  ⟨by decide!, by decide!,
    openRideFile_km_monotone_finite false fileNoMarkers 0
      (.fin (1152921504606847 / 2305843009213693952))
      (.fin (1152921504606847 / 1152921504606846976)) (by decide!) (by decide!) (by decide!)⟩

/-- C18, counterexample.  `fileTenthSecond` passes the header checks, has one block and a
recording interval of 1/10 s.  Its sample 6 is emitted with the elapsed time
`0.6` (`5404319552844595 / 2 ^ 53`), the sum of six rounded additions, which is neither
the `double` product `6 * recIntSecs` (`0.6000000000000001`), nor the exact product of 6
and the `double` recording interval, nor 6/10. -/
theorem secs_is_not_a_multiple_of_the_interval :
    headerChecks (readPrelude true fileTenthSecond) ∧
    (readPrelude true fileTenthSecond).hdr.blockcnt = 1 ∧
    (readPrelude true fileTenthSecond).datacnt = 7 ∧
    (readPrelude true fileTenthSecond).hdr.recIntSecsD
      = .fin (3602879701896397 / 36028797018963968) ∧
    (elapsedD true fileTenthSecond)[6]? = some (.fin (5404319552844595 / 9007199254740992)) ∧
    Dbl.mul (Dbl.ofInt 6) (readPrelude true fileTenthSecond).hdr.recIntSecsD
      = .fin (5404319552844596 / 9007199254740992) ∧
    (elapsedD true fileTenthSecond)[6]?
      ≠ some (Dbl.mul (Dbl.ofInt 6) (readPrelude true fileTenthSecond).hdr.recIntSecsD) ∧
    (elapsedD true fileTenthSecond)[6]?
      ≠ some (.fin (6 * (3602879701896397 / 36028797018963968))) ∧
    (elapsedD true fileTenthSecond)[6]? ≠ some (.fin (6 * (1 / 10))) := by
  decide!

/-- C18, amended.  On every file that passes the header checks, the first emitted sample
has the elapsed time 0; when the file has exactly one block, sample `i` has the elapsed
time `((0 + r) + r) + ... + r`, the recording interval `r` added `i` times in `double`
arithmetic, for every `i < datacnt` and whatever chunk count the block declares; and this
is exactly `i` times the recording interval whenever all the multiples of the recording
interval up to the `i`-th are values of `double`. -/
theorem openRideFile_secs_one_block_rounded (le : Bool) (file : List Byte)
    (h : headerChecks (readPrelude le file)) :
    (0 < (readPrelude le file).datacnt → (elapsedD le file)[0]? = some (.fin 0)) ∧
    ((readPrelude le file).hdr.blockcnt = 1 →
      ∀ i : Nat, i < (readPrelude le file).datacnt →
        (elapsedD le file)[i]? = some (repeatedSum (readPrelude le file).hdr.recIntSecsD i) ∧
        ∀ ρ : ℚ, (readPrelude le file).hdr.recIntSecsD = .fin ρ →
          (∀ j : Nat, j ≤ i → binary64 ((j : ℚ) * ρ) = (j : ℚ) * ρ) →
          (elapsedD le file)[i]? = some (.fin ((i : ℚ) * ρ))) := by
  unfold elapsedD
  rw [openRideFileD_of_checks le file h]
  refine ⟨?_, ?_⟩
  · intro hn
    obtain ⟨n, hn'⟩ : ∃ n, (readPrelude le file).datacnt = n + 1 :=
      ⟨(readPrelude le file).datacnt - 1, by omega⟩
    rw [hn', sampleLoopD]
    obtain ⟨ext, hext⟩ := sampleLoopD_dataPoints_ext le (readPrelude le file) n
      (sampleStepD le (readPrelude le file) (initStateD (readPrelude le file)))
    rw [hext, sampleStepD_dataPoints]
    simp [initStateD]
  · intro hb i hi
    have hsum : ((sampleLoopD le (readPrelude le file) (readPrelude le file).datacnt
        (initStateD (readPrelude le file))).dataPoints.map (fun pt => pt.secs))[i]?
        = some (repeatedSum (readPrelude le file).hdr.recIntSecsD i) := by
      rw [(sampleLoopD_secs_one_block le (readPrelude le file) hb _).2, List.getElem?_map,
        List.getElem?_range hi]
      rfl
    refine ⟨hsum, ?_⟩
    intro ρ hρ hexact
    rw [hsum, hρ, repeatedSum_exact ρ i hexact]

/-- Witness of the amended C18 on `fileOneBlock` (recording interval 1/2 s, one block that
declares 2 samples, 5 samples): sample 4 is at 2 s, which is 4 times 1/2 s. -/
theorem openRideFile_secs_one_block_rounded_witness :
    (readPrelude true fileOneBlock).hdr.blockcnt = 1 ∧
    (readPrelude true fileOneBlock).blockhdrs.map (fun b => b.chunkcnt) = [2] ∧
    (readPrelude true fileOneBlock).datacnt = 5 ∧
    (elapsedD true fileOneBlock)[0]? = some (.fin 0) ∧
    (elapsedD true fileOneBlock)[4]?
      = some (repeatedSum (readPrelude true fileOneBlock).hdr.recIntSecsD 4) ∧
    (elapsedD true fileOneBlock)[4]? = some (.fin (((4 : ℕ) : ℚ) * (1 / 2))) :=
  ⟨by decide!, by decide!, by decide!,
    (openRideFile_secs_one_block_rounded true fileOneBlock (by decide!)).1 (by decide!),
    ((openRideFile_secs_one_block_rounded true fileOneBlock (by decide!)).2 (by decide!) 4
      (by decide!)).1,
    ((openRideFile_secs_one_block_rounded true fileOneBlock (by decide!)).2 (by decide!) 4
      (by decide!)).2 (1 / 2) (by decide!)
      (by
        intro j hj
        interval_cases j <;> decide!)⟩

end SrmRideFile
